import Mathlib

/-!
Verification of the chunk-calculation pipeline of `closure-calculate-chunks`.

The development shallowly embeds the JavaScript sources:
  * `lib/graph-node.js` / the graph-node records used by `lib/find-dependencies.js`
    (the data model: a chunk node with `name`, `sources`, `deps`, `childChunks`);
  * `lib/normalize-graph.js` (ownership normalization and its internal
    path-enumeration / lowest-common-ancestor helpers);
  * `lib/common-ancestors.js` and `lib/lowest-common-ancestor.js`;
  * `lib/chunk-graph.js` (`toDependencyGraph`, `getClosureCompilerFlags`);
  * `lib/find-dependencies.js` (the recursive dependency walker and
    `findDepsFromEntryPoints`);
  * `lib/resolve-from.js` (`findMainEntryWithPackageJsonEntryNames`);
  * the CLI output handler of `index.js`.

JavaScript `Map`s and `Set`s are modelled as insertion-ordered association
lists / duplicate-free lists; file paths and node names are `String`s.
External collaborators (the filesystem, the `acorn` parser, `graphlib`'s
`dijkstra`, `path.relative`) are modelled as explicit oracle parameters or as
the mathematical functions they compute, as noted at each definition.
-/

set_option maxHeartbeats 1000000

/-! ## The data model: graph nodes and the load-order graph -/

/-- A chunk node, as built by `find-dependencies.js` / `graph-node.js`:
`name` is the chunk's entry file, `sources` the files owned by the chunk
(an insertion-ordered set), `deps` the transitive static dependencies and
`childChunks` the dynamically imported chunk entry points. -/
structure GraphNode where
  name : String
  sources : List String
  deps : List String
  childChunks : List String
  deriving Repr, DecidableEq

/-- A directed graph in the style of `graphlib.Graph({directed: true})`:
nodes are keyed by name and carry a `GraphNode` record, edges are ordered
pairs `(v, w)` for an edge `v → w`. -/
structure Graph where
  nodes : List (String × GraphNode)
  edges : List (String × String)
  deriving Repr, DecidableEq

namespace Graph

/-- `graph.nodes()`: the list of node names. -/
def nodeNames (g : Graph) : List String :=
  g.nodes.map (·.1)

/-- `graph.node(name)`: look up a node's record. -/
def node? (g : Graph) (name : String) : Option GraphNode :=
  (g.nodes.find? (·.1 == name)).map (·.2)

/-- `graph.inEdges(v)`: edges pointing to `v`. -/
def inEdges (g : Graph) (v : String) : List (String × String) :=
  g.edges.filter (·.2 == v)

/-- `graph.inEdges(v, u)`: edges from `u` pointing to `v`. -/
def inEdgesFrom (g : Graph) (v u : String) : List (String × String) :=
  g.edges.filter (fun e => e.2 == v && e.1 == u)

/-- `graph.outEdges(v, w)`: edges from `v` pointing to `w`. -/
def outEdgesTo (g : Graph) (v w : String) : List (String × String) :=
  g.edges.filter (fun e => e.1 == v && e.2 == w)

/-- The parents of `v`: `graph.inEdges(v).map((edge) => edge.v)`. -/
def parentsOf (g : Graph) (v : String) : List String :=
  (g.inEdges v).map (·.1)

/-- `graph.setNode(name, record)`: register or replace the record stored
under `name` (graphlib keeps one record per node name). -/
def setNode (g : Graph) (name : String) (n : GraphNode) : Graph :=
  if g.nodes.any (fun p => decide (p.1 = name)) then
    { g with nodes := g.nodes.map (fun p => if p.1 = name then (name, n) else p) }
  else
    { g with nodes := g.nodes ++ [(name, n)] }

/-- `graph.setEdge(v, w)`: record the edge if it is not present yet
(graphlib stores at most one unlabelled edge per ordered pair). -/
def setEdge (g : Graph) (v w : String) : Graph :=
  if (v, w) ∈ g.edges then g else { g with edges := g.edges ++ [(v, w)] }

/-- Membership of an edge `v → w`. -/
def hasEdge (g : Graph) (v w : String) : Prop :=
  (v, w) ∈ g.edges

instance (g : Graph) (v w : String) : Decidable (g.hasEdge v w) :=
  inferInstanceAs (Decidable ((v, w) ∈ g.edges))

/-- Apply `f` to the record of every node entry named `name` (JavaScript
mutates the single record object registered under `name`; node names are
unique in a `graphlib` graph). -/
def updateNode (g : Graph) (name : String) (f : GraphNode → GraphNode) : Graph :=
  { g with nodes := g.nodes.map (fun p => if p.1 = name then (p.1, f p.2) else p) }

end Graph

/-! ## Insertion-ordered set and map helpers (JavaScript `Set` / `Map`) -/

/-- `set.add(x)` on an insertion-ordered set represented as a list. -/
def jsSetAdd (s : List String) (x : String) : List String :=
  if x ∈ s then s else s ++ [x]

/-- `new Set(xs)`: deduplicate keeping first occurrences. -/
def jsSetOfList (xs : List String) : List String :=
  xs.foldl jsSetAdd []

theorem mem_jsSetAdd {s : List String} {x y : String} :
    y ∈ jsSetAdd s x ↔ y ∈ s ∨ y = x := by
  unfold jsSetAdd
  split
  · constructor
    · exact fun h => Or.inl h
    · rintro (h | rfl)
      · exact h
      · assumption
  · simp [or_comm]

theorem mem_jsSetOfList {xs : List String} {y : String} :
    y ∈ jsSetOfList xs ↔ y ∈ xs := by
  unfold jsSetOfList
  suffices h : ∀ (acc : List String), y ∈ xs.foldl jsSetAdd acc ↔ y ∈ acc ∨ y ∈ xs by
    simpa using h []
  induction xs with
  | nil => intro acc; simp
  | cons a tl ih =>
    intro acc
    rw [List.foldl_cons, ih, mem_jsSetAdd]
    constructor
    · rintro ((h | rfl) | h)
      · exact Or.inl h
      · exact Or.inr (List.mem_cons_self _ _)
      · exact Or.inr (List.mem_cons_of_mem _ h)
    · rintro (h | h)
      · exact Or.inl (Or.inl h)
      · rcases List.mem_cons.mp h with rfl | h
        · exact Or.inl (Or.inr rfl)
        · exact Or.inr h

/-- Look up a key in an insertion-ordered association list (`map.get(k)`). -/
def jsMapGet {κ α : Type} [DecidableEq κ] (m : List (κ × α)) (k : κ) : Option α :=
  (m.find? (fun p => decide (p.1 = k))).map (·.2)

/-- `map.set(k, v)`: replace the value under `k`, or append a new entry. -/
def jsMapSet {κ α : Type} [DecidableEq κ] (m : List (κ × α)) (k : κ) (v : α) :
    List (κ × α) :=
  if m.any (fun p => decide (p.1 = k)) then
    m.map (fun p => if p.1 = k then (k, v) else p)
  else
    m ++ [(k, v)]

/-! ## `lib/normalize-graph.js` -/

namespace NormalizeGraphJs

/-- `getNodesReferencingSource(graph)`: map from each source path to the set of
node names whose `sources` contain it. -/
def getNodesReferencingSource (g : Graph) : List (String × List String) :=
  g.nodes.foldl
    (fun m entry =>
      entry.2.sources.foldl
        (fun m source =>
          match jsMapGet m source with
          | some referencingNodes => jsMapSet m source (jsSetAdd referencingNodes entry.1)
          | none => jsMapSet m source (jsSetAdd [] entry.1))
        m)
    []

/-- `Array.prototype.join(' ')` (JavaScript standard library). -/
def joinSpace : List String → String
  | [] => ""
  | [x] => x
  | x :: y :: rest => x ++ " " ++ joinSpace (y :: rest)

/-- Insert `x` into a list sorted by the boolean comparator `le`. -/
def insertSortedBy (le : String → String → Bool) (x : String) : List String → List String
  | [] => [x]
  | y :: rest => if le x y then x :: y :: rest else y :: insertSortedBy le x rest

/-- `Array.prototype.sort(comparator)` (JavaScript standard library): a stable
comparison sort, modelled as insertion sort. -/
def sortWithComparator (le : String → String → Bool) (l : List String) : List String :=
  l.foldr (insertSortedBy le) []

theorem mem_insertSortedBy {le : String → String → Bool} {x y : String} :
    ∀ {l : List String}, y ∈ insertSortedBy le x l ↔ y = x ∨ y ∈ l := by
  intro l
  induction l with
  | nil => simp [insertSortedBy]
  | cons z rest ih =>
    unfold insertSortedBy
    by_cases h : le x z = true
    · rw [if_pos h]
      simp
    · rw [if_neg h]
      rw [List.mem_cons, ih, List.mem_cons]
      tauto

theorem mem_sortWithComparator {le : String → String → Bool} {y : String} :
    ∀ {l : List String}, y ∈ sortWithComparator le l ↔ y ∈ l := by
  intro l
  induction l with
  | nil => simp [sortWithComparator]
  | cons z rest ih =>
    show y ∈ insertSortedBy le z (sortWithComparator le rest) ↔ _
    rw [mem_insertSortedBy, ih, List.mem_cons]

theorem length_insertSortedBy (le : String → String → Bool) (x : String) :
    ∀ (l : List String), (insertSortedBy le x l).length = l.length + 1 := by
  intro l
  induction l with
  | nil => rfl
  | cons z rest ih =>
    unfold insertSortedBy
    by_cases h : le x z = true
    · rw [if_pos h]
      rfl
    · rw [if_neg h]
      simp only [List.length_cons, ih]

theorem length_sortWithComparator (le : String → String → Bool) :
    ∀ (l : List String), (sortWithComparator le l).length = l.length := by
  intro l
  induction l with
  | nil => rfl
  | cons z rest ih =>
    show (insertSortedBy le z (sortWithComparator le rest)).length = _
    rw [length_insertSortedBy, ih]
    rfl

/-- The default string order of `Array.prototype.sort()`, computed on the
character lists; `strLeB_eq_decide_le` shows it is the standard string
order (the character-list form kernel-computes, `String.decidableLE` does
not). -/
def strLeB (a b : String) : Bool := decide (a.toList ≤ b.toList)

theorem strLeB_eq_decide_le (a b : String) : strLeB a b = decide (a ≤ b) := by
  unfold strLeB
  rw [decide_eq_decide]
  exact String.le_iff_toList_le.symm

/-- `Array.prototype.sort()` with the default comparator: lexicographic string
order (JavaScript standard library). -/
def sortJs (l : List String) : List String :=
  sortWithComparator strLeB l

/-- `Array.from(nodes).sort().join(' ')`: the key under which a set of owner
nodes is grouped. -/
def combinationKey (nodes : List String) : String :=
  joinSpace (sortJs nodes)

/-- The `{sourceSet, nodes}` record stored in the combination map. -/
structure SourceSetInfo where
  sourceSet : List String
  nodes : List String
  deriving Repr, DecidableEq

/-- `addNodeToCombinationMap(source, nodes, nodeCombinations)`. -/
def addNodeToCombinationMap (source : String) (nodes : List String)
    (nodeCombinations : List (String × SourceSetInfo)) : List (String × SourceSetInfo) :=
  let key := combinationKey nodes
  match jsMapGet nodeCombinations key with
  | some sourceSetInfo =>
      jsMapSet nodeCombinations key
        { sourceSetInfo with sourceSet := jsSetAdd sourceSetInfo.sourceSet source }
  | none =>
      jsMapSet nodeCombinations key { sourceSet := jsSetAdd [] source, nodes := nodes }

/-- `pathsToEntrypoint(startingNode, graph, cache)` of `normalize-graph.js`:
enumerate every ancestor path from `startingNode` to a parentless node by
climbing in-edges.  The source memoizes results in `cache`, which on acyclic
graphs is observationally pure; the recursion is bounded here by `fuel`
(callers pass `g.nodes.length + 1`, enough for every path of an acyclic
graph). -/
def pathsToEntrypoint (g : Graph) : Nat → String → List (List String)
  | 0, _ => []
  | fuel + 1, startingNode =>
    let parentNodes := g.parentsOf startingNode
    if parentNodes.isEmpty then
      [[startingNode]]
    else
      parentNodes.flatMap (fun parentNode =>
        (pathsToEntrypoint g fuel parentNode).map (fun parentPath => startingNode :: parentPath))

/-- The successors of `v` (targets of out-edges). -/
def successors (g : Graph) (v : String) : List String :=
  (g.edges.filter (·.1 == v)).map (·.2)

/-- Nodes reachable from `e` by a walk of length at most `k`. -/
def reachIn (g : Graph) (e : String) : Nat → List String
  | 0 => [e]
  | k + 1 =>
    let prev := reachIn g e k
    jsSetOfList (prev ++ prev.flatMap (successors g))

/-- Models `graphlib.alg.dijkstra(graph, entrypoint, () => 1)` (external
library call): with unit edge weights the distance of `v` is the least length
of a walk from `entrypoint` to `v`, and `none` models the `Infinity` distance
of an unreachable node.  Walks in a graph with `n` nodes that reach a node at
all do so within `n` steps, hence the search bound. -/
def dijkstraDist (g : Graph) (entrypoint v : String) : Option Nat :=
  (List.range (g.nodes.length + 1)).find? (fun k => (reachIn g entrypoint k).contains v)

/-- The sort comparator shared by both lowest-common-ancestor implementations:
descending by distance from the entrypoint (`Infinity` first), ties broken by
`a.localeCompare(b)`.  `distNameLe dist a b` says `a` sorts no later than
`b`. -/
def distNameLe (dist : String → Option Nat) (a b : String) : Bool :=
  match dist a, dist b with
  | none, none => decide (a ≤ b)
  | none, some _ => true
  | some _, none => false
  | some da, some db => if da = db then decide (a ≤ b) else decide (db < da)

/-- Refine a set of candidate ancestors to those present on every path of
`paths` (the inner `nodesToDelete` loops of `lowestCommonAncestor`). -/
def refineWithPaths (valid : List String) (paths : List (List String)) : List String :=
  paths.foldl (fun valid path => valid.filter (fun v => path.contains v)) valid

/-- `lowestCommonAncestor(entrypoint, sourceNodes, graph, nodeDistanceFromEntrypoint)`
of `normalize-graph.js`: intersect the node sets of all enumerated paths of all
`sourceNodes`, sort by the distance comparator and take the first element
(`undefined`, i.e. `none`, when no common node survives).  The `entrypoint`
argument is unused, exactly as in the source. -/
def lowestCommonAncestor (entrypoint : String) (sourceNodes : List String) (g : Graph)
    (dist : String → Option Nat) (fuel : Nat) : Option String :=
  let _ := entrypoint
  let validNodes :=
    (sourceNodes.foldl
      (fun acc sourceNode =>
        let entrypointPaths := pathsToEntrypoint g fuel sourceNode
        match acc with
        | none => some (refineWithPaths (jsSetOfList (entrypointPaths.headD [])) entrypointPaths.tail)
        | some valid => some (refineWithPaths valid entrypointPaths))
      none).getD []
  (sortWithComparator (distNameLe dist) validNodes).head?

/-- The result of `normalizeGraph`: the (source-filtered) graph together with
the returned `sourcesToHoist` map.  The map key is the lowest common ancestor
chosen for a group, which in the source may be `undefined` (`none`). -/
structure NormalizeResult where
  graph : Graph
  sourcesToHoist : List (Option String × List String)
  deriving Repr, DecidableEq

/-- The reduction of `nodesBySource` to the sources referenced in more than
one node, grouped by owner combination (the first `forEach` of
`normalizeGraph`). -/
def sourceNodeCombinationsOf (nodesBySource : List (String × List String)) :
    List (String × SourceSetInfo) :=
  nodesBySource.foldl
    (fun m p =>
      if 1 < p.2.length then addNodeToCombinationMap p.1 p.2 m else m)
    []

/-- `if (!existingSourcesToHoistForLCA.includes(source)) push(source)` on the
hoist map. -/
def recordHoist (sourcesToHoist : List (Option String × List String))
    (lca : Option String) (source : String) : List (Option String × List String) :=
  let existing := (jsMapGet sourcesToHoist lca).getD []
  let existing := if source ∈ existing then existing else existing ++ [source]
  jsMapSet sourcesToHoist lca existing

/-- `sourceInfo.nodes.forEach(...)`: remove `source` from the `sources` of
every referencing node other than the chosen ancestor. -/
def deleteSourceFromNonLcaOwners (nodes : List String) (lca : Option String)
    (source : String) (g : Graph) : Graph :=
  nodes.foldl
    (fun gr referencingNodeName =>
      if some referencingNodeName = lca then gr
      else
        gr.updateNode referencingNodeName
          (fun node => { node with sources := node.sources.filter (fun s => s ≠ source) }))
    g

/-- `sourceInfo.sourceSet.forEach(...)`: hoist each source of a group to the
group's lowest common ancestor. -/
def hoistGroupSources (sourceInfo : SourceSetInfo) (lca : Option String)
    (res : NormalizeResult) : NormalizeResult :=
  sourceInfo.sourceSet.foldl
    (fun res source =>
      ⟨deleteSourceFromNonLcaOwners sourceInfo.nodes lca source res.graph,
       recordHoist res.sourcesToHoist lca source⟩)
    res

/-- `normalizeGraph(entrypoint, graph)`: group the sources owned by more than
one node by their owner set, pick a lowest common ancestor per group, record
each shared source in the hoist map under that ancestor and delete it from the
`sources` of every other owner. -/
def normalizeGraph (entrypoint : String) (g : Graph) : NormalizeResult :=
  let nodeDistanceFromEntrypoint := dijkstraDist g entrypoint
  let nodesBySource := getNodesReferencingSource g
  let sourceNodeCombinations := sourceNodeCombinationsOf nodesBySource
  sourceNodeCombinations.foldl
    (fun res p =>
      let sourceInfo := p.2
      let lca := lowestCommonAncestor entrypoint sourceInfo.nodes res.graph
        nodeDistanceFromEntrypoint (res.graph.nodes.length + 1)
      hoistGroupSources sourceInfo lca res)
    ⟨g, []⟩

end NormalizeGraphJs

/-- The distinct node names owning source `s` (the nodes whose `sources`
contain `s`). -/
def ownersOf (g : Graph) (s : String) : List String :=
  jsSetOfList ((g.nodes.filter (fun p => decide (s ∈ p.2.sources))).map (·.1))

/-- `OwnsSource g m s`: some node entry named `m` lists `s` among its sources. -/
def OwnsSource (g : Graph) (m s : String) : Prop :=
  ∃ p ∈ g.nodes, p.1 = m ∧ s ∈ p.2.sources

/-! ### Association-list lemmas -/

theorem jsMapGet_jsMapSet_self {κ α : Type} [DecidableEq κ] (m : List (κ × α)) (k : κ) (v : α) :
    jsMapGet (jsMapSet m k v) k = some v := by
  unfold jsMapGet jsMapSet
  split
  · rename_i hany
    induction m with
    | nil => simp at hany
    | cons p tl ih =>
      by_cases hp : p.1 = k
      · simp only [List.map_cons, if_pos hp]
        rw [List.find?_cons_of_pos _ (by simp)]
        simp
      · simp only [List.any_cons] at hany
        simp only [hp, decide_False, Bool.false_or] at hany
        simp only [List.map_cons, if_neg hp]
        rw [List.find?_cons_of_neg _ (by simpa using hp)]
        exact ih hany
  · simp only [List.find?_append]
    rw [List.find?_eq_none.mpr, Option.none_or]
    · rw [List.find?_cons_of_pos _ (by simp)]
      simp
    · rename_i hany
      intro p hp
      simp only [List.any_eq_true, not_exists, not_and] at hany
      simpa using fun hh => by simpa [hh] using hany p hp

theorem jsMapGet_jsMapSet_ne {κ α : Type} [DecidableEq κ] (m : List (κ × α)) (k k' : κ) (v : α)
    (h : k' ≠ k) : jsMapGet (jsMapSet m k v) k' = jsMapGet m k' := by
  have hmap : ∀ (tl : List (κ × α)),
      List.find? (fun p => decide (p.1 = k')) (tl.map (fun p => if p.1 = k then (k, v) else p)) =
        List.find? (fun p => decide (p.1 = k')) tl := by
    intro tl
    induction tl with
    | nil => simp
    | cons p tl ih =>
      simp only [List.map_cons]
      by_cases hp : p.1 = k
      · rw [if_pos hp]
        rw [List.find?_cons_of_neg _ (by simpa using fun hh => h hh.symm),
          List.find?_cons_of_neg _ (by
            simp only [decide_eq_true_eq]
            intro hh
            exact h (by rw [← hh, hp]))]
        exact ih
      · rw [if_neg hp]
        by_cases hpk' : p.1 = k'
        · rw [List.find?_cons_of_pos _ (by simpa using hpk'),
            List.find?_cons_of_pos _ (by simpa using hpk')]
        · rw [List.find?_cons_of_neg _ (by simpa using hpk'),
            List.find?_cons_of_neg _ (by simpa using hpk')]
          exact ih
  unfold jsMapGet jsMapSet
  split
  · rw [hmap]
  · rw [List.find?_append]
    have hnone : List.find? (fun p => decide (p.1 = k')) [(k, v)] = none := by
      rw [List.find?_cons_of_neg _ (by simpa using fun hh => h hh.symm)]
      rfl
    cases hfind : List.find? (fun p => decide (p.1 = k')) m
    · rw [hnone]
      rfl
    · rfl

/-- The keys of an association list. -/
def mapKeys {κ α : Type} (m : List (κ × α)) : List κ := m.map (·.1)

theorem mapKeys_jsMapSet {κ α : Type} [DecidableEq κ] (m : List (κ × α)) (k : κ) (v : α)
    (h : (mapKeys m).Nodup) : (mapKeys (jsMapSet m k v)).Nodup := by
  unfold jsMapSet mapKeys
  split
  · have : (List.map (·.1) (m.map (fun p => if p.1 = k then (k, v) else p))) = m.map (·.1) := by
      rw [List.map_map]
      apply List.map_congr_left
      intro p _
      by_cases hp : p.1 = k <;> simp [hp]
    rw [this]
    exact h
  · rename_i hany
    rw [List.map_append]
    apply List.Nodup.append h (by simp)
    intro x hx hx2
    simp only [List.map_cons, List.map_nil, List.mem_singleton] at hx2
    subst hx2
    rcases List.mem_map.mp hx with ⟨p, hp, hpk⟩
    simp only [List.any_eq_true, not_exists, not_and] at hany
    exact absurd (by simpa using hpk) (by simpa using hany p hp)

theorem jsMapGet_eq_some_of_mem {κ α : Type} [DecidableEq κ] {m : List (κ × α)} {k : κ} {v : α}
    (hnd : (mapKeys m).Nodup) (hmem : (k, v) ∈ m) : jsMapGet m k = some v := by
  unfold jsMapGet
  unfold mapKeys at hnd
  induction m with
  | nil => simp at hmem
  | cons p tl ih =>
    simp only [List.map_cons, List.nodup_cons] at hnd
    rcases List.mem_cons.mp hmem with rfl | hmem'
    · rw [List.find?_cons_of_pos _ (by simp)]
      rfl
    · have hk : p.1 ≠ k := by
        intro hh
        exact hnd.1 (hh ▸ (List.mem_map.mpr ⟨(k, v), hmem', rfl⟩))
      rw [List.find?_cons_of_neg _ (by simpa using hk)]
      exact ih hnd.2 hmem'

theorem mem_of_jsMapGet_eq_some {κ α : Type} [DecidableEq κ] {m : List (κ × α)} {k : κ} {v : α}
    (h : jsMapGet m k = some v) : (k, v) ∈ m := by
  unfold jsMapGet at h
  induction m with
  | nil => simp at h
  | cons p tl ih =>
    by_cases hp : p.1 = k
    · rw [List.find?_cons_of_pos _ (by simpa using hp)] at h
      simp only [Option.map_some'] at h
      cases h
      subst hp
      exact List.mem_cons_self _ _
    · rw [List.find?_cons_of_neg _ (by simpa using hp)] at h
      exact List.mem_cons_of_mem _ (ih h)

/-! ### Set-helper lemmas -/

theorem jsSetAdd_idem (l : List String) (n : String) :
    jsSetAdd (jsSetAdd l n) n = jsSetAdd l n := by
  unfold jsSetAdd
  by_cases h : n ∈ l
  · simp [h]
  · simp [h]

theorem jsSetAdd_nodup {l : List String} (h : l.Nodup) (n : String) : (jsSetAdd l n).Nodup := by
  unfold jsSetAdd
  by_cases hn : n ∈ l
  · simpa [hn]
  · simp only [hn, if_false]
    apply List.Nodup.append h (by simp)
    intro x hx hx2
    simp only [List.mem_singleton] at hx2
    subst hx2
    exact hn hx

theorem foldl_jsSetAdd_nodup {acc : List String} (h : acc.Nodup) (l : List String) :
    (l.foldl jsSetAdd acc).Nodup := by
  induction l generalizing acc with
  | nil => exact h
  | cons a tl ih => exact ih (jsSetAdd_nodup h a)

theorem jsSetOfList_nodup (l : List String) : (jsSetOfList l).Nodup :=
  foldl_jsSetAdd_nodup List.nodup_nil l

/-- Folding a guarded `jsSetAdd` equals collecting the selected images. -/
theorem foldl_guarded_jsSetAdd {α : Type} (P : α → Bool) (f : α → String) (l : List α) :
    ∀ (acc : List String),
      l.foldl (fun acc e => if P e then jsSetAdd acc (f e) else acc) acc =
        (List.map f (l.filter P)).foldl jsSetAdd acc := by
  induction l with
  | nil => intro acc; rfl
  | cons a tl ih =>
    intro acc
    by_cases hP : P a = true
    · simp only [List.foldl_cons, if_pos hP, List.filter_cons, hP, if_true, List.map_cons]
      exact ih _
    · simp only [List.foldl_cons, if_neg hP, List.filter_cons]
      exact ih acc

/-! ### Characterizing `getNodesReferencingSource` -/

namespace NormalizeGraphJs

/-- The referencing-node set stored for `s` in a sources-to-nodes map
(the empty set when `s` has no entry). -/
def refsAt (m : List (String × List String)) (s : String) : List String :=
  (jsMapGet m s).getD []

theorem refsAt_step (m : List (String × List String)) (n source s : String) :
    refsAt (match jsMapGet m source with
            | some referencingNodes => jsMapSet m source (jsSetAdd referencingNodes n)
            | none => jsMapSet m source (jsSetAdd [] n)) s
      = if s = source then jsSetAdd (refsAt m s) n else refsAt m s := by
  unfold refsAt
  cases hg : jsMapGet m source with
  | some r =>
    by_cases hs : s = source
    · subst hs
      rw [jsMapGet_jsMapSet_self]
      simp [hg]
    · rw [jsMapGet_jsMapSet_ne _ _ _ _ hs]
      simp [hs]
  | none =>
    by_cases hs : s = source
    · subst hs
      rw [jsMapGet_jsMapSet_self]
      simp [hg]
    · rw [jsMapGet_jsMapSet_ne _ _ _ _ hs]
      simp [hs]

theorem refsAt_innerFold (n : String) (sources : List String)
    (m : List (String × List String)) (s : String) :
    refsAt (sources.foldl
      (fun m source =>
        match jsMapGet m source with
        | some referencingNodes => jsMapSet m source (jsSetAdd referencingNodes n)
        | none => jsMapSet m source (jsSetAdd [] n)) m) s
      = if s ∈ sources then jsSetAdd (refsAt m s) n else refsAt m s := by
  induction sources generalizing m with
  | nil => simp
  | cons src rest ih =>
    rw [List.foldl_cons, ih]
    rw [refsAt_step]
    by_cases h1 : s = src
    · subst h1
      by_cases h2 : s ∈ rest
      · simp [h2, jsSetAdd_idem]
      · simp [h2]
    · by_cases h2 : s ∈ rest
      · simp [h1, h2]
      · simp [h1, h2, List.mem_cons]

theorem refsAt_getNodesReferencingSource (g : Graph) (s : String) :
    refsAt (getNodesReferencingSource g) s = ownersOf g s := by
  unfold getNodesReferencingSource ownersOf
  have main : ∀ (entries : List (String × GraphNode)) (m : List (String × List String)),
      refsAt (entries.foldl
        (fun m entry =>
          entry.2.sources.foldl
            (fun m source =>
              match jsMapGet m source with
              | some referencingNodes => jsMapSet m source (jsSetAdd referencingNodes entry.1)
              | none => jsMapSet m source (jsSetAdd [] entry.1)) m) m) s
        = (List.map (·.1) (entries.filter (fun p => decide (s ∈ p.2.sources)))).foldl
            jsSetAdd (refsAt m s) := by
    intro entries
    induction entries with
    | nil => intro m; rfl
    | cons e tl ih =>
      intro m
      rw [List.foldl_cons, ih, refsAt_innerFold]
      by_cases hs : s ∈ e.2.sources
      · have hd : (decide (s ∈ e.2.sources)) = true := by simpa using hs
        rw [if_pos hs]
        simp only [List.filter_cons, hd, if_true, List.map_cons, List.foldl_cons]
      · have hd : (decide (s ∈ e.2.sources)) = false := by simpa using hs
        rw [if_neg hs]
        simp only [List.filter_cons, hd, Bool.false_eq_true, if_false]
  have h0 : refsAt ([] : List (String × List String)) s = [] := rfl
  rw [main, h0]
  rfl

theorem mapKeys_getNodesReferencingSource_nodup (g : Graph) :
    (mapKeys (getNodesReferencingSource g)).Nodup := by
  unfold getNodesReferencingSource
  have step : ∀ (n : String) (sources : List String) (m : List (String × List String)),
      (mapKeys m).Nodup →
      (mapKeys (sources.foldl
        (fun m source =>
          match jsMapGet m source with
          | some referencingNodes => jsMapSet m source (jsSetAdd referencingNodes n)
          | none => jsMapSet m source (jsSetAdd [] n)) m)).Nodup := by
    intro n sources
    induction sources with
    | nil => intro m hm; exact hm
    | cons src rest ih =>
      intro m hm
      rw [List.foldl_cons]
      apply ih
      cases hg : jsMapGet m src with
      | some r => exact mapKeys_jsMapSet _ _ _ hm
      | none => exact mapKeys_jsMapSet _ _ _ hm
  have main : ∀ (entries : List (String × GraphNode)) (m : List (String × List String)),
      (mapKeys m).Nodup →
      (mapKeys (entries.foldl
        (fun m entry =>
          entry.2.sources.foldl
            (fun m source =>
              match jsMapGet m source with
              | some referencingNodes => jsMapSet m source (jsSetAdd referencingNodes entry.1)
              | none => jsMapSet m source (jsSetAdd [] entry.1)) m) m)).Nodup := by
    intro entries
    induction entries with
    | nil => intro m hm; exact hm
    | cons e tl ih =>
      intro m hm
      rw [List.foldl_cons]
      exact ih _ (step e.1 e.2.sources m hm)
  exact main g.nodes [] (by simp [mapKeys])

end NormalizeGraphJs

theorem mem_ownersOf {g : Graph} {m s : String} :
    m ∈ ownersOf g s ↔ OwnsSource g m s := by
  unfold ownersOf OwnsSource
  rw [mem_jsSetOfList]
  constructor
  · intro h
    rcases List.mem_map.mp h with ⟨p, hp, hpk⟩
    rcases List.mem_filter.mp hp with ⟨hpm, hps⟩
    exact ⟨p, hpm, hpk, by simpa using hps⟩
  · rintro ⟨p, hpm, rfl, hps⟩
    exact List.mem_map.mpr ⟨p, List.mem_filter.mpr ⟨hpm, by simpa using hps⟩, rfl⟩

theorem ownersOf_nodup (g : Graph) (s : String) : (ownersOf g s).Nodup :=
  jsSetOfList_nodup _

theorem ownersOf_subset_nodeNames {g : Graph} {s m : String} (h : m ∈ ownersOf g s) :
    m ∈ g.nodeNames := by
  rcases mem_ownersOf.mp h with ⟨p, hpm, rfl, _⟩
  exact List.mem_map.mpr ⟨p, hpm, rfl⟩

/-! ### Normalization changes only node `sources` -/

/-- `g'` differs from `g` at most in the `sources` members of its nodes: the
edges coincide, the node lists correspond entry by entry with identical names,
`deps` and `childChunks`, and each node's `sources` in `g'` is a sublist of
the one in `g`. -/
def SourcesShrunk (g' g : Graph) : Prop :=
  g'.edges = g.edges ∧
  List.Forall₂
    (fun (p q : String × GraphNode) =>
      p.1 = q.1 ∧ p.2.name = q.2.name ∧ p.2.deps = q.2.deps ∧
      p.2.childChunks = q.2.childChunks ∧ p.2.sources.Sublist q.2.sources)
    g'.nodes g.nodes

theorem SourcesShrunk.refl (g : Graph) : SourcesShrunk g g := by
  refine ⟨rfl, ?_⟩
  rw [List.forall₂_same]
  exact fun p _ => ⟨rfl, rfl, rfl, rfl, List.Sublist.refl _⟩

theorem forall₂_trans {α : Type} {R : α → α → Prop} (hR : ∀ a b c, R a b → R b c → R a c) :
    ∀ {l₁ l₂ l₃ : List α}, List.Forall₂ R l₁ l₂ → List.Forall₂ R l₂ l₃ → List.Forall₂ R l₁ l₃ := by
  intro l₁ l₂ l₃ h12
  induction h12 generalizing l₃ with
  | nil =>
    intro h
    cases h
    exact List.Forall₂.nil
  | cons hr _ ih =>
    intro h
    cases h with
    | cons hr' hrest' => exact List.Forall₂.cons (hR _ _ _ hr hr') (ih hrest')

theorem SourcesShrunk.trans {g₁ g₂ g₃ : Graph}
    (h12 : SourcesShrunk g₁ g₂) (h23 : SourcesShrunk g₂ g₃) : SourcesShrunk g₁ g₃ := by
  refine ⟨h12.1.trans h23.1, ?_⟩
  refine forall₂_trans ?_ h12.2 h23.2
  rintro a b c ⟨h1, h2, h3, h4, h5⟩ ⟨k1, k2, k3, k4, k5⟩
  exact ⟨h1.trans k1, h2.trans k2, h3.trans k3, h4.trans k4, h5.trans k5⟩

theorem Forall₂.exists_mem_left {α β : Type} {R : α → β → Prop} {l₁ : List α} {l₂ : List β}
    (h : List.Forall₂ R l₁ l₂) {a : α} (ha : a ∈ l₁) : ∃ b ∈ l₂, R a b := by
  induction h with
  | nil => simp at ha
  | cons hr _ ih =>
    rcases List.mem_cons.mp ha with rfl | ha'
    · exact ⟨_, List.mem_cons_self _ _, hr⟩
    · rcases ih ha' with ⟨b, hb, hrb⟩
      exact ⟨b, List.mem_cons_of_mem _ hb, hrb⟩

theorem OwnsSource.mono {g' g : Graph} (hs : SourcesShrunk g' g) {m s : String}
    (h : OwnsSource g' m s) : OwnsSource g m s := by
  rcases h with ⟨p, hp, hpm, hps⟩
  rcases Forall₂.exists_mem_left hs.2 hp with ⟨q, hq, h1, _, _, _, h5⟩
  exact ⟨q, hq, h1 ▸ hpm, h5.mem hps⟩

theorem SourcesShrunk.updateNode_filter (g : Graph) (name : String) (p : String → Bool) :
    SourcesShrunk
      (g.updateNode name (fun node => { node with sources := node.sources.filter p })) g := by
  refine ⟨rfl, ?_⟩
  show List.Forall₂ _
    (g.nodes.map (fun q => if q.1 = name
      then (q.1, { q.2 with sources := q.2.sources.filter p }) else q)) g.nodes
  rw [List.forall₂_map_left_iff, List.forall₂_same]
  intro q _
  by_cases hq : q.1 = name
  · rw [if_pos hq]
    exact ⟨rfl, rfl, rfl, rfl, List.filter_sublist _⟩
  · rw [if_neg hq]
    exact ⟨rfl, rfl, rfl, rfl, List.Sublist.refl _⟩

namespace NormalizeGraphJs

theorem SourcesShrunk_deleteSourceFromNonLcaOwners (nodes : List String) (lca : Option String)
    (source : String) (g : Graph) :
    SourcesShrunk (deleteSourceFromNonLcaOwners nodes lca source g) g := by
  unfold deleteSourceFromNonLcaOwners
  induction nodes generalizing g with
  | nil => exact SourcesShrunk.refl g
  | cons ref rest ih =>
    rw [List.foldl_cons]
    by_cases h : some ref = lca
    · rw [if_pos h]
      exact ih g
    · rw [if_neg h]
      exact (ih _).trans (SourcesShrunk.updateNode_filter g ref _)

theorem not_owns_updateNode_filter_self (g : Graph) (m source : String) :
    ¬ OwnsSource
        (g.updateNode m (fun node => { node with sources := node.sources.filter (fun s => s ≠ source) }))
        m source := by
  rintro ⟨p, hp, hpm, hps⟩
  unfold Graph.updateNode at hp
  simp only [List.mem_map] at hp
  rcases hp with ⟨q, _, hq⟩
  by_cases hq1 : q.1 = m
  · rw [if_pos hq1] at hq
    subst hq
    simp only [List.mem_filter] at hps
    have hcontr := hps.2
    simp at hcontr
  · rw [if_neg hq1] at hq
    subst hq
    exact hq1 hpm

theorem not_owns_deleteSourceFromNonLcaOwners {nodes : List String} {lca : Option String}
    (source : String) (g : Graph) {m : String} (hm : m ∈ nodes) (hne : some m ≠ lca) :
    ¬ OwnsSource (deleteSourceFromNonLcaOwners nodes lca source g) m source := by
  unfold deleteSourceFromNonLcaOwners
  induction nodes generalizing g with
  | nil => simp at hm
  | cons ref rest ih =>
    rw [List.foldl_cons]
    rcases List.mem_cons.mp hm with rfl | hm'
    · rw [if_neg hne]
      by_cases hmem : m ∈ rest
      · exact ih _ hmem
      · intro howns
        have hsh : SourcesShrunk
            (rest.foldl (fun gr referencingNodeName =>
              if some referencingNodeName = lca then gr
              else gr.updateNode referencingNodeName
                (fun node => { node with sources := node.sources.filter (fun s => s ≠ source) })) _)
            (g.updateNode m (fun node => { node with sources := node.sources.filter (fun s => s ≠ source) })) :=
          SourcesShrunk_deleteSourceFromNonLcaOwners rest lca source _
        exact not_owns_updateNode_filter_self g m source (howns.mono hsh)
    · by_cases h : some ref = lca
      · rw [if_pos h]
        exact ih g hm'
      · rw [if_neg h]
        exact ih _ hm'

end NormalizeGraphJs

namespace NormalizeGraphJs

theorem SourcesShrunk_hoistGroupSources (sourceInfo : SourceSetInfo) (lca : Option String)
    (res : NormalizeResult) :
    SourcesShrunk (hoistGroupSources sourceInfo lca res).graph res.graph := by
  unfold hoistGroupSources
  induction sourceInfo.sourceSet generalizing res with
  | nil => exact SourcesShrunk.refl _
  | cons src rest ih =>
    rw [List.foldl_cons]
    exact (ih _).trans (SourcesShrunk_deleteSourceFromNonLcaOwners _ lca src _)

theorem not_owns_group_fold (nodes : List String) (lca : Option String)
    (sourceSet : List String) (res : NormalizeResult) {source m : String}
    (hsrc : source ∈ sourceSet) (hm : m ∈ nodes) (hne : some m ≠ lca) :
    ¬ OwnsSource
        (sourceSet.foldl
          (fun res source =>
            (⟨deleteSourceFromNonLcaOwners nodes lca source res.graph,
              recordHoist res.sourcesToHoist lca source⟩ : NormalizeResult))
          res).graph m source := by
  induction sourceSet generalizing res with
  | nil => simp at hsrc
  | cons src rest ih =>
    rw [List.foldl_cons]
    rcases List.mem_cons.mp hsrc with rfl | hsrc'
    · by_cases hmem : source ∈ rest
      · exact ih _ hmem
      · intro howns
        have hsh : SourcesShrunk
            (rest.foldl
              (fun res source =>
                (⟨deleteSourceFromNonLcaOwners nodes lca source res.graph,
                  recordHoist res.sourcesToHoist lca source⟩ : NormalizeResult))
              ⟨deleteSourceFromNonLcaOwners nodes lca source res.graph,
               recordHoist res.sourcesToHoist lca source⟩).graph
            (deleteSourceFromNonLcaOwners nodes lca source res.graph) := by
          have := SourcesShrunk_hoistGroupSources ⟨rest, nodes⟩ lca
            ⟨deleteSourceFromNonLcaOwners nodes lca source res.graph,
             recordHoist res.sourcesToHoist lca source⟩
          unfold hoistGroupSources at this
          exact this
        exact not_owns_deleteSourceFromNonLcaOwners source res.graph hm hne (howns.mono hsh)
    · exact ih _ hsrc'

theorem not_owns_hoistGroupSources (sourceInfo : SourceSetInfo) (lca : Option String)
    (res : NormalizeResult) {source m : String} (hsrc : source ∈ sourceInfo.sourceSet)
    (hm : m ∈ sourceInfo.nodes) (hne : some m ≠ lca) :
    ¬ OwnsSource (hoistGroupSources sourceInfo lca res).graph m source := by
  unfold hoistGroupSources
  exact not_owns_group_fold sourceInfo.nodes lca sourceInfo.sourceSet res hsrc hm hne

/-- After `normalizeGraph`, every source of every combination group has been
deleted from every owner of the group other than the ancestor chosen for the
group, and the graph has only shrunk. -/
theorem normalizeGraph_deletions (entrypoint : String) (g : Graph) :
    SourcesShrunk (normalizeGraph entrypoint g).graph g ∧
    ∀ p ∈ sourceNodeCombinationsOf (getNodesReferencingSource g),
      ∃ lca : Option String, ∀ source ∈ p.2.sourceSet, ∀ m ∈ p.2.nodes, some m ≠ lca →
        ¬ OwnsSource (normalizeGraph entrypoint g).graph m source := by
  have h : ∀ (combos : List (String × SourceSetInfo)) (res : NormalizeResult),
      (SourcesShrunk
        (combos.foldl
          (fun res p =>
            hoistGroupSources p.2
              (lowestCommonAncestor entrypoint p.2.nodes res.graph (dijkstraDist g entrypoint)
                (res.graph.nodes.length + 1))
              res)
          res).graph res.graph) ∧
      ∀ p ∈ combos,
        ∃ lca : Option String, ∀ source ∈ p.2.sourceSet, ∀ m ∈ p.2.nodes, some m ≠ lca →
          ¬ OwnsSource
            (combos.foldl
              (fun res p =>
                hoistGroupSources p.2
                  (lowestCommonAncestor entrypoint p.2.nodes res.graph (dijkstraDist g entrypoint)
                    (res.graph.nodes.length + 1))
                  res)
              res).graph m source := by
    intro combos
    induction combos with
    | nil =>
      intro res
      exact ⟨SourcesShrunk.refl _, by simp⟩
    | cons p rest ih =>
      intro res
      rw [List.foldl_cons]
      set lca := lowestCommonAncestor entrypoint p.2.nodes res.graph (dijkstraDist g entrypoint)
        (res.graph.nodes.length + 1)
      set res' := hoistGroupSources p.2 lca res with hres'
      refine ⟨((ih res').1).trans (SourcesShrunk_hoistGroupSources p.2 lca res), ?_⟩
      intro q hq
      rcases List.mem_cons.mp hq with rfl | hq'
      · refine ⟨lca, ?_⟩
        intro source hsource m hmem hne howns
        have h1 := howns.mono (ih res').1
        exact not_owns_hoistGroupSources q.2 lca res hsource hmem hne h1
      · exact (ih res').2 q hq'
  have hmain := h (sourceNodeCombinationsOf (getNodesReferencingSource g)) ⟨g, []⟩
  unfold normalizeGraph
  exact hmain

end NormalizeGraphJs

/-! ### Injectivity of the combination key on space-free node names -/

theorem append_space_inj : ∀ (a b r₁ r₂ : List Char),
    ' ' ∉ a → ' ' ∉ b → a ++ ' ' :: r₁ = b ++ ' ' :: r₂ → a = b ∧ r₁ = r₂ := by
  intro a
  induction a with
  | nil =>
    intro b r₁ r₂ _ hb h
    cases b with
    | nil => simpa using h
    | cons c bt =>
      simp only [List.nil_append, List.cons_append, List.cons.injEq] at h
      exact absurd (h.1 ▸ List.mem_cons_self c bt) hb
  | cons c at' ih =>
    intro b r₁ r₂ ha hb h
    cases b with
    | nil =>
      simp only [List.cons_append, List.nil_append, List.cons.injEq] at h
      exact absurd (h.1 ▸ List.mem_cons_self c at') ha
    | cons d bt =>
      simp only [List.cons_append, List.cons.injEq] at h
      obtain ⟨rfl, h2⟩ := h
      have := ih bt r₁ r₂ (fun hmem => ha (List.mem_cons_of_mem _ hmem))
        (fun hmem => hb (List.mem_cons_of_mem _ hmem)) h2
      exact ⟨by rw [this.1], this.2⟩

namespace NormalizeGraphJs

theorem joinSpace_data_cons (x y : String) (rest : List String) :
    (joinSpace (x :: y :: rest)).data = x.data ++ ' ' :: (joinSpace (y :: rest)).data := by
  show (x ++ " " ++ joinSpace (y :: rest)).data = _
  rw [String.data_append, String.data_append, List.append_assoc]
  rfl

theorem joinSpace_inj : ∀ (l₁ l₂ : List String),
    (∀ x ∈ l₁, ' ' ∉ x.data) → (∀ x ∈ l₂, ' ' ∉ x.data) →
    l₁ ≠ [] → l₂ ≠ [] → joinSpace l₁ = joinSpace l₂ → l₁ = l₂ := by
  intro l₁
  induction l₁ with
  | nil => intro l₂ _ _ h1 _ _; exact absurd rfl h1
  | cons x t ih =>
    intro l₂ hsf1 hsf2 _ hne2 heq
    cases l₂ with
    | nil => exact absurd rfl hne2
    | cons y t₂ =>
      cases t with
      | nil =>
        cases t₂ with
        | nil =>
          show [x] = [y]
          have : x = y := heq
          rw [this]
        | cons z t₂' =>
          have hdata := congrArg String.data heq
          rw [joinSpace_data_cons] at hdata
          have hx : (joinSpace [x]).data = x.data := rfl
          rw [hx] at hdata
          exact absurd (hdata ▸ List.mem_append_right _ (List.mem_cons_self _ _))
            (hsf1 x (List.mem_cons_self _ _))
      | cons x' t' =>
        cases t₂ with
        | nil =>
          have hdata := congrArg String.data heq
          rw [joinSpace_data_cons] at hdata
          have hy : (joinSpace [y]).data = y.data := rfl
          rw [hy] at hdata
          exact absurd (hdata.symm ▸ List.mem_append_right _ (List.mem_cons_self _ _))
            (hsf2 y (List.mem_cons_self _ _))
        | cons y' t₂' =>
          have hdata := congrArg String.data heq
          rw [joinSpace_data_cons, joinSpace_data_cons] at hdata
          have hsplit := append_space_inj x.data y.data _ _
            (hsf1 x (List.mem_cons_self _ _)) (hsf2 y (List.mem_cons_self _ _)) hdata
          have hxy : x = y := String.ext hsplit.1
          have htail : joinSpace (x' :: t') = joinSpace (y' :: t₂') := String.ext hsplit.2
          have := ih (y' :: t₂') (fun z hz => hsf1 z (List.mem_cons_of_mem _ hz))
            (fun z hz => hsf2 z (List.mem_cons_of_mem _ hz)) (by simp) (by simp) htail
          rw [hxy, this]

/-- Keys produced by `combinationKey` agree exactly when the (duplicate-free)
owner lists agree as sets, provided no node name contains a space. -/
theorem combinationKey_inj {l₁ l₂ : List String}
    (hsf1 : ∀ x ∈ l₁, ' ' ∉ x.data) (hsf2 : ∀ x ∈ l₂, ' ' ∉ x.data)
    (hne1 : l₁ ≠ []) (hne2 : l₂ ≠ [])
    (h : combinationKey l₁ = combinationKey l₂) : ∀ x, x ∈ l₁ ↔ x ∈ l₂ := by
  unfold combinationKey at h
  have hs1 : sortJs l₁ ≠ [] := by
    intro hnil
    have := length_sortWithComparator strLeB l₁
    rw [show sortWithComparator strLeB l₁ = sortJs l₁ from rfl, hnil] at this
    exact hne1 (List.length_eq_zero.mp this.symm)
  have hs2 : sortJs l₂ ≠ [] := by
    intro hnil
    have := length_sortWithComparator strLeB l₂
    rw [show sortWithComparator strLeB l₂ = sortJs l₂ from rfl, hnil] at this
    exact hne2 (List.length_eq_zero.mp this.symm)
  have heq := joinSpace_inj (sortJs l₁) (sortJs l₂)
    (fun x hx => hsf1 x (mem_sortWithComparator.mp hx))
    (fun x hx => hsf2 x (mem_sortWithComparator.mp hx)) hs1 hs2 h
  intro x
  constructor
  · intro hx
    have : x ∈ sortJs l₁ := mem_sortWithComparator.mpr hx
    rw [heq] at this
    exact mem_sortWithComparator.mp this
  · intro hx
    have : x ∈ sortJs l₂ := mem_sortWithComparator.mpr hx
    rw [← heq] at this
    exact mem_sortWithComparator.mp this

end NormalizeGraphJs

/-! ### The combination map groups every multi-owner source -/

theorem jsMapGet_eq_none_iff {κ α : Type} [DecidableEq κ] (m : List (κ × α)) (k : κ) :
    jsMapGet m k = none ↔ (m.any (fun p => decide (p.1 = k))) = false := by
  unfold jsMapGet
  rw [Option.map_eq_none', List.find?_eq_none, List.any_eq_false]

theorem mem_jsMapSet_replace {κ α : Type} [DecidableEq κ] {m : List (κ × α)} {k : κ} {v : α}
    (hany : (m.any (fun p => decide (p.1 = k))) = true) {q : κ × α} :
    q ∈ jsMapSet m k v ↔ ∃ p ∈ m, q = if p.1 = k then (k, v) else p := by
  unfold jsMapSet
  rw [if_pos hany, List.mem_map]
  constructor
  · rintro ⟨p, hp, rfl⟩
    exact ⟨p, hp, rfl⟩
  · rintro ⟨p, hp, rfl⟩
    exact ⟨p, hp, rfl⟩

namespace NormalizeGraphJs

/-- A combination-map entry is *good* w.r.t. the source-to-owners relation
`ok`: its key is the combination key of the owner set of one of the grouped
sources, and every source in its `sourceSet` has a multi-element owner set
with that same key. -/
def GoodCombo (ok : String → List String → Prop) (q : String × SourceSetInfo) : Prop :=
  (∃ refs₀, (∃ s₀, ok s₀ refs₀) ∧ 1 < refs₀.length ∧ q.2.nodes = refs₀ ∧
      q.1 = combinationKey refs₀) ∧
  (∀ s ∈ q.2.sourceSet, ∃ refs, ok s refs ∧ 1 < refs.length ∧ combinationKey refs = q.1)

theorem addNodeToCombinationMap_good (ok : String → List String → Prop)
    {source : String} {nodes : List String} {m : List (String × SourceSetInfo)}
    (hok : ok source nodes) (hlen : 1 < nodes.length)
    (hkeys : (mapKeys m).Nodup)
    (hgood : ∀ q ∈ m, GoodCombo ok q) :
    (mapKeys (addNodeToCombinationMap source nodes m)).Nodup ∧
    (∀ q ∈ addNodeToCombinationMap source nodes m, GoodCombo ok q) ∧
    (∃ q ∈ addNodeToCombinationMap source nodes m, source ∈ q.2.sourceSet) ∧
    (∀ s, (∃ q ∈ m, s ∈ q.2.sourceSet) →
      ∃ q ∈ addNodeToCombinationMap source nodes m, s ∈ q.2.sourceSet) := by
  unfold addNodeToCombinationMap
  cases hget : jsMapGet m (combinationKey nodes) with
  | some info =>
    simp only [hget]
    have hmem : (combinationKey nodes, info) ∈ m := mem_of_jsMapGet_eq_some hget
    have hany : (m.any (fun p => decide (p.1 = combinationKey nodes))) = true := by
      rw [List.any_eq_true]
      exact ⟨_, hmem, by simp⟩
    have hgoodinfo := hgood _ hmem
    refine ⟨mapKeys_jsMapSet _ _ _ hkeys, ?_, ?_, ?_⟩
    · intro q hq
      rcases (mem_jsMapSet_replace hany).mp hq with ⟨p, hp, rfl⟩
      by_cases hpk : p.1 = combinationKey nodes
      · rw [if_pos hpk]
        have hpval : p.2 = info := by
          have h2 : jsMapGet m (combinationKey nodes) = some p.2 := by
            have := jsMapGet_eq_some_of_mem hkeys (show (p.1, p.2) ∈ m from hp)
            rwa [hpk] at this
          exact Option.some.inj (h2.symm.trans hget)
        refine ⟨hgoodinfo.1, ?_⟩
        intro s hs
        have hs2 : s ∈ jsSetAdd info.sourceSet source := hs
        rcases mem_jsSetAdd.mp hs2 with hs' | rfl
        · have := hgoodinfo.2 s (show s ∈ info.sourceSet from hs')
          simpa using this
        · exact ⟨nodes, hok, hlen, rfl⟩
      · rw [if_neg hpk]
        exact hgood p hp
    · refine ⟨(combinationKey nodes, ⟨jsSetAdd info.sourceSet source, info.nodes⟩), ?_, ?_⟩
      · rw [mem_jsMapSet_replace hany]
        exact ⟨(combinationKey nodes, info), hmem, by simp⟩
      · exact (show (source ∈ jsSetAdd info.sourceSet source) from mem_jsSetAdd.mpr (Or.inr rfl))
    · rintro s ⟨q, hq, hqs⟩
      by_cases hqk : q.1 = combinationKey nodes
      · have hqval : q.2 = info := by
          have h2 : jsMapGet m (combinationKey nodes) = some q.2 := by
            have := jsMapGet_eq_some_of_mem hkeys (show (q.1, q.2) ∈ m from hq)
            rwa [hqk] at this
          exact Option.some.inj (h2.symm.trans hget)
        refine ⟨(combinationKey nodes, ⟨jsSetAdd info.sourceSet source, info.nodes⟩), ?_, ?_⟩
        · rw [mem_jsMapSet_replace hany]
          exact ⟨(combinationKey nodes, info), hmem, by simp⟩
        · show s ∈ jsSetAdd info.sourceSet source
          apply mem_jsSetAdd.mpr
          left
          rw [← hqval]
          exact hqs
      · refine ⟨q, ?_, hqs⟩
        rw [mem_jsMapSet_replace hany]
        refine ⟨q, hq, by rw [if_neg hqk]⟩
  | none =>
    simp only [hget]
    have hany : (m.any (fun p => decide (p.1 = combinationKey nodes))) = false :=
      (jsMapGet_eq_none_iff _ _).mp hget
    have happend : jsMapSet m (combinationKey nodes)
        (⟨jsSetAdd [] source, nodes⟩ : SourceSetInfo)
        = m ++ [(combinationKey nodes, ⟨jsSetAdd [] source, nodes⟩)] := by
      unfold jsMapSet
      rw [if_neg (by rw [hany]; simp)]
    rw [happend]
    refine ⟨?_, ?_, ?_, ?_⟩
    · unfold mapKeys
      rw [List.map_append]
      apply List.Nodup.append hkeys (by simp)
      intro x hx hx2
      simp only [List.map_cons, List.map_nil, List.mem_singleton] at hx2
      subst hx2
      rcases List.mem_map.mp hx with ⟨p, hp, hpk⟩
      rw [List.any_eq_false] at hany
      exact absurd (by simpa using hpk) (by simpa using hany p hp)
    · intro q hq
      rcases List.mem_append.mp hq with hq' | hq'
      · exact hgood q hq'
      · simp only [List.mem_singleton] at hq'
        subst hq'
        refine ⟨⟨nodes, ⟨source, hok⟩, hlen, rfl, rfl⟩, ?_⟩
        intro s hs
        have hs2 : s ∈ jsSetAdd [] source := hs
        have : s = source := by
          have := mem_jsSetAdd.mp hs2
          simpa using this
        subst this
        exact ⟨nodes, hok, hlen, rfl⟩
    · refine ⟨(combinationKey nodes, ⟨jsSetAdd [] source, nodes⟩), by simp, ?_⟩
      exact (show source ∈ jsSetAdd [] source from mem_jsSetAdd.mpr (Or.inr rfl))
    · rintro s ⟨q, hq, hqs⟩
      exact ⟨q, List.mem_append.mpr (Or.inl hq), hqs⟩

end NormalizeGraphJs

namespace NormalizeGraphJs

theorem sourceNodeCombinationsOf_fold (full : List (String × List String)) :
    ∀ (entries : List (String × List String)) (m : List (String × SourceSetInfo)),
      (∀ e ∈ entries, e ∈ full) →
      (mapKeys m).Nodup →
      (∀ q ∈ m, GoodCombo (fun s refs => (s, refs) ∈ full) q) →
      (mapKeys (entries.foldl
        (fun m p => if 1 < p.2.length then addNodeToCombinationMap p.1 p.2 m else m) m)).Nodup ∧
      (∀ q ∈ entries.foldl
        (fun m p => if 1 < p.2.length then addNodeToCombinationMap p.1 p.2 m else m) m,
        GoodCombo (fun s refs => (s, refs) ∈ full) q) ∧
      (∀ s, (∃ q ∈ m, s ∈ q.2.sourceSet) →
        ∃ q ∈ entries.foldl
          (fun m p => if 1 < p.2.length then addNodeToCombinationMap p.1 p.2 m else m) m,
          s ∈ q.2.sourceSet) ∧
      (∀ p ∈ entries, 1 < p.2.length →
        ∃ q ∈ entries.foldl
          (fun m p => if 1 < p.2.length then addNodeToCombinationMap p.1 p.2 m else m) m,
          p.1 ∈ q.2.sourceSet) := by
  intro entries
  induction entries with
  | nil =>
    intro m _ hkeys hgood
    exact ⟨hkeys, hgood, fun s hs => hs, by simp⟩
  | cons e tl ih =>
    intro m hfull hkeys hgood
    rw [List.foldl_cons]
    by_cases hlen : 1 < e.2.length
    · rw [if_pos hlen]
      have hstep := addNodeToCombinationMap_good (fun s refs => (s, refs) ∈ full)
        (show (e.1, e.2) ∈ full from hfull e (List.mem_cons_self _ _)) hlen hkeys hgood
      have hrec := ih (addNodeToCombinationMap e.1 e.2 m)
        (fun x hx => hfull x (List.mem_cons_of_mem _ hx)) hstep.1 hstep.2.1
      refine ⟨hrec.1, hrec.2.1, ?_, ?_⟩
      · intro s hs
        exact hrec.2.2.1 s (hstep.2.2.2 s hs)
      · intro p hp hplen
        rcases List.mem_cons.mp hp with rfl | hp'
        · exact hrec.2.2.1 p.1 hstep.2.2.1
        · exact hrec.2.2.2 p hp' hplen
    · rw [if_neg hlen]
      have hrec := ih m (fun x hx => hfull x (List.mem_cons_of_mem _ hx)) hkeys hgood
      refine ⟨hrec.1, hrec.2.1, hrec.2.2.1, ?_⟩
      intro p hp hplen
      rcases List.mem_cons.mp hp with rfl | hp'
      · exact absurd hplen hlen
      · exact hrec.2.2.2 p hp' hplen

/-- Every list-member pair of `getNodesReferencingSource` is the owner set of
its key. -/
theorem mem_getNodesReferencingSource (g : Graph) {s : String} {refs : List String}
    (h : (s, refs) ∈ getNodesReferencingSource g) : refs = ownersOf g s := by
  have := jsMapGet_eq_some_of_mem (mapKeys_getNodesReferencingSource_nodup g) h
  have h2 : refsAt (getNodesReferencingSource g) s = refs := by
    unfold refsAt
    rw [this]
    rfl
  rw [← h2, refsAt_getNodesReferencingSource]

theorem getNodesReferencingSource_complete (g : Graph) {s : String}
    (h : ownersOf g s ≠ []) : (s, ownersOf g s) ∈ getNodesReferencingSource g := by
  have hr := refsAt_getNodesReferencingSource g s
  unfold refsAt at hr
  cases hget : jsMapGet (getNodesReferencingSource g) s with
  | none => rw [hget] at hr; exact absurd hr.symm (by simpa using h)
  | some refs =>
    rw [hget] at hr
    simp only [Option.getD_some] at hr
    rw [← hr]
    exact mem_of_jsMapGet_eq_some hget

/-- A duplicate-free list whose members are pairwise equal has at most one
element. -/
theorem nodup_all_eq_length_le_one {l : List String} (hnd : l.Nodup)
    (h : ∀ a ∈ l, ∀ b ∈ l, a = b) : l.length ≤ 1 := by
  cases l with
  | nil => simp
  | cons a tl =>
    cases tl with
    | nil => simp
    | cons b tl' =>
      exfalso
      have hab : a = b := h a (List.mem_cons_self _ _)
        b (List.mem_cons_of_mem _ (List.mem_cons_self _ _))
      rw [List.nodup_cons] at hnd
      exact hnd.1 (hab ▸ List.mem_cons_self b tl')

/-- Master lemma: after `normalizeGraph` every source is owned by at most one
node (provided no node name contains a space, which keeps the owner-set keys
injective). -/
theorem normalizeGraph_owners_le_one (entrypoint : String) (g : Graph)
    (hspace : ∀ n ∈ g.nodeNames, ' ' ∉ n.data) (s : String) :
    (ownersOf (normalizeGraph entrypoint g).graph s).length ≤ 1 := by
  have hdel := normalizeGraph_deletions entrypoint g
  apply nodup_all_eq_length_le_one (ownersOf_nodup _ _)
  intro m₁ hm₁ m₂ hm₂
  have ho₁ : OwnsSource g m₁ s := (mem_ownersOf.mp hm₁).mono hdel.1
  have ho₂ : OwnsSource g m₂ s := (mem_ownersOf.mp hm₂).mono hdel.1
  have hm₁g : m₁ ∈ ownersOf g s := mem_ownersOf.mpr ho₁
  have hm₂g : m₂ ∈ ownersOf g s := mem_ownersOf.mpr ho₂
  by_cases hlen : 1 < (ownersOf g s).length
  · -- s was a shared source: its combination group was processed
    have hmem : (s, ownersOf g s) ∈ getNodesReferencingSource g :=
      getNodesReferencingSource_complete g (by
        intro hnil
        rw [hnil] at hlen
        simp at hlen)
    have hfold := sourceNodeCombinationsOf_fold (getNodesReferencingSource g)
      (getNodesReferencingSource g) [] (fun e he => he) (by simp [mapKeys]) (by simp)
    have hcomplete := hfold.2.2.2 (s, ownersOf g s) hmem hlen
    rcases hcomplete with ⟨q, hq, hqs⟩
    have hgood := hfold.2.1 q hq
    -- the group's `nodes` has the same members as the owner set of `s`
    rcases hgood.1 with ⟨refs₀, ⟨s₀, hs₀⟩, hl₀, hn₀, hk₀⟩
    rcases hgood.2 s hqs with ⟨refs, hrefs, hlrefs, hkrefs⟩
    have hrefs_eq : refs = ownersOf g s := mem_getNodesReferencingSource g hrefs
    have hrefs₀_eq : refs₀ = ownersOf g s₀ := mem_getNodesReferencingSource g hs₀
    have hkey : combinationKey (ownersOf g s) = combinationKey refs₀ := by
      rw [← hrefs_eq, hkrefs, hk₀]
    have hsetiff := combinationKey_inj
      (fun x hx => hspace x (ownersOf_subset_nodeNames hx))
      (fun x hx => hspace x (ownersOf_subset_nodeNames (hrefs₀_eq ▸ hx)))
      (by
        intro hnil
        rw [hnil] at hlen
        simp at hlen)
      (by
        intro hnil
        rw [hnil] at hl₀
        simp at hl₀)
      hkey
    -- both owners are in the group's nodes, hence both must equal the group's lca
    have hdelq := hdel.2 q hq
    rcases hdelq with ⟨lca, hlca⟩
    have h₁ : some m₁ = lca := by
      by_contra hne
      exact hlca s hqs m₁ (hn₀ ▸ (hsetiff m₁).mp hm₁g) hne (mem_ownersOf.mp hm₁)
    have h₂ : some m₂ = lca := by
      by_contra hne
      exact hlca s hqs m₂ (hn₀ ▸ (hsetiff m₂).mp hm₂g) hne (mem_ownersOf.mp hm₂)
    exact Option.some.inj (h₁.trans h₂.symm)
  · -- at most one owner already
    push_neg at hlen
    cases hl : ownersOf g s with
    | nil =>
      rw [hl] at hm₁g
      simp at hm₁g
    | cons a tl =>
      cases tl with
      | nil =>
        rw [hl] at hm₁g hm₂g
        simp only [List.mem_singleton] at hm₁g hm₂g
        rw [hm₁g, hm₂g]
      | cons b tl' =>
        rw [hl] at hlen
        simp at hlen

end NormalizeGraphJs

/-- Executable form of the no-space side condition on node names (under which
the normalizer's owner-set string keys are injective). -/
def spaceFreeNames (g : Graph) : Bool :=
  g.nodeNames.all (fun n => decide (' ' ∉ n.data))

theorem spaceFreeNames_iff {g : Graph} :
    spaceFreeNames g = true ↔ ∀ n ∈ g.nodeNames, ' ' ∉ n.data := by
  unfold spaceFreeNames
  rw [List.all_eq_true]
  simp only [decide_eq_true_eq]

theorem map_fst_eq_of_forall₂_fst {α β : Type} {R : (α × β) → (α × β) → Prop}
    (hfst : ∀ p q, R p q → p.1 = q.1) :
    ∀ {l₁ l₂ : List (α × β)}, List.Forall₂ R l₁ l₂ → l₁.map (·.1) = l₂.map (·.1) := by
  intro l₁ l₂ h
  induction h with
  | nil => rfl
  | cons hr _ ih => simp only [List.map_cons, hfst _ _ hr, ih]

theorem nodeNames_eq_of_SourcesShrunk {g' g : Graph} (h : SourcesShrunk g' g) :
    g'.nodeNames = g.nodeNames :=
  map_fst_eq_of_forall₂_fst (fun p q hr => hr.1) h.2

namespace NormalizeGraphJs

theorem sourceNodeCombinationsOf_nil {entries : List (String × List String)}
    (h : ∀ p ∈ entries, ¬ 1 < p.2.length) :
    sourceNodeCombinationsOf entries = [] := by
  unfold sourceNodeCombinationsOf
  induction entries with
  | nil => rfl
  | cons e tl ih =>
    rw [List.foldl_cons, if_neg (h e (List.mem_cons_self _ _))]
    exact ih (fun p hp => h p (List.mem_cons_of_mem _ hp))

theorem normalizeGraph_of_no_shared (entrypoint : String) (g : Graph)
    (h : ∀ s, (ownersOf g s).length ≤ 1) :
    normalizeGraph entrypoint g = ⟨g, []⟩ := by
  have hnil : sourceNodeCombinationsOf (getNodesReferencingSource g) = [] := by
    apply sourceNodeCombinationsOf_nil
    intro p hp
    have hrefs : p.2 = ownersOf g p.1 :=
      mem_getNodesReferencingSource g (show (p.1, p.2) ∈ _ from hp)
    rw [hrefs]
    exact fun hlt => absurd (h p.1) (by omega)
  simp only [normalizeGraph, hnil, List.foldl_nil]

end NormalizeGraphJs

/-- A three-chunk load-order graph in which `A` and `B` both own the shared
source `s.js`, while their only common ancestor `E` does not. -/
def exampleSharedGraph : Graph :=
  { nodes :=
      [("E", { name := "E", sources := ["E"], deps := [], childChunks := [] }),
       ("A", { name := "A", sources := ["A", "s.js"], deps := [], childChunks := [] }),
       ("B", { name := "B", sources := ["B", "s.js"], deps := [], childChunks := [] })],
    edges := [("E", "A"), ("E", "B")] }

/-- Claim C1, counterexample: on `exampleSharedGraph` the shared source
`s.js` (owned by two nodes before normalization) is owned by **zero** nodes
after `normalizeGraph`, not exactly one: the computed lowest common ancestor
`E` is not an owner, so the source is deleted from both owners and only
recorded in the hoist map. -/
theorem C1_normalizeGraph_counterexample :
    OwnsSource exampleSharedGraph "A" "s.js" ∧
    OwnsSource exampleSharedGraph "B" "s.js" ∧
    (ownersOf (NormalizeGraphJs.normalizeGraph "E" exampleSharedGraph).graph "s.js").length = 0 ∧
    (NormalizeGraphJs.normalizeGraph "E" exampleSharedGraph).sourcesToHoist
      = [(some "E", ["s.js"])] := by
  refine ⟨⟨("A", { name := "A", sources := ["A", "s.js"], deps := [], childChunks := [] }),
    by decide, rfl, by decide⟩,
    ⟨("B", { name := "B", sources := ["B", "s.js"], deps := [], childChunks := [] }),
    by decide, rfl, by decide⟩, ?_, ?_⟩
  · decide
  · decide

/-- Claim C1 (amended): after `normalizeGraph` every source path appears in
the `sources` of **at most** one node (a shared source whose lowest common
ancestor is not among its owners is removed from all of them and only
recorded in the hoist map), and `normalizeGraph` changes no nodes or edges of
the graph — node names, `deps` and `childChunks` are untouched and each
node's `sources` only loses elements.  The side condition `spaceFreeNames`
(no node name contains a space) keeps the string keys the source uses for
owner sets injective. -/
theorem C1_normalizeGraph_unique_ownership_amended (entrypoint : String) (g : Graph)
    (hspace : spaceFreeNames g = true) :
    (∀ s, (ownersOf (NormalizeGraphJs.normalizeGraph entrypoint g).graph s).length ≤ 1) ∧
    (NormalizeGraphJs.normalizeGraph entrypoint g).graph.edges = g.edges ∧
    (NormalizeGraphJs.normalizeGraph entrypoint g).graph.nodeNames = g.nodeNames ∧
    List.Forall₂
      (fun p q : String × GraphNode =>
        p.1 = q.1 ∧ p.2.name = q.2.name ∧ p.2.deps = q.2.deps ∧
        p.2.childChunks = q.2.childChunks ∧ p.2.sources.Sublist q.2.sources)
      (NormalizeGraphJs.normalizeGraph entrypoint g).graph.nodes g.nodes := by
  have hdel := NormalizeGraphJs.normalizeGraph_deletions entrypoint g
  refine ⟨?_, hdel.1.1, nodeNames_eq_of_SourcesShrunk hdel.1, hdel.1.2⟩
  exact NormalizeGraphJs.normalizeGraph_owners_le_one entrypoint g (spaceFreeNames_iff.mp hspace)

/-- Claim C1, witness: the amended ownership theorem applied to the concrete
graph `exampleSharedGraph`. -/
theorem C1_normalizeGraph_witness :
    spaceFreeNames exampleSharedGraph = true ∧
    (ownersOf (NormalizeGraphJs.normalizeGraph "E" exampleSharedGraph).graph "s.js").length ≤ 1 ∧
    (NormalizeGraphJs.normalizeGraph "E" exampleSharedGraph).graph.edges
      = exampleSharedGraph.edges :=
  ⟨by decide,
   (C1_normalizeGraph_unique_ownership_amended "E" exampleSharedGraph (by decide)).1 "s.js",
   (C1_normalizeGraph_unique_ownership_amended "E" exampleSharedGraph (by decide)).2.1⟩

/-- A five-chunk graph whose node names contain spaces: the distinct owner
sets `{"a", "b c"}` (of `s1`) and `{"a b", "c"}` (of `s2`) produce the same
space-joined combination key `"a b c"`. -/
def spaceCollisionGraph : Graph :=
  { nodes :=
      [("E", { name := "E", sources := ["E"], deps := [], childChunks := [] }),
       ("a", { name := "a", sources := ["a", "s1"], deps := [], childChunks := [] }),
       ("b c", { name := "b c", sources := ["b c", "s1"], deps := [], childChunks := [] }),
       ("a b", { name := "a b", sources := ["a b", "s2"], deps := [], childChunks := [] }),
       ("c", { name := "c", sources := ["c", "s2"], deps := [], childChunks := [] })],
    edges := [("E", "a"), ("E", "b c"), ("E", "a b"), ("E", "c")] }

/-- Claim C7 counterexample: node names are file paths and may contain
spaces, and then the `sort().join(' ')` combination keys of two DIFFERENT
owner sets can collide, as for `{"a", "b c"}` and `{"a b", "c"}` here.  The
second shared source `s2` is merged into the first group (whose recorded
`nodes` are only `s1`'s owners), so the first `normalizeGraph` run deletes
`s2` from nobody and leaves it owned by two nodes — and the second run on
the normalizer's own output returns the NON-empty hoist map
`[(some "E", ["s2"])]`, refuting the claim that a second run always yields
an empty map. -/
theorem C7_normalizeGraph_collision_counterexample :
    NormalizeGraphJs.combinationKey ["a", "b c"] =
      NormalizeGraphJs.combinationKey ["a b", "c"] ∧
    ¬("b c" : String) ∈ (["a b", "c"] : List String) ∧
    spaceFreeNames spaceCollisionGraph = false ∧
    (ownersOf (NormalizeGraphJs.normalizeGraph "E" spaceCollisionGraph).graph "s2").length = 2 ∧
    (NormalizeGraphJs.normalizeGraph "E"
      (NormalizeGraphJs.normalizeGraph "E" spaceCollisionGraph).graph).sourcesToHoist
      = [(some "E", ["s2"])] := by
  refine ⟨by decide, by decide, by decide, by decide, by decide⟩

/-- Claim C7 (amended): running `normalizeGraph` a second time on the graph
it has already normalized yields an empty hoist map, PROVIDED no node name
contains a space — after one run no source remains owned by more than one
node, so the second run finds no node combinations and hoists nothing.
Without the side condition the space-joined owner-set keys of distinct owner
sets can collide and a shared source can survive the first run. -/
theorem C7_normalizeGraph_second_run_empty (entrypoint : String) (g : Graph)
    (hspace : spaceFreeNames g = true) :
    (NormalizeGraphJs.normalizeGraph entrypoint
      (NormalizeGraphJs.normalizeGraph entrypoint g).graph).sourcesToHoist = [] := by
  have h := NormalizeGraphJs.normalizeGraph_owners_le_one entrypoint g
    (spaceFreeNames_iff.mp hspace)
  rw [NormalizeGraphJs.normalizeGraph_of_no_shared entrypoint _ h]

/-- Claim C7, witness: the idempotence theorem applied to the concrete graph
`exampleSharedGraph`. -/
theorem C7_normalizeGraph_witness :
    spaceFreeNames exampleSharedGraph = true ∧
    (NormalizeGraphJs.normalizeGraph "E"
      (NormalizeGraphJs.normalizeGraph "E" exampleSharedGraph).graph).sourcesToHoist = [] :=
  ⟨by decide, C7_normalizeGraph_second_run_empty "E" exampleSharedGraph (by decide)⟩

/-! ## `getGoogDepPath` of `lib/find-dependencies.js` -/

/-- The possible observable outcomes of a JavaScript call: a normal return, a
thrown `Error` with a message, or an engine `TypeError` raised by
dereferencing `null`/`undefined`. -/
inductive JsOutcome (α : Type) where
  | ok (value : α)
  | thrown (message : String)
  | typeError (message : String)
  deriving Repr, DecidableEq

namespace FindDependenciesJs

/-- The guard condition `getGoogDepPath === null` of `getGoogDepPath`: it
compares the enclosing function object itself — which is never `null` — to
`null`, so the comparison is the constant `false` (the intended test was
`googDepsMap === null`). -/
def getGoogDepPathIsNull : Bool := false

/-- `getGoogDepPath(googNamespace, googDepsMap, usedIn)`: return the path of
a Closure Library provided namespace.  `googDepsMap = none` models a call
with no dependency map (`null`); `googDepsMap.get(...)` then raises a
`TypeError`.  A missing or falsy (empty) map entry throws the
unknown-dependency error. -/
def getGoogDepPath (googNamespace : String) (googDepsMap : Option (List (String × String)))
    (usedIn : String) : JsOutcome String :=
  if getGoogDepPathIsNull then
    .thrown "Closure Library namespace encountered, but no dependency map provided"
  else
    match googDepsMap with
    | none => .typeError "Cannot read properties of null (reading 'get')"
    | some m =>
      match jsMapGet m googNamespace with
      | none => .thrown ("Unknown goog dependency " ++ googNamespace ++ " in " ++ usedIn)
      | some googDepPath =>
        if googDepPath = "" then
          .thrown ("Unknown goog dependency " ++ googNamespace ++ " in " ++ usedIn)
        else
          .ok googDepPath

theorem unknown_msg_ne_no_map_msg (ns usedIn : String) :
    ("Unknown goog dependency " ++ ns ++ " in " ++ usedIn) ≠
      "Closure Library namespace encountered, but no dependency map provided" := by
  intro h
  have hd : (("Unknown goog dependency " ++ ns ++ " in " ++ usedIn)).data.head? =
      ("Closure Library namespace encountered, but no dependency map provided").data.head? :=
    congrArg (fun s => s.data.head?) h
  rw [show (("Unknown goog dependency " ++ ns ++ " in " ++ usedIn)).data.head? = some 'U'
      from rfl] at hd
  rw [show ("Closure Library namespace encountered, but no dependency map provided").data.head?
      = some 'C' from rfl] at hd
  simp at hd

end FindDependenciesJs

/-- Claim C10: in the legacy-namespace lookup, the guard intended to report
"no dependency map provided" tests the function object itself
(`getGoogDepPath === null`) rather than the map argument, so that error
branch is unreachable for every call; when a `goog.require` is encountered
with no namespace map supplied, the function instead fails with a
`TypeError` while dereferencing the absent map, never producing the intended
diagnostic. -/
theorem C10_getGoogDepPath_guard_unreachable :
    (∀ (googNamespace usedIn : String) (googDepsMap : Option (List (String × String))),
      FindDependenciesJs.getGoogDepPath googNamespace googDepsMap usedIn ≠
        JsOutcome.thrown "Closure Library namespace encountered, but no dependency map provided") ∧
    (∀ (googNamespace usedIn : String),
      FindDependenciesJs.getGoogDepPath googNamespace none usedIn =
        JsOutcome.typeError "Cannot read properties of null (reading 'get')") := by
  constructor
  · intro ns usedIn m
    unfold FindDependenciesJs.getGoogDepPath FindDependenciesJs.getGoogDepPathIsNull
    rw [if_neg (by simp)]
    cases m with
    | none => simp
    | some mm =>
      cases hget : jsMapGet mm ns with
      | none =>
        simp only [hget]
        intro h
        exact FindDependenciesJs.unknown_msg_ne_no_map_msg ns usedIn (JsOutcome.thrown.inj h)
      | some p =>
        simp only [hget]
        by_cases hp : p = ""
        · rw [if_pos hp]
          intro h
          exact FindDependenciesJs.unknown_msg_ne_no_map_msg ns usedIn (JsOutcome.thrown.inj h)
        · rw [if_neg hp]
          simp
  · intro ns usedIn
    rfl

/-! ## `lib/resolve-from.js` -/

namespace ResolveFromJs

/-- `findMainEntryWithPackageJsonEntryNames`'s scan over the ordered field
names: the value of the first field present (and truthy — the empty string is
falsy) yields `` `${moduleId}/${value}` ``; when no listed field is present
the bare `moduleId` is returned, so the subsequent `requireFrom.resolve`
falls back to the package's canonical main entry. -/
def firstEntryName (packageJson : List (String × String)) (moduleId : String) :
    List String → String
  | [] => moduleId
  | entryName :: rest =>
    match jsMapGet packageJson entryName with
    | some value =>
      if value = "" then firstEntryName packageJson moduleId rest
      else moduleId ++ "/" ++ value
    | none => firstEntryName packageJson moduleId rest

/-- `findMainEntryWithPackageJsonEntryNames(requireFrom, packageJsonEntryNames, moduleId)`:
`requireResult` is the outcome of `requireFrom(`${moduleId}/package.json`)` —
`none` models the `catch` branch (no metadata file), in which case the bare
`moduleId` is returned. -/
def findMainEntryWithPackageJsonEntryNames
    (requireResult : Option (List (String × String)))
    (packageJsonEntryNames : List String) (moduleId : String) : String :=
  match requireResult with
  | none => moduleId
  | some packageJson => firstEntryName packageJson moduleId packageJsonEntryNames

end ResolveFromJs

/-- The default ordered list of `package.json` entry names, as configured by
`ChunkGraph.buildFromEntrypoints` and the CLI's
`--package-json-entry-names` default. -/
def defaultPackageJsonEntryNames : List String := ["browser", "module", "main"]

/-- Claim C9: when the module resolver consults a package's metadata
(`package.json`) during bare-specifier resolution, it scans the configured
ordered list of field names (default `["browser", "module", "main"]`) and the
value of the first field present (truthy) in the metadata replaces the
package's canonical main entry (the result is `moduleId/value`); if none of
the listed fields is present, the canonical main entry is kept (the bare
`moduleId` is returned and resolved through the package's own main). -/
theorem C9_findMainEntry_first_present_field
    (packageJson : List (String × String)) (names : List String) (moduleId : String) :
    (ResolveFromJs.findMainEntryWithPackageJsonEntryNames (some packageJson) names moduleId =
      match names.find? (fun n => decide ((jsMapGet packageJson n).getD "" ≠ "")) with
      | some n => moduleId ++ "/" ++ ((jsMapGet packageJson n).getD "")
      | none => moduleId) ∧
    (ResolveFromJs.findMainEntryWithPackageJsonEntryNames none names moduleId = moduleId) ∧
    defaultPackageJsonEntryNames = ["browser", "module", "main"] := by
  refine ⟨?_, rfl, rfl⟩
  show ResolveFromJs.firstEntryName packageJson moduleId names = _
  induction names with
  | nil => rfl
  | cons entryName rest ih =>
    unfold ResolveFromJs.firstEntryName
    cases hget : jsMapGet packageJson entryName with
    | none =>
      rw [List.find?_cons_of_neg _ (by simp [hget])]
      exact ih
    | some value =>
      show (if value = "" then ResolveFromJs.firstEntryName packageJson moduleId rest
            else moduleId ++ "/" ++ value) = _
      by_cases hv : value = ""
      · rw [if_pos hv, List.find?_cons_of_neg _ (by simp [hget, hv])]
        exact ih
      · rw [if_neg hv, List.find?_cons_of_pos _ (by simp [hget, hv])]
        simp [hget]

/-! ## The dependency walker of `lib/find-dependencies.js` -/

namespace FindDependenciesJs

/-- A file's direct parse result, as produced by `findDeps`: the resolved
static dependency list (which `findDeps` begins with the file itself) and
the resolved dynamic-import child chunks.  The filesystem, the `acorn`
parser and the module resolver are modelled together as an oracle
`parse : String → Option ParsedFile`, where `none` models a parse failure
(the `catch (e)` branch). -/
structure ParsedFile where
  deps : List String
  childChunks : List String
  deriving Repr, DecidableEq

/-- The mutable state threaded through `getDependenciesForFile`: the
`visitedFiles` set (passed by reference), the per-file `cache`, and the
diagnostics written by `console.error`. -/
structure WalkState where
  visitedFiles : List String
  cache : List (String × ParsedFile)
  diagnostics : List String
  deriving Repr, DecidableEq

/-- The `for` loop of `getDependenciesForFile` (lines 189–206): process each
direct dependency that is not yet visited, prepending `[dep] ++ its deps` to
the accumulated `deps`, caching the transitive result, and merging unseen
child chunks.  The recursive call to `getDependenciesForFile` is abstracted
as the function argument `g`. -/
def walkListWith (g : String → WalkState → Option (ParsedFile × WalkState)) :
    List String → List String → List String → WalkState →
      Option (ParsedFile × WalkState)
  | [], deps, childChunks, st => some (⟨deps, childChunks⟩, st)
  | p :: rest, deps, childChunks, st =>
    if p ∈ st.visitedFiles then
      walkListWith g rest deps childChunks st
    else
      let st1 := { st with visitedFiles := st.visitedFiles ++ [p] }
      match g p st1 with
      | none => none
      | some (transientDepInfo, st2) =>
        let transientDeps := p :: transientDepInfo.deps
        let deps := transientDeps ++ deps
        let st3 := { st2 with
          cache := jsMapSet st2.cache p ⟨transientDeps, transientDepInfo.childChunks⟩ }
        let childChunks := transientDepInfo.childChunks.foldl
          (fun cc childChunkRef => if childChunkRef ∈ cc then cc else cc ++ [childChunkRef])
          childChunks
        walkListWith g rest deps childChunks st3

/-- `getDependenciesForFile(graph, filepath, cache, ...)` (lines 154–212):
look the file up in the cache or parse it (files ending in `.json` are not
read; a parse failure logs a diagnostic and leaves the lists empty), append
the hoisted dependencies for the file, and traverse the resulting direct
list.  The recursion is bounded by `fuel` (`none` on exhaustion); the
JavaScript recursion terminates because `visitedFiles` grows on every
recursive call. -/
def getDependenciesForFile (parse : String → Option ParsedFile)
    (dependenciesToHoist : List (String × List String)) :
    Nat → String → WalkState → Option (ParsedFile × WalkState)
  | 0, _, _ => none
  | fuel + 1, filepath, st =>
    let parsed :
        List String × List String × WalkState :=
      match jsMapGet st.cache filepath with
      | some cachedDeps => (cachedDeps.deps, cachedDeps.childChunks, st)
      | none =>
        if filepath.endsWith ".json" then ([], [], st)
        else
          match parse filepath with
          | some depInfo => (depInfo.deps, depInfo.childChunks, st)
          | none => ([], [], { st with diagnostics := st.diagnostics ++ [filepath] })
    let parsedDeps := parsed.1 ++ (jsMapGet dependenciesToHoist filepath).getD []
    walkListWith (getDependenciesForFile parse dependenciesToHoist fuel)
      parsedDeps [] parsed.2.1 parsed.2.2

end FindDependenciesJs

namespace FindDependenciesJs

/-- The per-child-chunk step of `findDepsFromEntryPoints` (lines 268–286):
create the child's chunk node (with `sources = {X}`) and enqueue it when the
graph does not know it yet, then add the edge `currentChunk → X` — but only
when no edge already exists between the current chunk and `X` in either
direction (`graph.inEdges(currentChunk.name, X)` and
`graph.outEdges(currentChunk.name, X)` are both empty); existing parent
references take precedence over child references. -/
def processChildChunk (currentChunkName : String) (acc : Graph × List String)
    (chunkEntryPoint : String) : Graph × List String :=
  let withNode : Graph × List String :=
    match acc.1.node? chunkEntryPoint with
    | some _ => acc
    | none =>
      (acc.1.setNode chunkEntryPoint
        { name := chunkEntryPoint, sources := [chunkEntryPoint], childChunks := [], deps := [] },
       acc.2 ++ [chunkEntryPoint])
  if (withNode.1.inEdgesFrom currentChunkName chunkEntryPoint).isEmpty &&
      (withNode.1.outEdgesTo currentChunkName chunkEntryPoint).isEmpty then
    (withNode.1.setEdge currentChunkName chunkEntryPoint, withNode.2)
  else
    withNode

/-- The state of the `while (entrypoints.length > 0)` loop of
`findDepsFromEntryPoints`. -/
structure BuildState where
  graph : Graph
  entrypoints : List String
  visitedEntryPoints : List String
  manualEntrypointsToAdd : List (String × String)
  walk : WalkState
  deriving Repr, DecidableEq

/-- The body of the `while` loop of `findDepsFromEntryPoints` (lines
254–299): dequeue an entry point, walk its dependencies (with a fresh
`visitedFiles` set but the shared file-deps cache), merge them into the
current chunk, process the discovered child chunks, and when the queue has
drained pop one manual entry point.  The loop is bounded by `fuel`. -/
def findDepsLoop (parse : String → Option ParsedFile)
    (dependenciesToHoist : List (String × List String)) (walkFuel : Nat) :
    Nat → BuildState → Option BuildState
  | 0, _ => none
  | fuel + 1, st =>
    match st.entrypoints with
    | [] => some st
    | entrypoint :: restQueue =>
      if entrypoint ∈ st.visitedEntryPoints then
        findDepsLoop parse dependenciesToHoist walkFuel fuel { st with entrypoints := restQueue }
      else
        match getDependenciesForFile parse dependenciesToHoist walkFuel entrypoint
            ⟨[], st.walk.cache, st.walk.diagnostics⟩ with
        | none => none
        | some (info, wst) =>
          let graph := st.graph.updateNode entrypoint (fun node =>
            { node with
              sources := info.deps.foldl jsSetAdd node.sources,
              deps := info.deps.foldl jsSetAdd node.deps,
              childChunks := info.childChunks.foldl jsSetAdd node.childChunks })
          let stepped := info.childChunks.foldl (processChildChunk entrypoint) (graph, restQueue)
          let afterManual : Graph × List String × List (String × String) :=
            match stepped.2, st.manualEntrypointsToAdd with
            | [], (parent, child) :: restManual =>
              ((stepped.1.setNode child
                  { name := child, sources := [child], childChunks := [], deps := [] }).setEdge
                  parent child,
               [child], restManual)
            | queue, manual => (stepped.1, queue, manual)
          findDepsLoop parse dependenciesToHoist walkFuel fuel
            { graph := afterManual.1,
              entrypoints := afterManual.2.1,
              visitedEntryPoints := st.visitedEntryPoints ++ [entrypoint],
              manualEntrypointsToAdd := afterManual.2.2,
              walk := ⟨[], wst.cache, wst.diagnostics⟩ }

/-- `findDepsFromEntryPoints(entrypoints, manualEntrypoints, ...)`
(lines 227–311): seed the graph with the entry points (the first is the
primary entry point; the others get an edge from it), run the work-queue
loop, and finally reverse every chunk's `sources` into
dependencies-first order. -/
def findDepsFromEntryPoints (parse : String → Option ParsedFile)
    (dependenciesToHoist : List (String × List String))
    (entrypoints : List String) (manualEntrypoints : List (String × String))
    (loopFuel walkFuel : Nat) : Option (Graph × String × List String) :=
  match entrypoints with
  | [] => none
  | graphEntrypoint :: otherEntrypoints =>
    let graph := (Graph.mk [] []).setNode graphEntrypoint
      { name := graphEntrypoint, sources := [], childChunks := [], deps := [] }
    let graph := otherEntrypoints.foldl
      (fun g entrypoint =>
        (g.setNode entrypoint
          { name := entrypoint, sources := [], childChunks := [], deps := [] }).setEdge
          graphEntrypoint entrypoint)
      graph
    match findDepsLoop parse dependenciesToHoist walkFuel loopFuel
        ⟨graph, graphEntrypoint :: otherEntrypoints, [], manualEntrypoints, ⟨[], [], []⟩⟩ with
    | none => none
    | some st =>
      let finalGraph :=
        { st.graph with
          nodes := st.graph.nodes.map (fun p => (p.1, { p.2 with sources := p.2.sources.reverse })) }
      some (finalGraph, graphEntrypoint, st.walk.diagnostics)

end FindDependenciesJs

/-- Claim C6: during chunk-graph construction, for every discovered
dynamic-import child chunk `X` of the current chunk, the edge
`currentChunk → X` is added if and only if no edge already exists between
the current chunk and `X` in either direction; in particular an existing
opposite-direction edge `X → currentChunk` is never overwritten or removed
by the child-chunk step, and no other edge of the graph changes. -/
theorem C6_processChildChunk_edge_precedence (currentChunk : String) (g : Graph)
    (queue : List String) (X : String) (a b : String) :
    (FindDependenciesJs.processChildChunk currentChunk (g, queue) X).1.hasEdge a b ↔
      (g.hasEdge a b ∨
        (a = currentChunk ∧ b = X ∧ ¬ g.hasEdge currentChunk X ∧ ¬ g.hasEdge X currentChunk)) := by
  unfold FindDependenciesJs.processChildChunk
  have hnodeEdges : ∀ (gr : Graph) (nm : String) (nd : GraphNode),
      (gr.setNode nm nd).edges = gr.edges := by
    intro gr nm nd
    unfold Graph.setNode
    split <;> rfl
  have hwithNode :
      (match g.node? X with
        | some _ => ((g, queue) : Graph × List String)
        | none =>
          (g.setNode X { name := X, sources := [X], childChunks := [], deps := [] },
            queue ++ [X])).1.edges = g.edges := by
    cases g.node? X with
    | none => exact hnodeEdges _ _ _
    | some _ => rfl
  set acc := (match g.node? X with
    | some _ => ((g, queue) : Graph × List String)
    | none =>
      (g.setNode X { name := X, sources := [X], childChunks := [], deps := [] },
        queue ++ [X])) with hacc
  show (if (acc.1.inEdgesFrom currentChunk X).isEmpty &&
      (acc.1.outEdgesTo currentChunk X).isEmpty then
        (acc.1.setEdge currentChunk X, acc.2)
      else acc).1.hasEdge a b ↔ _
  have hin : acc.1.inEdgesFrom currentChunk X = g.inEdgesFrom currentChunk X := by
    unfold Graph.inEdgesFrom
    rw [hwithNode]
  have hout : acc.1.outEdgesTo currentChunk X = g.outEdgesTo currentChunk X := by
    unfold Graph.outEdgesTo
    rw [hwithNode]
  have hinEmpty : (g.inEdgesFrom currentChunk X).isEmpty = true ↔ ¬ g.hasEdge X currentChunk := by
    unfold Graph.inEdgesFrom Graph.hasEdge
    rw [List.isEmpty_iff, List.filter_eq_nil]
    constructor
    · intro h hmem
      exact absurd (by simp : ((X, currentChunk).2 == currentChunk && (X, currentChunk).1 == X) = true)
        (by simpa using h _ hmem)
    · intro h e hmem
      simp only [Bool.and_eq_true, beq_iff_eq, not_and]
      intro h2 h1
      exact h (by
        have : e = (X, currentChunk) := by
          cases e
          simp only at h1 h2
          rw [h1, h2]
        exact this ▸ hmem)
  have houtEmpty : (g.outEdgesTo currentChunk X).isEmpty = true ↔ ¬ g.hasEdge currentChunk X := by
    unfold Graph.outEdgesTo Graph.hasEdge
    rw [List.isEmpty_iff, List.filter_eq_nil]
    constructor
    · intro h hmem
      exact absurd (by simp : ((currentChunk, X).1 == currentChunk && (currentChunk, X).2 == X) = true)
        (by simpa using h _ hmem)
    · intro h e hmem
      simp only [Bool.and_eq_true, beq_iff_eq, not_and]
      intro h1 h2
      exact h (by
        have : e = (currentChunk, X) := by
          cases e
          simp only at h1 h2
          rw [h1, h2]
        exact this ▸ hmem)
  by_cases hcond : (g.inEdgesFrom currentChunk X).isEmpty = true ∧
      (g.outEdgesTo currentChunk X).isEmpty = true
  · rw [if_pos (by rw [hin, hout, hcond.1, hcond.2]; rfl)]
    unfold Graph.setEdge Graph.hasEdge
    have hnotXc : ¬ g.hasEdge X currentChunk := hinEmpty.mp hcond.1
    have hnotcX : ¬ g.hasEdge currentChunk X := houtEmpty.mp hcond.2
    rw [if_neg (by rw [show acc.1.edges = g.edges from hwithNode]; exact hnotcX)]
    simp only [show acc.1.edges = g.edges from hwithNode]
    rw [List.mem_append, List.mem_singleton]
    constructor
    · rintro (h | h)
      · exact Or.inl h
      · have : a = currentChunk ∧ b = X := by
          rw [Prod.ext_iff] at h
          exact h
        exact Or.inr ⟨this.1, this.2, hnotcX, hnotXc⟩
    · rintro (h | ⟨rfl, rfl, _, _⟩)
      · exact Or.inl h
      · exact Or.inr rfl
  · rw [if_neg (by
      rw [hin, hout]
      intro hc
      rw [Bool.and_eq_true] at hc
      exact hcond ⟨hc.1, hc.2⟩)]
    rw [show (acc.1.hasEdge a b) = ((a, b) ∈ g.edges) from by
      unfold Graph.hasEdge
      rw [hwithNode]]
    unfold Graph.hasEdge
    constructor
    · exact fun h => Or.inl h
    · rintro (h | ⟨rfl, rfl, hncX, hnXc⟩)
      · exact h
      · exfalso
        rcases not_and_or.mp hcond with hc | hc
        · exact hc (hinEmpty.mpr hnXc)
        · exact hc (houtEmpty.mpr hncX)

/-! ### The walker produces a reverse post-order -/

theorem jsMapGet_eq_none_of_not_mem_keys {κ α : Type} [DecidableEq κ] {m : List (κ × α)} {k : κ}
    (h : k ∉ mapKeys m) : jsMapGet m k = none := by
  unfold jsMapGet
  rw [Option.map_eq_none', List.find?_eq_none]
  intro p hp
  simp only [decide_eq_true_eq]
  intro hk
  exact h (List.mem_map.mpr ⟨p, hp, hk⟩)

theorem mem_mapKeys_jsMapSet {κ α : Type} [DecidableEq κ] {m : List (κ × α)} {k p : κ} {v : α}
    (h : k ∈ mapKeys (jsMapSet m p v)) : k ∈ mapKeys m ∨ k = p := by
  unfold jsMapSet at h
  split at h
  · unfold mapKeys at h ⊢
    rw [List.map_map] at h
    rcases List.mem_map.mp h with ⟨q, hq, hqk⟩
    by_cases hqp : q.1 = p
    · simp only [Function.comp, hqp, if_pos] at hqk
      exact Or.inr hqk.symm
    · simp only [Function.comp, hqp, if_neg, not_false_iff] at hqk
      exact Or.inl (List.mem_map.mpr ⟨q, hq, hqk⟩)
  · unfold mapKeys at h ⊢
    rw [List.map_append] at h
    rcases List.mem_append.mp h with h' | h'
    · exact Or.inl h'
    · simp only [List.map_cons, List.map_nil, List.mem_singleton] at h'
      exact Or.inr h'

namespace FindDependenciesJs

/-- The effective direct-dependency list of a file: the parsed static deps
(empty for `.json` files and on parse failure) followed by the hoisted
dependencies injected for the file. -/
def directList (parse : String → Option ParsedFile) (H : List (String × List String))
    (f : String) : List String :=
  (if f.endsWith ".json" then []
   else
     match parse f with
     | some depInfo => depInfo.deps
     | none => []) ++ (jsMapGet H f).getD []

/-- The cache only stores files that have finished processing: every cached
key is visited and is not on the active (gray) call stack. -/
def CacheOk (st : WalkState) (gray : List String) : Prop :=
  ∀ k ∈ mapKeys st.cache, k ∈ st.visitedFiles ∧ k ∉ gray

/-- Conclusions of the walker invariant for a `getDependenciesForFile` call. -/
def GConcl (parse : String → Option ParsedFile) (H : List (String × List String))
    (rank : String → Nat) (f : String) (st : WalkState) (gray : List String)
    (info : ParsedFile) (st' : WalkState) : Prop :=
  CacheOk st' gray ∧
  gray ⊆ st'.visitedFiles ∧
  info.deps.Nodup ∧
  (∀ x ∈ info.deps, x ∈ st'.visitedFiles ∧ x ∉ gray ∧ x ∉ st.visitedFiles) ∧
  (∀ x, x ∈ st'.visitedFiles ↔ x ∈ st.visitedFiles ∨ x ∈ info.deps) ∧
  (∀ x ∈ info.deps, x = f ∨ rank x < rank f) ∧
  (∀ y ∈ directList parse H f, y ∈ st'.visitedFiles) ∧
  List.Pairwise (fun a b => a ∈ directList parse H b → a = b) info.deps ∧
  (∀ x ∈ info.deps, ∀ y ∈ directList parse H x,
    y = x ∨ y ∈ info.deps ∨ (y ∈ st.visitedFiles ∧ y ∉ gray))

/-- Conclusions of the walker invariant for a `walkListWith` call. -/
def WConcl (parse : String → Option ParsedFile) (H : List (String × List String))
    (rank : String → Nat) (l deps₀ : List String) (st : WalkState) (gray : List String)
    (B : String) (V₀ : List String) (info : ParsedFile) (st' : WalkState) : Prop :=
  CacheOk st' gray ∧
  gray ⊆ st'.visitedFiles ∧
  info.deps.Nodup ∧
  (∀ x ∈ info.deps, x ∈ st'.visitedFiles ∧ x ∉ gray) ∧
  (∀ x, x ∈ st'.visitedFiles ↔ x ∈ V₀ ∨ x ∈ info.deps) ∧
  (∀ x ∈ info.deps, x ∈ deps₀ ∨ x = B ∨ rank x < rank B) ∧
  (∀ x ∈ deps₀, x ∈ info.deps) ∧
  (∀ x ∈ info.deps, x ∈ deps₀ ∨ x ∉ V₀) ∧
  (∀ p ∈ l, p ∈ st'.visitedFiles) ∧
  List.Pairwise (fun a b => a ∈ directList parse H b → a = b) info.deps ∧
  (∀ x ∈ info.deps, ∀ y ∈ directList parse H x,
    y = x ∨ y ∈ info.deps ∨ (y ∈ V₀ ∧ y ∉ gray))

/-- The walker invariant, stated for one `getDependenciesForFile` call at a
given fuel. -/
def GStmt (parse : String → Option ParsedFile) (H : List (String × List String))
    (rank : String → Nat) (fuel : Nat) : Prop :=
  ∀ (f : String) (st : WalkState) (gray : List String) (info : ParsedFile) (st' : WalkState),
    getDependenciesForFile parse H fuel f st = some (info, st') →
    CacheOk st gray →
    gray ⊆ st.visitedFiles →
    f ∉ mapKeys st.cache →
    (∀ g ∈ gray, f = g ∨ rank f < rank g) →
    GConcl parse H rank f st gray info st'

/-- The walker invariant, stated for one `walkListWith` call running the
recursive walker at a given fuel. -/
def WStmt (parse : String → Option ParsedFile) (H : List (String × List String))
    (rank : String → Nat) (fuel : Nat) : Prop :=
  ∀ (l deps₀ cc₀ : List String) (st : WalkState) (gray : List String)
      (B : String) (V₀ : List String) (info : ParsedFile) (st' : WalkState),
    walkListWith (getDependenciesForFile parse H fuel) l deps₀ cc₀ st = some (info, st') →
    CacheOk st gray →
    gray ⊆ st.visitedFiles →
    (∀ p ∈ l, p = B ∨ rank p < rank B) →
    (∀ p ∈ l, ∀ g ∈ gray, p = g ∨ rank p < rank g) →
    deps₀.Nodup →
    (∀ x ∈ deps₀, x ∈ st.visitedFiles ∧ x ∉ gray) →
    (∀ x, x ∈ st.visitedFiles ↔ x ∈ V₀ ∨ x ∈ deps₀) →
    List.Pairwise (fun a b => a ∈ directList parse H b → a = b) deps₀ →
    (∀ x ∈ deps₀, ∀ y ∈ directList parse H x,
      y = x ∨ y ∈ deps₀ ∨ (y ∈ V₀ ∧ y ∉ gray)) →
    WConcl parse H rank l deps₀ st gray B V₀ info st'

end FindDependenciesJs

namespace FindDependenciesJs

theorem walkListWith_nil (g : String → WalkState → Option (ParsedFile × WalkState))
    (deps cc : List String) (st : WalkState) :
    walkListWith g [] deps cc st = some (⟨deps, cc⟩, st) := by
  rw [walkListWith]

theorem walkListWith_cons_visited (g : String → WalkState → Option (ParsedFile × WalkState))
    (p : String) (rest deps cc : List String) (st : WalkState) (hp : p ∈ st.visitedFiles) :
    walkListWith g (p :: rest) deps cc st = walkListWith g rest deps cc st := by
  rw [walkListWith, if_pos hp]

theorem walkListWith_cons_unvisited_none
    (g : String → WalkState → Option (ParsedFile × WalkState))
    (p : String) (rest deps cc : List String) (st : WalkState) (hp : p ∉ st.visitedFiles)
    (hgp : g p { st with visitedFiles := st.visitedFiles ++ [p] } = none) :
    walkListWith g (p :: rest) deps cc st = none := by
  rw [walkListWith, if_neg hp]
  simp only [hgp]

theorem walkListWith_cons_unvisited_some
    (g : String → WalkState → Option (ParsedFile × WalkState))
    (p : String) (rest deps cc : List String) (st : WalkState)
    (tinfo : ParsedFile) (st2 : WalkState) (hp : p ∉ st.visitedFiles)
    (hgp : g p { st with visitedFiles := st.visitedFiles ++ [p] } = some (tinfo, st2)) :
    walkListWith g (p :: rest) deps cc st =
      walkListWith g rest ((p :: tinfo.deps) ++ deps)
        (tinfo.childChunks.foldl
          (fun acc childChunkRef => if childChunkRef ∈ acc then acc else acc ++ [childChunkRef]) cc)
        { st2 with cache := jsMapSet st2.cache p ⟨p :: tinfo.deps, tinfo.childChunks⟩ } := by
  rw [walkListWith, if_neg hp]
  simp only [hgp]

theorem walkListWith_all_visited (g : String → WalkState → Option (ParsedFile × WalkState)) :
    ∀ (l deps cc : List String) (st : WalkState),
      (∀ p ∈ l, p ∈ st.visitedFiles) →
      walkListWith g l deps cc st = some (⟨deps, cc⟩, st)
  | [], _, _, _, _ => walkListWith_nil g _ _ _
  | p :: rest, deps, cc, st, h => by
    rw [walkListWith_cons_visited g p rest deps cc st (h p (List.mem_cons_self _ _))]
    exact walkListWith_all_visited g rest deps cc st fun q hq => h q (List.mem_cons_of_mem _ hq)

end FindDependenciesJs

namespace FindDependenciesJs

/-- The main invariant of the `for` loop of `getDependenciesForFile`: assuming
the recursive walker `g` satisfies the per-call invariant (`GConcl`), one pass
of the loop preserves the accumulated-deps invariants (`WConcl`): the result
list is duplicate-free, contains the accumulator as a suffix-set, stays inside
the rank bound, and lists every static dependency of a member after that
member. -/
theorem walkListWith_invariant (parse : String → Option ParsedFile)
    (H : List (String × List String)) (rank : String → Nat)
    (hrank : ∀ f y, y ∈ directList parse H f → y ≠ f → rank y < rank f)
    (g : String → WalkState → Option (ParsedFile × WalkState))
    (hg : ∀ (f : String) (st : WalkState) (gray : List String) (info : ParsedFile)
        (st' : WalkState),
      g f st = some (info, st') → CacheOk st gray → gray ⊆ st.visitedFiles →
      f ∉ mapKeys st.cache → (∀ gg ∈ gray, f = gg ∨ rank f < rank gg) →
      GConcl parse H rank f st gray info st')
    (gray : List String) (B : String) (V₀ : List String) :
    ∀ (l deps₀ cc₀ : List String) (st : WalkState) (info : ParsedFile) (st' : WalkState),
      walkListWith g l deps₀ cc₀ st = some (info, st') →
      CacheOk st gray →
      gray ⊆ st.visitedFiles →
      (∀ p ∈ l, p = B ∨ rank p < rank B) →
      (∀ p ∈ l, ∀ gg ∈ gray, p = gg ∨ rank p < rank gg) →
      deps₀.Nodup →
      (∀ x ∈ deps₀, x ∈ st.visitedFiles ∧ x ∉ gray) →
      (∀ x, x ∈ st.visitedFiles ↔ x ∈ V₀ ∨ x ∈ deps₀) →
      List.Pairwise (fun a b => a ∈ directList parse H b → a = b) deps₀ →
      (∀ x ∈ deps₀, ∀ y ∈ directList parse H x,
        y = x ∨ y ∈ deps₀ ∨ (y ∈ V₀ ∧ y ∉ gray)) →
      WConcl parse H rank l deps₀ st gray B V₀ info st' := by
  intro l
  induction l with
  | nil =>
    intro deps₀ cc₀ st info st' hrun hco hgv hBl hgl hnd hmem hiff hpw hordb
    rw [walkListWith_nil] at hrun
    rw [Option.some_inj, Prod.mk.injEq] at hrun
    obtain ⟨hinfo, hst⟩ := hrun
    subst hst
    subst hinfo
    unfold WConcl
    refine ⟨hco, hgv, hnd, hmem, hiff, fun x hx => Or.inl hx, fun x hx => hx,
      fun x hx => Or.inl hx, fun p hp => absurd hp (List.not_mem_nil p), hpw, hordb⟩
  | cons p rest ih =>
    intro deps₀ cc₀ st info st' hrun hco hgv hBl hgl hnd hmem hiff hpw hordb
    by_cases hp : p ∈ st.visitedFiles
    · rw [walkListWith_cons_visited g p rest deps₀ cc₀ st hp] at hrun
      have hw := ih deps₀ cc₀ st info st' hrun hco hgv
        (fun q hq => hBl q (List.mem_cons_of_mem _ hq))
        (fun q hq => hgl q (List.mem_cons_of_mem _ hq)) hnd hmem hiff hpw hordb
      unfold WConcl at hw ⊢
      obtain ⟨w1, w2, w3, w4, w5, w6, w7, w8, w9, w10, w11⟩ := hw
      refine ⟨w1, w2, w3, w4, w5, w6, w7, w8, ?_, w10, w11⟩
      intro q hq
      rcases List.mem_cons.mp hq with hq' | hq'
      · subst hq'
        rcases (hiff q).mp hp with h | h
        · exact (w5 q).mpr (Or.inl h)
        · exact (w5 q).mpr (Or.inr (w7 q h))
      · exact w9 q hq'
    · have hpV : p ∉ V₀ := fun h => hp ((hiff p).mpr (Or.inl h))
      have hpd : p ∉ deps₀ := fun h => hp (hmem p h).1
      have hpg : p ∉ gray := fun h => hp (hgv h)
      have hpgAll : ∀ gg ∈ gray, p = gg ∨ rank p < rank gg :=
        hgl p (List.mem_cons_self p rest)
      rcases hgp : g p { st with visitedFiles := st.visitedFiles ++ [p] } with _ | ⟨tinfo, st2⟩
      · rw [walkListWith_cons_unvisited_none g p rest deps₀ cc₀ st hp hgp] at hrun
        exact absurd hrun (by simp)
      · rw [walkListWith_cons_unvisited_some g p rest deps₀ cc₀ st tinfo st2 hp hgp] at hrun
        -- invoke the per-call invariant of g with the gray stack extended by p
        have hco1 : CacheOk { st with visitedFiles := st.visitedFiles ++ [p] } (gray ++ [p]) := by
          intro k hk
          obtain ⟨hkv, hkg⟩ := hco k hk
          refine ⟨List.mem_append.mpr (Or.inl hkv), ?_⟩
          intro hmem'
          rcases List.mem_append.mp hmem' with h | h
          · exact hkg h
          · exact hp (List.mem_singleton.mp h ▸ hkv)
        have hgv1 : (gray ++ [p]) ⊆
            ({ st with visitedFiles := st.visitedFiles ++ [p] } : WalkState).visitedFiles := by
          intro gg hgg
          rcases List.mem_append.mp hgg with h | h
          · exact List.mem_append.mpr (Or.inl (hgv h))
          · exact List.mem_append.mpr (Or.inr h)
        have hfc1 : p ∉ mapKeys ({ st with visitedFiles := st.visitedFiles ++ [p] } : WalkState).cache :=
          fun h => hp (hco p h).1
        have hfg1 : ∀ gg ∈ gray ++ [p], p = gg ∨ rank p < rank gg := by
          intro gg hgg
          rcases List.mem_append.mp hgg with h | h
          · exact hpgAll gg h
          · exact Or.inl (List.mem_singleton.mp h).symm
        have hgc := hg p _ (gray ++ [p]) tinfo st2 hgp hco1 hgv1 hfc1 hfg1
        unfold GConcl at hgc
        obtain ⟨G1, G2, G3, G4, G5, G6, G7, G8, G9⟩ := hgc
        have hsub_fresh : ∀ x ∈ tinfo.deps, x ∉ st.visitedFiles ∧ x ≠ p := by
          intro x hx
          have h4 := (G4 x hx).2.2
          constructor
          · intro h; exact h4 (List.mem_append.mpr (Or.inl h))
          · intro h; exact h4 (List.mem_append.mpr (Or.inr (by simp [h])))
        have hpsub : p ∉ tinfo.deps := fun h => (G4 p h).2.2 (List.mem_append.mpr (Or.inr (by simp)))
        have hpst2 : p ∈ st2.visitedFiles :=
          (G5 p).mpr (Or.inl (List.mem_append.mpr (Or.inr (by simp))))
        have hstsub2 : ∀ x ∈ st.visitedFiles, x ∈ st2.visitedFiles :=
          fun x h => (G5 x).mpr (Or.inl (List.mem_append.mpr (Or.inl h)))
        -- hypotheses of the loop invariant for the tail, with the new accumulator
        have hco3 : CacheOk { st2 with
            cache := jsMapSet st2.cache p ⟨p :: tinfo.deps, tinfo.childChunks⟩ } gray := by
          intro k hk
          rcases mem_mapKeys_jsMapSet hk with h | h
          · obtain ⟨hkv, hkg'⟩ := G1 k h
            exact ⟨hkv, fun hh => hkg' (List.mem_append.mpr (Or.inl hh))⟩
          · subst h
            exact ⟨hpst2, hpg⟩
        have hgv3 : gray ⊆ ({ st2 with
            cache := jsMapSet st2.cache p ⟨p :: tinfo.deps, tinfo.childChunks⟩ } : WalkState).visitedFiles :=
          fun gg hgg => hstsub2 _ (hgv hgg)
        have hnd1 : ((p :: tinfo.deps) ++ deps₀).Nodup := by
          rw [List.nodup_append]
          refine ⟨List.nodup_cons.mpr ⟨hpsub, G3⟩, hnd, ?_⟩
          intro a ha had
          rcases List.mem_cons.mp ha with h | h
          · exact hpd (h ▸ had)
          · exact (hsub_fresh a h).1 (hmem a had).1
        have hmem1 : ∀ x ∈ (p :: tinfo.deps) ++ deps₀,
            x ∈ ({ st2 with
              cache := jsMapSet st2.cache p ⟨p :: tinfo.deps, tinfo.childChunks⟩ } : WalkState).visitedFiles ∧
            x ∉ gray := by
          intro x hx
          rcases List.mem_append.mp hx with h | h
          · rcases List.mem_cons.mp h with h' | h'
            · subst h'; exact ⟨hpst2, hpg⟩
            · exact ⟨(G4 x h').1, fun hh => (G4 x h').2.1 (List.mem_append.mpr (Or.inl hh))⟩
          · exact ⟨hstsub2 _ (hmem x h).1, (hmem x h).2⟩
        have hiff1 : ∀ x,
            x ∈ ({ st2 with
              cache := jsMapSet st2.cache p ⟨p :: tinfo.deps, tinfo.childChunks⟩ } : WalkState).visitedFiles ↔
            x ∈ V₀ ∨ x ∈ (p :: tinfo.deps) ++ deps₀ := by
          intro x
          constructor
          · intro hx
            rcases (G5 x).mp hx with h | h
            · rcases List.mem_append.mp h with h' | h'
              · rcases (hiff x).mp h' with h'' | h''
                · exact Or.inl h''
                · exact Or.inr (List.mem_append.mpr (Or.inr h''))
              · exact Or.inr (List.mem_append.mpr (Or.inl (by
                  rw [List.mem_singleton.mp h']; exact List.mem_cons_self p tinfo.deps)))
            · exact Or.inr (List.mem_append.mpr (Or.inl (List.mem_cons_of_mem _ h)))
          · intro hx
            rcases hx with h | h
            · exact hstsub2 _ ((hiff x).mpr (Or.inl h))
            · rcases List.mem_append.mp h with h' | h'
              · rcases List.mem_cons.mp h' with h'' | h''
                · subst h''; exact hpst2
                · exact (G4 x h'').1
              · exact hstsub2 _ (hmem x h').1
        have hpw1 : List.Pairwise (fun a b => a ∈ directList parse H b → a = b)
            ((p :: tinfo.deps) ++ deps₀) := by
          rw [List.pairwise_append]
          refine ⟨?_, hpw, ?_⟩
          · rw [List.pairwise_cons]
            refine ⟨?_, G8⟩
            intro b hb hpb
            have hbp : b ≠ p := (hsub_fresh b hb).2
            have hrb : rank b < rank p := by
              rcases G6 b hb with h | h
              · exact absurd h hbp
              · exact h
            have hrp : rank p < rank b := hrank b p hpb (fun h => hbp h.symm)
            omega
          · intro a ha b hb hab
            rcases hordb b hb a hab with h | h | h
            · exact h
            · rcases List.mem_cons.mp ha with h' | h'
              · exact absurd (h' ▸ h) hpd
              · exact absurd (hmem a h).1 (hsub_fresh a h').1
            · rcases List.mem_cons.mp ha with h' | h'
              · exact absurd (h' ▸ h.1) hpV
              · exact absurd ((hiff a).mpr (Or.inl h.1)) (hsub_fresh a h').1
        have hordb1 : ∀ x ∈ (p :: tinfo.deps) ++ deps₀, ∀ y ∈ directList parse H x,
            y = x ∨ y ∈ (p :: tinfo.deps) ++ deps₀ ∨ (y ∈ V₀ ∧ y ∉ gray) := by
          intro x hx y hy
          rcases List.mem_append.mp hx with h | h
          · rcases List.mem_cons.mp h with h' | h'
            · subst h'
              have hy2 : y ∈ st2.visitedFiles := G7 y hy
              rcases (G5 y).mp hy2 with h'' | h''
              · rcases List.mem_append.mp h'' with h3 | h3
                · rcases (hiff y).mp h3 with h4 | h4
                  · refine Or.inr (Or.inr ⟨h4, ?_⟩)
                    intro hyg
                    have hyp' : y ≠ x := fun h => hp (h ▸ h3)
                    have h5 : rank y < rank x := hrank x y hy hyp'
                    rcases hpgAll y hyg with h6 | h6
                    · exact hyp' h6.symm
                    · omega
                  · exact Or.inr (Or.inl (List.mem_append.mpr (Or.inr h4)))
                · exact Or.inl (List.mem_singleton.mp h3)
              · exact Or.inr (Or.inl (List.mem_append.mpr (Or.inl (List.mem_cons_of_mem _ h''))))
            · rcases G9 x h' y hy with h'' | h'' | h''
              · exact Or.inl h''
              · exact Or.inr (Or.inl (List.mem_append.mpr (Or.inl (List.mem_cons_of_mem _ h''))))
              · obtain ⟨hyv1, hyg'⟩ := h''
                rcases List.mem_append.mp hyv1 with h3 | h3
                · rcases (hiff y).mp h3 with h4 | h4
                  · exact Or.inr (Or.inr ⟨h4, fun hh => hyg' (List.mem_append.mpr (Or.inl hh))⟩)
                  · exact Or.inr (Or.inl (List.mem_append.mpr (Or.inr h4)))
                · exact absurd (List.mem_append.mpr (Or.inr h3)) hyg'
          · rcases hordb x h y hy with h'' | h'' | h''
            · exact Or.inl h''
            · exact Or.inr (Or.inl (List.mem_append.mpr (Or.inr h'')))
            · exact Or.inr (Or.inr h'')
        have hwc := ih ((p :: tinfo.deps) ++ deps₀)
          (tinfo.childChunks.foldl
            (fun acc childChunkRef => if childChunkRef ∈ acc then acc else acc ++ [childChunkRef]) cc₀)
          { st2 with cache := jsMapSet st2.cache p ⟨p :: tinfo.deps, tinfo.childChunks⟩ }
          info st' hrun hco3 hgv3
          (fun q hq => hBl q (List.mem_cons_of_mem _ hq))
          (fun q hq => hgl q (List.mem_cons_of_mem _ hq)) hnd1 hmem1 hiff1 hpw1 hordb1
        unfold WConcl at hwc ⊢
        obtain ⟨w1, w2, w3, w4, w5, w6, w7, w8, w9, w10, w11⟩ := hwc
        refine ⟨w1, w2, w3, w4, w5, ?_, ?_, ?_, ?_, w10, w11⟩
        · intro x hx
          rcases w6 x hx with h | h
          · rcases List.mem_append.mp h with h' | h'
            · rcases List.mem_cons.mp h' with h'' | h''
              · subst h''
                exact Or.inr (hBl x (List.mem_cons_self x rest))
              · rcases G6 x h'' with h3 | h3
                · subst h3
                  exact Or.inr (hBl x (List.mem_cons_self x rest))
                · rcases hBl p (List.mem_cons_self p rest) with hb | hb
                  · exact Or.inr (Or.inr (hb ▸ h3))
                  · exact Or.inr (Or.inr (lt_trans h3 hb))
            · exact Or.inl h'
          · exact Or.inr h
        · exact fun x hx => w7 x (List.mem_append.mpr (Or.inr hx))
        · intro x hx
          rcases w8 x hx with h | h
          · rcases List.mem_append.mp h with h' | h'
            · rcases List.mem_cons.mp h' with h'' | h''
              · exact Or.inr (h'' ▸ hpV)
              · exact Or.inr (fun hv => (hsub_fresh x h'').1 ((hiff x).mpr (Or.inl hv)))
            · exact Or.inl h'
          · exact Or.inr h
        · intro q hq
          rcases List.mem_cons.mp hq with h | h
          · subst h
            exact (w4 q (w7 q (List.mem_append.mpr (Or.inl (List.mem_cons_self q tinfo.deps))))).1
          · exact w9 q h

end FindDependenciesJs

namespace FindDependenciesJs

/-- The walker invariant holds for `getDependenciesForFile` at every fuel:
proved by induction on the fuel, using `walkListWith_invariant` for the
loop body. -/
theorem getDependenciesForFile_invariant (parse : String → Option ParsedFile)
    (H : List (String × List String)) (rank : String → Nat)
    (hrank : ∀ f y, y ∈ directList parse H f → y ≠ f → rank y < rank f) :
    ∀ fuel, GStmt parse H rank fuel := by
  intro fuel
  induction fuel with
  | zero =>
    intro f st gray info st' hrun
    rw [getDependenciesForFile] at hrun
    exact absurd hrun (by simp)
  | succ n ihn =>
    intro f st gray info st' hrun hco hgv hfc hfg
    have hcache : jsMapGet st.cache f = none := jsMapGet_eq_none_of_not_mem_keys hfc
    rw [getDependenciesForFile] at hrun
    simp only [hcache] at hrun
    have hstep : ∃ (cc : List String) (stm : WalkState),
        stm.visitedFiles = st.visitedFiles ∧ stm.cache = st.cache ∧
        walkListWith (getDependenciesForFile parse H n) (directList parse H f) [] cc stm
          = some (info, st') := by
      by_cases hjson : f.endsWith ".json" = true
      · refine ⟨[], st, rfl, rfl, ?_⟩
        rw [show directList parse H f = [] ++ (jsMapGet H f).getD [] from by
          simp [directList, hjson]]
        simpa [hjson] using hrun
      · cases hparse : parse f with
        | some d =>
          refine ⟨d.childChunks, st, rfl, rfl, ?_⟩
          rw [show directList parse H f = d.deps ++ (jsMapGet H f).getD [] from by
            simp [directList, hjson, hparse]]
          simpa [hjson, hparse] using hrun
        | none =>
          refine ⟨[], { st with diagnostics := st.diagnostics ++ [f] }, rfl, rfl, ?_⟩
          rw [show directList parse H f = [] ++ (jsMapGet H f).getD [] from by
            simp [directList, hjson, hparse]]
          simpa [hjson, hparse] using hrun
    obtain ⟨cc, stm, hv, hc, hw⟩ := hstep
    have hcoM : CacheOk stm gray := by
      intro k hk
      rw [hc] at hk
      obtain ⟨h1, h2⟩ := hco k hk
      refine ⟨?_, h2⟩
      rw [hv]
      exact h1
    have hgvM : gray ⊆ stm.visitedFiles := by
      rw [hv]
      exact hgv
    have hBl : ∀ p ∈ directList parse H f, p = f ∨ rank p < rank f := by
      intro p hpd
      by_cases hpf : p = f
      · exact Or.inl hpf
      · exact Or.inr (hrank f p hpd hpf)
    have hgl : ∀ p ∈ directList parse H f, ∀ gg ∈ gray, p = gg ∨ rank p < rank gg := by
      intro p hpd gg hgg
      rcases hBl p hpd with h1 | h1
      · exact h1 ▸ hfg gg hgg
      · rcases hfg gg hgg with h2 | h2
        · exact Or.inr (h2 ▸ h1)
        · exact Or.inr (lt_trans h1 h2)
    have hiffM : ∀ x, x ∈ stm.visitedFiles ↔ x ∈ st.visitedFiles ∨ x ∈ ([] : List String) := by
      intro x
      rw [hv]
      simp
    have hwc := walkListWith_invariant parse H rank hrank
      (getDependenciesForFile parse H n) ihn gray f st.visitedFiles
      (directList parse H f) [] cc stm info st' hw hcoM hgvM hBl hgl
      List.nodup_nil (fun x hx => absurd hx (List.not_mem_nil x)) hiffM
      List.Pairwise.nil (fun x hx => absurd hx (List.not_mem_nil x))
    unfold WConcl at hwc
    obtain ⟨w1, w2, w3, w4, w5, w6, w7, w8, w9, w10, w11⟩ := hwc
    unfold GConcl
    refine ⟨w1, w2, w3, ?_, w5, ?_, w9, w10, ?_⟩
    · intro x hx
      obtain ⟨h1, h2⟩ := w4 x hx
      refine ⟨h1, h2, ?_⟩
      rcases w8 x hx with h | h
      · exact absurd h (List.not_mem_nil x)
      · exact h
    · intro x hx
      rcases w6 x hx with h | h
      · exact absurd h (List.not_mem_nil x)
      · exact h
    · intro x hx y hy
      rcases w11 x hx y hy with h | h | h
      · exact Or.inl h
      · exact Or.inr (Or.inl h)
      · exact Or.inr (Or.inr h)

end FindDependenciesJs

namespace FindDependenciesJs

/-- One unfolding step of `getDependenciesForFile` on a cache miss: the call
reduces to a `walkListWith` traversal of the file's effective direct list,
from a state with the same visited set and cache (only the diagnostics may
have grown, on a parse failure). -/
theorem getDependenciesForFile_succ_shape (parse : String → Option ParsedFile)
    (H : List (String × List String)) (n : Nat) (f : String) (st : WalkState)
    (info : ParsedFile) (st' : WalkState)
    (hrun : getDependenciesForFile parse H (n + 1) f st = some (info, st'))
    (hcache : jsMapGet st.cache f = none) :
    ∃ (cc : List String) (stm : WalkState),
      stm.visitedFiles = st.visitedFiles ∧ stm.cache = st.cache ∧
      walkListWith (getDependenciesForFile parse H n) (directList parse H f) [] cc stm
        = some (info, st') := by
  rw [getDependenciesForFile] at hrun
  simp only [hcache] at hrun
  by_cases hjson : f.endsWith ".json" = true
  · refine ⟨[], st, rfl, rfl, ?_⟩
    rw [show directList parse H f = [] ++ (jsMapGet H f).getD [] from by
      simp [directList, hjson]]
    simpa [hjson] using hrun
  · cases hparse : parse f with
    | some d =>
      refine ⟨d.childChunks, st, rfl, rfl, ?_⟩
      rw [show directList parse H f = d.deps ++ (jsMapGet H f).getD [] from by
        simp [directList, hjson, hparse]]
      simpa [hjson, hparse] using hrun
    | none =>
      refine ⟨[], { st with diagnostics := st.diagnostics ++ [f] }, rfl, rfl, ?_⟩
      rw [show directList parse H f = [] ++ (jsMapGet H f).getD [] from by
        simp [directList, hjson, hparse]]
      simpa [hjson, hparse] using hrun

end FindDependenciesJs

/-- Claim C4 (amended): for a file `F` whose effective direct list begins with
`F` itself (as `findDeps` produces), and assuming the static dependency
relation is acyclic (witnessed by a rank function that strictly decreases
along dependencies), the walk of `F` from a fresh state returns a `deps` list
in which each file appears exactly once, `F` is the FIRST element (not the
last), and every static dependency of a listed file appears strictly AFTER
it in the list (dependents-first / reverse post-order — the opposite
order of the one claimed; the dependencies-first order only appears after the
final `sources.reverse()` in `findDepsFromEntryPoints`). -/
theorem C4_walk_reverse_postorder_amended (parse : String → Option FindDependenciesJs.ParsedFile)
    (H : List (String × List String)) (rank : String → Nat) (fuel : Nat)
    (F : String) (rest : List String) (info : FindDependenciesJs.ParsedFile)
    (st' : FindDependenciesJs.WalkState)
    (hrank : ∀ f y, y ∈ FindDependenciesJs.directList parse H f → y ≠ f → rank y < rank f)
    (hhead : FindDependenciesJs.directList parse H F = F :: rest)
    (hrun : FindDependenciesJs.getDependenciesForFile parse H fuel F ⟨[], [], []⟩
      = some (info, st')) :
    info.deps.Nodup ∧
    info.deps.head? = some F ∧
    List.Pairwise (fun a b => a ∈ FindDependenciesJs.directList parse H b → a = b) info.deps ∧
    (∀ x ∈ info.deps, ∀ y ∈ FindDependenciesJs.directList parse H x,
      y = x ∨ y ∈ info.deps) := by
  have hgc := FindDependenciesJs.getDependenciesForFile_invariant parse H rank hrank fuel
    F ⟨[], [], []⟩ [] info st' hrun
    (fun k hk => absurd hk (List.not_mem_nil k))
    (List.nil_subset _)
    (fun hk => absurd hk (List.not_mem_nil F))
    (fun gg hgg => absurd hgg (List.not_mem_nil gg))
  unfold FindDependenciesJs.GConcl at hgc
  obtain ⟨_, _, G3, _, _, _, _, G8, G9⟩ := hgc
  refine ⟨G3, ?_, G8, ?_⟩
  · cases fuel with
    | zero =>
      rw [FindDependenciesJs.getDependenciesForFile] at hrun
      exact absurd hrun (by simp)
    | succ n =>
      obtain ⟨cc, stm, hv, hc0, hw⟩ :=
        FindDependenciesJs.getDependenciesForFile_succ_shape parse H n F ⟨[], [], []⟩
          info st' hrun rfl
      rw [hhead] at hw
      have hFnot : F ∉ stm.visitedFiles := by
        rw [hv]
        exact List.not_mem_nil F
      cases hgp : FindDependenciesJs.getDependenciesForFile parse H n F
          { stm with visitedFiles := stm.visitedFiles ++ [F] } with
      | none =>
        rw [FindDependenciesJs.walkListWith_cons_unvisited_none _ F rest [] cc stm hFnot hgp]
          at hw
        exact absurd hw (by simp)
      | some v =>
        obtain ⟨tinfo, st2⟩ := v
        rw [FindDependenciesJs.walkListWith_cons_unvisited_some _ F rest [] cc stm tinfo st2
          hFnot hgp] at hw
        have hco1 : FindDependenciesJs.CacheOk
            { stm with visitedFiles := stm.visitedFiles ++ [F] } [F] := by
          intro k hk
          rw [show ({ stm with visitedFiles := stm.visitedFiles ++ [F] } :
            FindDependenciesJs.WalkState).cache = stm.cache from rfl, hc0] at hk
          exact absurd hk (List.not_mem_nil k)
        have hgv1 : [F] ⊆ ({ stm with visitedFiles := stm.visitedFiles ++ [F] } :
            FindDependenciesJs.WalkState).visitedFiles := by
          intro gg hgg
          rw [List.mem_singleton.mp hgg]
          exact List.mem_append.mpr (Or.inr (by simp))
        have hfc1 : F ∉ mapKeys ({ stm with visitedFiles := stm.visitedFiles ++ [F] } :
            FindDependenciesJs.WalkState).cache := by
          intro hk
          rw [show ({ stm with visitedFiles := stm.visitedFiles ++ [F] } :
            FindDependenciesJs.WalkState).cache = stm.cache from rfl, hc0] at hk
          exact absurd hk (List.not_mem_nil F)
        have hgc2 := FindDependenciesJs.getDependenciesForFile_invariant parse H rank hrank n
          F _ [F] tinfo st2 hgp hco1 hgv1 hfc1
          (fun gg hgg => Or.inl (List.mem_singleton.mp hgg).symm)
        unfold FindDependenciesJs.GConcl at hgc2
        obtain ⟨_, _, _, _, _, _, G7, _, _⟩ := hgc2
        have hrestv : ∀ q ∈ rest, q ∈ ({ st2 with
            cache := jsMapSet st2.cache F ⟨F :: tinfo.deps, tinfo.childChunks⟩ } :
            FindDependenciesJs.WalkState).visitedFiles := by
          intro q hq
          have hq' : q ∈ FindDependenciesJs.directList parse H F := by
            rw [hhead]
            exact List.mem_cons_of_mem _ hq
          exact G7 q hq'
        rw [FindDependenciesJs.walkListWith_all_visited _ rest _ _ _ hrestv] at hw
        rw [Option.some_inj, Prod.mk.injEq] at hw
        obtain ⟨hinfo, _⟩ := hw
        rw [← hinfo]
        simp
  · intro x hx y hy
    rcases G9 x hx y hy with h | h | h
    · exact Or.inl h
    · exact Or.inr h
    · exact absurd h.1 (List.not_mem_nil y)

namespace FindDependenciesJs

/-- A two-file program: `F` statically imports `b` (and, as `findDeps` always
does, lists itself first in its own dependency list); `b` has no imports. -/
def walkParseExample : String → Option ParsedFile := fun f =>
  if f = "F" then some ⟨["F", "b"], []⟩
  else if f = "b" then some ⟨["b"], []⟩
  else none

/-- A topological rank for `walkParseExample`: dependencies rank strictly
below their dependents. -/
def walkRankExample : String → Nat := fun f => if f = "F" then 1 else 0

theorem walkRankExample_spec :
    ∀ f y, y ∈ directList walkParseExample [] f → y ≠ f →
      walkRankExample y < walkRankExample f := by
  intro f y hy hne
  by_cases hf : f = "F"
  · subst hf
    rw [show directList walkParseExample [] "F" = ["F", "b"] from by decide] at hy
    rcases List.mem_cons.mp hy with h | h
    · exact absurd h hne
    · rw [List.mem_singleton.mp h]
      decide
  · by_cases hb : f = "b"
    · subst hb
      rw [show directList walkParseExample [] "b" = ["b"] from by decide] at hy
      rw [List.mem_singleton.mp hy] at hne
      exact absurd rfl hne
    · have hnil : directList walkParseExample [] f = [] := by
        simp [directList, walkParseExample, jsMapGet, hf, hb]
      rw [hnil] at hy
      exact absurd hy (List.not_mem_nil y)

/-- A four-file program in which the parse of `F` fails: the entry `P` lists
`P`, `d1`, `F`, `d2` as its direct dependencies; `d1` and `d2` parse to just
themselves; `F` does not parse. -/
def walkParseFailExample : String → Option ParsedFile := fun f =>
  if f = "P" then some ⟨["P", "d1", "F", "d2"], []⟩
  else if f = "d1" then some ⟨["d1"], []⟩
  else if f = "d2" then some ⟨["d2"], []⟩
  else none

end FindDependenciesJs

/-- Claim C4 counterexample: for the two-file program where `F` statically
imports `b`, the walk of `F` returns `deps = ["F", "b"]`: the last element is
`b`, not `F`, and the dependency `b` of `F` appears AFTER its dependent `F`
rather than preceding it — `getDependenciesForFile` returns a
dependents-first list, refuting both the "every dependency precedes its
dependents" and the "F itself is the last element" parts of the claim. -/
theorem C4_walk_order_counterexample :
    (FindDependenciesJs.getDependenciesForFile FindDependenciesJs.walkParseExample [] 10 "F"
        ⟨[], [], []⟩).map (fun r => r.1.deps) = some ["F", "b"] ∧
    "b" ∈ FindDependenciesJs.directList FindDependenciesJs.walkParseExample [] "F" ∧
    ¬("b" = "F") ∧
    (["F", "b"] : List String).getLast? = some "b" ∧
    (["F", "b"] : List String).head? = some "F" := by
  refine ⟨by decide, by decide, by decide, by decide, by decide⟩

/-- Claim C4 witness: the amended reverse-post-order theorem applied to the
two-file program `F → b`. -/
theorem C4_walk_witness :
    FindDependenciesJs.directList FindDependenciesJs.walkParseExample [] "F" = "F" :: ["b"] ∧
    FindDependenciesJs.getDependenciesForFile FindDependenciesJs.walkParseExample [] 10 "F"
        ⟨[], [], []⟩ =
      some (⟨["F", "b"], []⟩,
        ⟨["F", "b"], [("b", ⟨["b"], []⟩), ("F", ⟨["F", "b"], []⟩)], []⟩) ∧
    ((⟨["F", "b"], []⟩ : FindDependenciesJs.ParsedFile).deps.Nodup ∧
      (⟨["F", "b"], []⟩ : FindDependenciesJs.ParsedFile).deps.head? = some "F" ∧
      List.Pairwise
        (fun a b => a ∈ FindDependenciesJs.directList FindDependenciesJs.walkParseExample [] b →
          a = b)
        (⟨["F", "b"], []⟩ : FindDependenciesJs.ParsedFile).deps ∧
      (∀ x ∈ (⟨["F", "b"], []⟩ : FindDependenciesJs.ParsedFile).deps,
        ∀ y ∈ FindDependenciesJs.directList FindDependenciesJs.walkParseExample [] x,
          y = x ∨ y ∈ (⟨["F", "b"], []⟩ : FindDependenciesJs.ParsedFile).deps)) :=
  ⟨by decide, by decide,
    C4_walk_reverse_postorder_amended FindDependenciesJs.walkParseExample [] 
      FindDependenciesJs.walkRankExample 10 "F" ["b"]
      ⟨["F", "b"], []⟩ ⟨["F", "b"], [("b", ⟨["b"], []⟩), ("F", ⟨["F", "b"], []⟩)], []⟩
      FindDependenciesJs.walkRankExample_spec (by decide) (by decide)⟩

/-- Claim C8: a parse failure of an individual file is non-fatal.  For any
file that misses the cache, is not a `.json` file, fails to parse, and has no
hoisted dependencies, `getDependenciesForFile` still returns normally
(`some`, not an abort), records the file with empty static dependencies and
empty child chunks, and appends exactly one diagnostic naming the file;
moreover, in the four-file program where the entry `P` lists `P`, `d1`, `F`,
`d2` and the parse of `F` fails, the whole walk still completes, visits and
caches every other file (`d1`, `d2` keep their dependencies; `F` is cached
with only itself), and the diagnostics name exactly `F`. -/
theorem C8_parse_failure_nonfatal (parse : String → Option FindDependenciesJs.ParsedFile)
    (H : List (String × List String)) (fuel : Nat) (f : String)
    (st : FindDependenciesJs.WalkState)
    (hcache : jsMapGet st.cache f = none)
    (hjson : f.endsWith ".json" = false)
    (hparse : parse f = none)
    (hhoist : jsMapGet H f = none) :
    FindDependenciesJs.getDependenciesForFile parse H (fuel + 1) f st =
      some (⟨[], []⟩, { st with diagnostics := st.diagnostics ++ [f] }) ∧
    FindDependenciesJs.getDependenciesForFile FindDependenciesJs.walkParseFailExample [] 10 "P"
        ⟨[], [], []⟩ =
      some (⟨["P", "d2", "F", "d1"], []⟩,
        ⟨["P", "d1", "F", "d2"],
         [("d1", ⟨["d1"], []⟩), ("F", ⟨["F"], []⟩), ("d2", ⟨["d2"], []⟩),
          ("P", ⟨["P", "d2", "F", "d1"], []⟩)], ["F"]⟩) := by
  constructor
  · rw [FindDependenciesJs.getDependenciesForFile]
    simp [hcache, hjson, hparse, hhoist, FindDependenciesJs.walkListWith]
  · decide

/-- Claim C8 witness: the parse-failure theorem applied to the file `F` of
the four-file example program, from a fresh state. -/
theorem C8_parse_failure_witness :
    jsMapGet (⟨[], [], []⟩ : FindDependenciesJs.WalkState).cache "F" = none ∧
    "F".endsWith ".json" = false ∧
    FindDependenciesJs.walkParseFailExample "F" = none ∧
    jsMapGet ([] : List (String × List String)) "F" = none ∧
    FindDependenciesJs.getDependenciesForFile FindDependenciesJs.walkParseFailExample [] 1 "F"
        ⟨[], [], []⟩ = some (⟨[], []⟩, ⟨[], [], ["F"]⟩) :=
  ⟨by decide, by decide, by decide, by decide,
    (C8_parse_failure_nonfatal FindDependenciesJs.walkParseFailExample [] 0 "F" ⟨[], [], []⟩
      (by decide) (by decide) (by decide) (by decide)).1⟩

/-! ## `lib/chunk-graph.js` -/

namespace ChunkGraphJs

/-- `set.add(x)` on a JavaScript `Set` that may contain `undefined` (modelled
as `Option String`): the candidate-parent sets of `toDependencyGraph` can
contain `undefined` when a dependency has no owning chunk. -/
def addParent (ps : List (Option String)) (x : Option String) : List (Option String) :=
  if x ∈ ps then ps else ps ++ [x]

theorem mem_addParent {ps : List (Option String)} {x y : Option String} :
    y ∈ addParent ps x ↔ y ∈ ps ∨ y = x := by
  unfold addParent
  split
  · constructor
    · exact fun h => Or.inl h
    · rintro (h | rfl)
      · exact h
      · assumption
  · simp [or_comm]

/-- The `sourceNodes` map of `toDependencyGraph` (lines 37–43): iterate the
nodes in order and map each source to the node name — the LAST node whose
`sources` contain the file wins. -/
def sourceNodesOf (g : Graph) : List (String × String) :=
  g.nodes.foldl (fun m p => p.2.sources.foldl (fun m2 s => jsMapSet m2 s p.1) m) []

/-- The candidate-parent set of one node (lines 48–64): `{entrypoint}` when
the node is not the entrypoint, plus `sourceNodes.get(dep)` for every dep
whose owning chunk is not the node itself (`undefined` — `none` — when the
dep has no owner, since `undefined !== nodeName` holds). -/
def parentsOfNode (entrypoint : String) (sourceNodes : List (String × String))
    (nodeName : String) (node : GraphNode) : List (Option String) :=
  let init : List (Option String) := if nodeName ≠ entrypoint then [some entrypoint] else []
  node.deps.foldl
    (fun ps dep =>
      let containingChunk := jsMapGet sourceNodes dep
      if containingChunk ≠ some nodeName then addParent ps containingChunk else ps)
    init

/-- The `transitiveParents` accumulation for one node (lines 71–76):
`parentNodes.get(parentNodeName).forEach(...)` — dereferencing the parents
set of `undefined` or of an unknown node throws a `TypeError`. -/
def collectTransitive (parentNodes : List (String × List (Option String))) :
    List (Option String) → List (Option String) → Except String (List (Option String))
  | [], acc => Except.ok acc
  | none :: _, _ => Except.error "TypeError: Cannot read properties of undefined"
  | some pn :: rest, acc =>
    match jsMapGet parentNodes pn with
    | none => Except.error "TypeError: Cannot read properties of undefined"
    | some gps => collectTransitive parentNodes rest (gps.foldl addParent acc)

/-- The edge-adding pass for one node (lines 77–81): add `parent → node` for
every candidate parent that is not a transitive parent.  (The `none` arm is
unreachable: `collectTransitive` has already failed on the same list if any
candidate parent is `undefined`.) -/
def addParentEdges (dg : Graph) (nodeName : String)
    (parents transitive : List (Option String)) : Graph :=
  parents.foldl
    (fun dg2 p =>
      if p ∈ transitive then dg2
      else
        match p with
        | some pn => dg2.setEdge pn nodeName
        | none => dg2)
    dg

/-- One iteration of the edge-adding loop of `toDependencyGraph`
(lines 70–82), with earlier `TypeError`s propagated. -/
def addEdgesStep (parentNodes : List (String × List (Option String)))
    (acc : Except String Graph) (nodeName : String) : Except String Graph :=
  match acc with
  | Except.error e => Except.error e
  | Except.ok dg =>
    match jsMapGet parentNodes nodeName with
    | none => Except.error "TypeError: Cannot read properties of undefined"
    | some parents =>
      match collectTransitive parentNodes parents [] with
      | Except.error e => Except.error e
      | Except.ok transitive => Except.ok (addParentEdges dg nodeName parents transitive)

/-- `ChunkGraph.toDependencyGraph()` (lines 36–85): build the source→owner
map, compute each node's candidate-parent set, copy the nodes into a fresh
graph, and add the non-transitively-redundant parent edges.  A JavaScript
`TypeError` (dereferencing an absent parents set) is modelled as
`Except.error`. -/
def toDependencyGraph (g : Graph) (entrypoint : String) : Except String Graph :=
  let sourceNodes := sourceNodesOf g
  let parentNodes : List (String × List (Option String)) :=
    g.nodes.map (fun p => (p.1, parentsOfNode entrypoint sourceNodes p.1 p.2))
  let depGraph0 := g.nodes.foldl (fun dg p => dg.setNode p.1 p.2) (Graph.mk [] [])
  depGraph0.nodeNames.foldl (addEdgesStep parentNodes) (Except.ok depGraph0)

end ChunkGraphJs

namespace ChunkGraphJs

theorem parents_fold_mem {sn : List (String × String)} {n : String} (l : List String) :
    ∀ (init : List (Option String)) (x : Option String),
      x ∈ l.foldl (fun ps dep =>
          if jsMapGet sn dep ≠ some n then addParent ps (jsMapGet sn dep) else ps) init ↔
        x ∈ init ∨ ∃ d ∈ l, jsMapGet sn d = x ∧ x ≠ some n := by
  induction l with
  | nil =>
    intro init x
    simp
  | cons a tl ih =>
    intro init x
    rw [List.foldl_cons, ih]
    by_cases hc : jsMapGet sn a ≠ some n
    · rw [if_pos hc, mem_addParent]
      constructor
      · rintro ((h | rfl) | h)
        · exact Or.inl h
        · exact Or.inr ⟨a, List.mem_cons_self _ _, rfl, hc⟩
        · obtain ⟨d, hd, h1, h2⟩ := h
          exact Or.inr ⟨d, List.mem_cons_of_mem _ hd, h1, h2⟩
      · rintro (h | ⟨d, hd, h1, h2⟩)
        · exact Or.inl (Or.inl h)
        · rcases List.mem_cons.mp hd with rfl | hd'
          · exact Or.inl (Or.inr h1.symm)
          · exact Or.inr ⟨d, hd', h1, h2⟩
    · rw [if_neg hc]
      push_neg at hc
      constructor
      · rintro (h | ⟨d, hd, h1, h2⟩)
        · exact Or.inl h
        · exact Or.inr ⟨d, List.mem_cons_of_mem _ hd, h1, h2⟩
      · rintro (h | ⟨d, hd, h1, h2⟩)
        · exact Or.inl h
        · rcases List.mem_cons.mp hd with rfl | hd'
          · exact absurd (h1.symm.trans hc) h2
          · exact Or.inr ⟨d, hd', h1, h2⟩

/-- Membership in a node's candidate-parent set: exactly the entrypoint (when
the node is not the entrypoint) together with the owners of the node's deps
that are not the node itself — `none` standing for a dep with no owner. -/
theorem mem_parentsOfNode {E : String} {sn : List (String × String)} {n : String}
    {node : GraphNode} {x : Option String} :
    x ∈ parentsOfNode E sn n node ↔
      ((x = some E ∧ n ≠ E) ∨ ∃ d ∈ node.deps, jsMapGet sn d = x ∧ x ≠ some n) := by
  unfold parentsOfNode
  rw [show (node.deps.foldl
      (fun ps dep =>
        let containingChunk := jsMapGet sn dep
        if containingChunk ≠ some n then addParent ps containingChunk else ps)
      (if n ≠ E then [some E] else [])) =
    (node.deps.foldl
      (fun ps dep =>
        if jsMapGet sn dep ≠ some n then addParent ps (jsMapGet sn dep) else ps)
      (if n ≠ E then [some E] else [])) from rfl]
  rw [parents_fold_mem]
  by_cases hne : n ≠ E
  · rw [if_pos hne]
    simp [hne]
  · rw [if_neg hne]
    simp [hne]

theorem mem_foldl_addParent (l : List (Option String)) :
    ∀ (acc : List (Option String)) (x : Option String),
      x ∈ l.foldl addParent acc ↔ x ∈ acc ∨ x ∈ l := by
  induction l with
  | nil =>
    intro acc x
    simp
  | cons a tl ih =>
    intro acc x
    rw [List.foldl_cons, ih, mem_addParent]
    constructor
    · rintro ((h | rfl) | h)
      · exact Or.inl h
      · exact Or.inr (List.mem_cons_self _ _)
      · exact Or.inr (List.mem_cons_of_mem _ h)
    · rintro (h | h)
      · exact Or.inl (Or.inl h)
      · rcases List.mem_cons.mp h with rfl | h'
        · exact Or.inl (Or.inr rfl)
        · exact Or.inr h'

theorem collectTransitive_ok_mem {P : List (String × List (Option String))} :
    ∀ (l acc t : List (Option String)),
      collectTransitive P l acc = Except.ok t →
      ∀ x, x ∈ t ↔ x ∈ acc ∨ ∃ pn gps, some pn ∈ l ∧ jsMapGet P pn = some gps ∧ x ∈ gps := by
  intro l
  induction l with
  | nil =>
    intro acc t h x
    rw [collectTransitive] at h
    injection h with h
    subst h
    simp
  | cons a tl ih =>
    intro acc t h x
    cases a with
    | none =>
      rw [collectTransitive] at h
      exact absurd h (by simp)
    | some pn =>
      rw [collectTransitive] at h
      cases hg : jsMapGet P pn with
      | none =>
        rw [hg] at h
        exact absurd h (by simp)
      | some gps =>
        rw [hg] at h
        rw [ih _ _ h x, mem_foldl_addParent]
        constructor
        · rintro ((h1 | h1) | ⟨pn', gps', h2, h3, h4⟩)
          · exact Or.inl h1
          · exact Or.inr ⟨pn, gps, List.mem_cons_self _ _, hg, h1⟩
          · exact Or.inr ⟨pn', gps', List.mem_cons_of_mem _ h2, h3, h4⟩
        · rintro (h1 | ⟨pn', gps', h2, h3, h4⟩)
          · exact Or.inl (Or.inl h1)
          · rcases List.mem_cons.mp h2 with h5 | h5
            · injection h5 with h5
              subst h5
              rw [hg] at h3
              injection h3 with h3
              subst h3
              exact Or.inl (Or.inr h4)
            · exact Or.inr ⟨pn', gps', h5, h3, h4⟩

end ChunkGraphJs

theorem hasEdge_setEdge {g : Graph} {a b v w : String} :
    (g.setEdge a b).hasEdge v w ↔ g.hasEdge v w ∨ (v = a ∧ w = b) := by
  unfold Graph.setEdge Graph.hasEdge
  split
  · rename_i hmem
    constructor
    · exact fun h => Or.inl h
    · rintro (h | ⟨rfl, rfl⟩)
      · exact h
      · exact hmem
  · simp [Prod.ext_iff]

namespace ChunkGraphJs

theorem hasEdge_addParentEdges {n v w : String} (parents : List (Option String)) :
    ∀ (dg : Graph) (transitive : List (Option String)),
      (addParentEdges dg n parents transitive).hasEdge v w ↔
        dg.hasEdge v w ∨ (w = n ∧ some v ∈ parents ∧ some v ∉ transitive) := by
  induction parents with
  | nil =>
    intro dg transitive
    simp [addParentEdges]
  | cons p tl ih =>
    intro dg transitive
    rw [show addParentEdges dg n (p :: tl) transitive =
      addParentEdges
        (if p ∈ transitive then dg
         else match p with | some pn => dg.setEdge pn n | none => dg)
        n tl transitive from by
        unfold addParentEdges
        rw [List.foldl_cons]]
    rw [ih]
    by_cases hp : p ∈ transitive
    · rw [if_pos hp]
      constructor
      · rintro (h | ⟨rfl, h2, h3⟩)
        · exact Or.inl h
        · exact Or.inr ⟨rfl, List.mem_cons_of_mem _ h2, h3⟩
      · rintro (h | ⟨rfl, h2, h3⟩)
        · exact Or.inl h
        · rcases List.mem_cons.mp h2 with h4 | h4
          · exact absurd (h4 ▸ hp) h3
          · exact Or.inr ⟨rfl, h4, h3⟩
    · rw [if_neg hp]
      cases p with
      | none =>
        constructor
        · rintro (h | ⟨rfl, h2, h3⟩)
          · exact Or.inl h
          · exact Or.inr ⟨rfl, List.mem_cons_of_mem _ h2, h3⟩
        · rintro (h | ⟨rfl, h2, h3⟩)
          · exact Or.inl h
          · rcases List.mem_cons.mp h2 with h4 | h4
            · exact absurd h4 (by simp)
            · exact Or.inr ⟨rfl, h4, h3⟩
      | some pn =>
        rw [hasEdge_setEdge]
        constructor
        · rintro ((h | ⟨rfl, rfl⟩) | ⟨rfl, h2, h3⟩)
          · exact Or.inl h
          · exact Or.inr ⟨rfl, List.mem_cons_self _ _, hp⟩
          · exact Or.inr ⟨rfl, List.mem_cons_of_mem _ h2, h3⟩
        · rintro (h | ⟨rfl, h2, h3⟩)
          · exact Or.inl (Or.inl h)
          · rcases List.mem_cons.mp h2 with h4 | h4
            · injection h4 with h4
              exact Or.inl (Or.inr ⟨h4, rfl⟩)
            · exact Or.inr ⟨rfl, h4, h3⟩

theorem foldl_addEdgesStep_error {P : List (String × List (Option String))}
    (ns : List String) (e : String) :
    ns.foldl (addEdgesStep P) (Except.error e) = Except.error e := by
  induction ns with
  | nil => rfl
  | cons a tl ih =>
    rw [List.foldl_cons]
    rw [show addEdgesStep P (Except.error e) a = Except.error e from rfl]
    exact ih

theorem foldl_addEdgesStep_ok {P : List (String × List (Option String))} :
    ∀ (ns : List String) (g0 gf : Graph),
      ns.foldl (addEdgesStep P) (Except.ok g0) = Except.ok gf →
      ((∀ n ∈ ns, ∃ parents transitive, jsMapGet P n = some parents ∧
          collectTransitive P parents [] = Except.ok transitive) ∧
        ∀ v w, gf.hasEdge v w ↔ g0.hasEdge v w ∨
          ∃ n ∈ ns, w = n ∧ ∃ parents transitive,
            jsMapGet P n = some parents ∧
            collectTransitive P parents [] = Except.ok transitive ∧
            some v ∈ parents ∧ some v ∉ transitive) := by
  intro ns
  induction ns with
  | nil =>
    intro g0 gf h
    rw [List.foldl_nil] at h
    injection h with h
    subst h
    refine ⟨fun n hn => absurd hn (List.not_mem_nil n), fun v w => ?_⟩
    simp
  | cons n tl ih =>
    intro g0 gf h
    rw [List.foldl_cons] at h
    cases hP : jsMapGet P n with
    | none =>
      rw [show addEdgesStep P (Except.ok g0) n =
          Except.error "TypeError: Cannot read properties of undefined" from by
        simp [addEdgesStep, hP]] at h
      rw [foldl_addEdgesStep_error] at h
      exact absurd h (by simp)
    | some parents =>
      cases hC : collectTransitive P parents [] with
      | error e =>
        rw [show addEdgesStep P (Except.ok g0) n = Except.error e from by
          simp [addEdgesStep, hP, hC]] at h
        rw [foldl_addEdgesStep_error] at h
        exact absurd h (by simp)
      | ok transitive =>
        rw [show addEdgesStep P (Except.ok g0) n =
            Except.ok (addParentEdges g0 n parents transitive) from by
          simp [addEdgesStep, hP, hC]] at h
        obtain ⟨hall, hedge⟩ := ih _ _ h
        constructor
        · intro m hm
          rcases List.mem_cons.mp hm with rfl | hm'
          · exact ⟨parents, transitive, hP, hC⟩
          · exact hall m hm'
        · intro v w
          rw [hedge v w, hasEdge_addParentEdges]
          constructor
          · rintro ((h1 | ⟨hw, h2, h3⟩) | ⟨m, hm, hw, pr, tr, h4, h5, h6, h7⟩)
            · exact Or.inl h1
            · exact Or.inr ⟨n, List.mem_cons_self _ _, hw, parents, transitive, hP, hC, h2, h3⟩
            · exact Or.inr ⟨m, List.mem_cons_of_mem _ hm, hw, pr, tr, h4, h5, h6, h7⟩
          · rintro (h1 | ⟨m, hm, hw, pr, tr, h4, h5, h6, h7⟩)
            · exact Or.inl (Or.inl h1)
            · rcases List.mem_cons.mp hm with h8 | hm'
              · subst h8
                rw [hP] at h4
                injection h4 with h4
                subst h4
                rw [hC] at h5
                injection h5 with h5
                subst h5
                exact Or.inl (Or.inr ⟨hw, h6, h7⟩)
              · exact Or.inr ⟨m, hm', hw, pr, tr, h4, h5, h6, h7⟩

end ChunkGraphJs

theorem jsMapGet_cons {κ α : Type} [DecidableEq κ] (a : κ × α) (tl : List (κ × α)) (k : κ) :
    jsMapGet (a :: tl) k = if a.1 = k then some a.2 else jsMapGet tl k := by
  unfold jsMapGet
  by_cases h : a.1 = k
  · rw [List.find?_cons_of_pos _ (by simpa using h), if_pos h]
    rfl
  · rw [List.find?_cons_of_neg _ (by simpa using h), if_neg h]

theorem jsMapGet_map_values {κ α β : Type} [DecidableEq κ] (f : κ → α → β) (k : κ)
    (m : List (κ × α)) :
    jsMapGet (m.map (fun p => (p.1, f p.1 p.2))) k = (jsMapGet m k).map (f k) := by
  induction m with
  | nil => rfl
  | cons a tl ih =>
    rw [List.map_cons, jsMapGet_cons, jsMapGet_cons]
    by_cases h : a.1 = k
    · simp [h]
    · simp [h, ih]

theorem foldl_setNode_fresh :
    ∀ (l acc : List (String × GraphNode)),
      (∀ k ∈ mapKeys l, k ∉ mapKeys acc) → (mapKeys l).Nodup →
      l.foldl (fun dg p => dg.setNode p.1 p.2) (Graph.mk acc []) = Graph.mk (acc ++ l) []
  | [], acc, _, _ => by simp
  | p :: tl, acc, hdisj, hnd => by
    rw [List.foldl_cons]
    have hp : p.1 ∉ mapKeys acc := hdisj p.1 (List.mem_cons_self _ _)
    have hcond : ¬(Graph.mk acc []).nodes.any (fun q => decide (q.1 = p.1)) = true := by
      intro hany
      rw [show (Graph.mk acc []).nodes = acc from rfl, List.any_eq_true] at hany
      obtain ⟨q, hq, hq2⟩ := hany
      rw [decide_eq_true_eq] at hq2
      refine hp ?_
      rw [← hq2]
      exact List.mem_map.mpr ⟨q, hq, rfl⟩
    have hsn : (Graph.mk acc []).setNode p.1 p.2 = Graph.mk (acc ++ [p]) [] := by
      unfold Graph.setNode
      rw [if_neg hcond]
    have h1 : ∀ k ∈ mapKeys tl, k ∉ mapKeys (acc ++ [p]) := by
      intro k hk hmem
      unfold mapKeys at hmem
      rw [List.map_append] at hmem
      rcases List.mem_append.mp hmem with h2 | h2
      · exact hdisj k (List.mem_cons_of_mem _ hk) h2
      · rw [List.map_cons, List.map_nil, List.mem_singleton] at h2
        refine (List.nodup_cons.mp hnd).1 ?_
        show p.1 ∈ List.map (fun x => x.1) tl
        rw [← h2]
        exact hk
    rw [hsn, foldl_setNode_fresh tl (acc ++ [p]) h1 (List.nodup_cons.mp hnd).2]
    simp

theorem jsMapGet_parentNodes (g : Graph) (E : String) (q : String) :
    jsMapGet (g.nodes.map (fun p =>
        (p.1, ChunkGraphJs.parentsOfNode E (ChunkGraphJs.sourceNodesOf g) p.1 p.2))) q =
      (jsMapGet g.nodes q).map
        (fun node => ChunkGraphJs.parentsOfNode E (ChunkGraphJs.sourceNodesOf g) q node) :=
  jsMapGet_map_values
    (fun k v => ChunkGraphJs.parentsOfNode E (ChunkGraphJs.sourceNodesOf g) k v) q g.nodes

/-- Claim C2: the dependency-graph projection.  For every node `n` of the
load-order graph (with duplicate-free node names), the candidate parent set
is `{E, when n ≠ E} ∪ {owner chunk of d, for d ∈ n.deps with owner ≠ n}`
(first conjunct), and — when `toDependencyGraph` completes without a
`TypeError` — the projected graph has an edge `p → n` exactly for the
candidate parents `p` of `n` that are not also a candidate parent of some
candidate parent of `n` (second conjunct). -/
theorem C2_toDependencyGraph_parents (g : Graph) (E : String) (dg : Graph)
    (hnd : (mapKeys g.nodes).Nodup)
    (hok : ChunkGraphJs.toDependencyGraph g E = Except.ok dg) :
    (∀ n node, jsMapGet g.nodes n = some node →
      ∀ x, x ∈ ChunkGraphJs.parentsOfNode E (ChunkGraphJs.sourceNodesOf g) n node ↔
        ((x = some E ∧ n ≠ E) ∨
          ∃ d ∈ node.deps, jsMapGet (ChunkGraphJs.sourceNodesOf g) d = x ∧ x ≠ some n)) ∧
    (∀ p n, dg.hasEdge p n ↔
      ∃ node, jsMapGet g.nodes n = some node ∧
        some p ∈ ChunkGraphJs.parentsOfNode E (ChunkGraphJs.sourceNodesOf g) n node ∧
        ¬∃ q qnode,
          some q ∈ ChunkGraphJs.parentsOfNode E (ChunkGraphJs.sourceNodesOf g) n node ∧
          jsMapGet g.nodes q = some qnode ∧
          some p ∈ ChunkGraphJs.parentsOfNode E (ChunkGraphJs.sourceNodesOf g) q qnode) := by
  constructor
  · intro n node _ x
    exact ChunkGraphJs.mem_parentsOfNode
  · simp only [ChunkGraphJs.toDependencyGraph] at hok
    have hdg0 : g.nodes.foldl (fun dg p => dg.setNode p.1 p.2) (Graph.mk [] []) =
        Graph.mk g.nodes [] := by
      rw [foldl_setNode_fresh g.nodes []
        (fun k _ hk => absurd hk (List.not_mem_nil k)) hnd]
      simp
    rw [hdg0] at hok
    obtain ⟨hall, hedge⟩ := ChunkGraphJs.foldl_addEdgesStep_ok _ _ _ hok
    intro p n
    rw [hedge p n]
    constructor
    · rintro (h1 | ⟨m, hm, hw, parents, transitive, h4, h5, h6, h7⟩)
      · exact absurd h1 (by simp [Graph.hasEdge])
      · subst hw
        rw [jsMapGet_parentNodes] at h4
        rw [Option.map_eq_some'] at h4
        obtain ⟨node, hnode, hpar⟩ := h4
        have hpar' : ChunkGraphJs.parentsOfNode E (ChunkGraphJs.sourceNodesOf g) n node
            = parents := hpar
        refine ⟨node, hnode, ?_, ?_⟩
        · rw [hpar']
          exact h6
        · rintro ⟨q, qnode, hq1, hq2, hq3⟩
          refine h7 ?_
          refine (ChunkGraphJs.collectTransitive_ok_mem parents [] transitive h5 (some p)).mpr
            (Or.inr ⟨q, ChunkGraphJs.parentsOfNode E (ChunkGraphJs.sourceNodesOf g) q qnode,
              ?_, ?_, hq3⟩)
          · rw [← hpar']
            exact hq1
          · rw [jsMapGet_parentNodes, hq2]
            rfl
    · rintro ⟨node, hnode, h6, h7⟩
      have hmemn : n ∈ (Graph.mk g.nodes [] : Graph).nodeNames :=
        List.mem_map.mpr ⟨(n, node), mem_of_jsMapGet_eq_some hnode, rfl⟩
      obtain ⟨parents, transitive, hP, hC⟩ := hall n hmemn
      have hP' : parents = ChunkGraphJs.parentsOfNode E (ChunkGraphJs.sourceNodesOf g) n node := by
        rw [jsMapGet_parentNodes, hnode] at hP
        injection hP with hP
        exact hP.symm
      subst hP'
      refine Or.inr ⟨n, hmemn, rfl,
        ChunkGraphJs.parentsOfNode E (ChunkGraphJs.sourceNodesOf g) n node, transitive,
        ?_, hC, h6, ?_⟩
      · rw [jsMapGet_parentNodes, hnode]
        rfl
      · intro hmem
        rcases (ChunkGraphJs.collectTransitive_ok_mem _ [] transitive hC (some p)).mp hmem with
          h8 | ⟨pn, gps, hpn, hgps, hpg⟩
        · exact absurd h8 (List.not_mem_nil _)
        · rw [jsMapGet_parentNodes, Option.map_eq_some'] at hgps
          obtain ⟨qnode, hq2', hq3'⟩ := hgps
          have hq3'' : ChunkGraphJs.parentsOfNode E (ChunkGraphJs.sourceNodesOf g) pn qnode
              = gps := hq3'
          refine h7 ⟨pn, qnode, hpn, hq2', ?_⟩
          rw [hq3'']
          exact hpg

/-- A three-chunk load-order graph: `A` depends on sources owned by both `B`
and the entrypoint `E`; since `E` is a (candidate) parent of `B` too, the
projection keeps only `E → B` and `B → A`. -/
def depGraphExample : Graph :=
  ⟨[("E", ⟨"E", ["e.js"], ["e.js"], []⟩),
    ("B", ⟨"B", ["b.js"], ["b.js"], []⟩),
    ("A", ⟨"A", ["a.js"], ["a.js", "b.js"], []⟩)],
   [("E", "A"), ("E", "B")]⟩

/-- Claim C2 witness: the projection theorem applied to the three-chunk
example, whose dependency graph keeps exactly the edges `E → B` and
`B → A` (dropping the transitively redundant `E → A`). -/
theorem C2_toDependencyGraph_witness :
    (mapKeys depGraphExample.nodes).Nodup ∧
    ChunkGraphJs.toDependencyGraph depGraphExample "E" =
      Except.ok
        ⟨[("E", ⟨"E", ["e.js"], ["e.js"], []⟩),
          ("B", ⟨"B", ["b.js"], ["b.js"], []⟩),
          ("A", ⟨"A", ["a.js"], ["a.js", "b.js"], []⟩)],
         [("E", "B"), ("B", "A")]⟩ ∧
    ((∀ n node, jsMapGet depGraphExample.nodes n = some node →
      ∀ x, x ∈ ChunkGraphJs.parentsOfNode "E" (ChunkGraphJs.sourceNodesOf depGraphExample) n node ↔
        ((x = some "E" ∧ n ≠ "E") ∨
          ∃ d ∈ node.deps,
            jsMapGet (ChunkGraphJs.sourceNodesOf depGraphExample) d = x ∧ x ≠ some n)) ∧
    (∀ p n,
      (⟨[("E", ⟨"E", ["e.js"], ["e.js"], []⟩),
         ("B", ⟨"B", ["b.js"], ["b.js"], []⟩),
         ("A", ⟨"A", ["a.js"], ["a.js", "b.js"], []⟩)],
        [("E", "B"), ("B", "A")]⟩ : Graph).hasEdge p n ↔
      ∃ node, jsMapGet depGraphExample.nodes n = some node ∧
        some p ∈ ChunkGraphJs.parentsOfNode "E"
          (ChunkGraphJs.sourceNodesOf depGraphExample) n node ∧
        ¬∃ q qnode,
          some q ∈ ChunkGraphJs.parentsOfNode "E"
            (ChunkGraphJs.sourceNodesOf depGraphExample) n node ∧
          jsMapGet depGraphExample.nodes q = some qnode ∧
          some p ∈ ChunkGraphJs.parentsOfNode "E"
            (ChunkGraphJs.sourceNodesOf depGraphExample) q qnode)) :=
  ⟨by decide, rfl,
    C2_toDependencyGraph_parents depGraphExample "E"
      ⟨[("E", ⟨"E", ["e.js"], ["e.js"], []⟩),
        ("B", ⟨"B", ["b.js"], ["b.js"], []⟩),
        ("A", ⟨"A", ["a.js"], ["a.js", "b.js"], []⟩)],
       [("E", "B"), ("B", "A")]⟩
      (by decide) rfl⟩

namespace ChunkGraphJs

/-- The inner `for` scan of the emission loop (lines 115–139): find the first
pending chunk all of whose parents have been visited, returning the pending
entries before it, the chunk, and the entries after it. -/
def findEligible (dgraph : Graph) (visited : List String) :
    List String → Option (List String × String × List String)
  | [] => none
  | c :: rest =>
    let parents := dgraph.parentsOf c
    if (parents.filter (· ∈ visited)).length = parents.length then
      some ([], c, rest)
    else
      match findEligible dgraph visited rest with
      | none => none
      | some (before, c', after) => some (c :: before, c', after)

/-- The `while (sortedChunks.length > 0)` emission loop of
`getClosureCompilerFlags` (lines 113–143): pick the first chunk whose parents
are all visited, record a missing-entrypoint error when the chunk's name is
not among its own sources, emit its chunk definition and sources, and remove
it from the pending list; throw `Unable to sort chunks` when no chunk is
eligible, and `Invalid chunk definitions` at the end when any error was
recorded.  The loop is bounded by `fuel` (one pending chunk is removed per
iteration, so `sortedChunks.length` suffices); `path.relative` is the oracle
`relative`. -/
def emitLoop (dgraph : Graph) (relative : String → String) :
    Nat → List String → List String → List String → List String → List String →
      Except String (List String × List String)
  | fuel, sortedChunks, visited, chunks, sources, errors =>
    match sortedChunks with
    | [] =>
      if errors = [] then Except.ok (chunks, sources)
      else Except.error ("Invalid chunk definitions:\n" ++ String.intercalate "\n" errors)
    | _ :: _ =>
      match findEligible dgraph visited sortedChunks with
      | none => Except.error "Unable to sort chunks"
      | some (before, chunkName, after) =>
        match dgraph.node? chunkName with
        | none => Except.error "TypeError: Cannot read properties of undefined"
        | some chunk =>
          match fuel with
          | 0 => Except.error "fuel exhausted"
          | fuel + 1 =>
            let parents := (dgraph.parentsOf chunkName).map relative
            let errors2 :=
              if chunkName ∈ chunk.sources then errors
              else errors ++
                ["Chunk entrypoint " ++ relative chunkName ++
                  " not found in chunk sources. Ensure that all imports of " ++
                  relative chunkName ++ " are dynamic."]
            let chunkParents :=
              if parents.isEmpty then "" else ":" ++ String.intercalate "," parents
            emitLoop dgraph relative fuel (before ++ after) (jsSetAdd visited chunkName)
              (chunks ++
                [relative chunkName ++ ":" ++ toString chunk.sources.length ++ chunkParents])
              (sources ++ chunk.sources) errors2

/-- `ChunkGraph.getClosureCompilerFlags()` (lines 87–152): project the
dependency graph, throw on a cycle (`graphlib.alg.findCycles` is the oracle
`findCycles`, its JSON rendering the oracle `cyclesRepr`), topologically sort
(`graphlib.alg.topsort` is the oracle `topsort`; the `else` arm of the
`cycles.length === 0` test is unreachable after the throw), and run the
emission loop. -/
def getClosureCompilerFlags (g : Graph) (entrypoint : String)
    (findCycles : Graph → List (List String)) (cyclesRepr : List (List String) → String)
    (topsort : Graph → String → List String) (relative : String → String) :
    Except String (List String × List String) :=
  match toDependencyGraph g entrypoint with
  | Except.error e => Except.error e
  | Except.ok closureGraph =>
    let cycles := findCycles closureGraph
    if cycles.length > 0 then
      Except.error ("Circular references found in chunk graph. \n" ++ cyclesRepr cycles)
    else
      let sortedChunks := topsort closureGraph entrypoint
      emitLoop closureGraph relative sortedChunks.length sortedChunks [] [] [] []

end ChunkGraphJs

/-- The observable outcome of the CLI's flag-printing branch. -/
structure CliOutcome where
  stdoutData : List String
  stderrData : List String
  exitCode : Nat
  deriving Repr, DecidableEq

/-- The CLI output handler (`try { process.stdout.write(JSON.stringify(
chunkGraph.getClosureCompilerFlags(...))) } catch (e) { process.stderr.write(
…); process.exitCode = 1; }`): on success the stringified flags go to stdout
with exit code 0; on a thrown error nothing is written to stdout, the message
goes to stderr and the exit code is set to 1.  `JSON.stringify` is the oracle
`stringify`. -/
def cliEmit (stringify : List String × List String → String)
    (flagsResult : Except String (List String × List String)) : CliOutcome :=
  match flagsResult with
  | Except.ok flags => ⟨[stringify flags ++ "\n"], [], 0⟩
  | Except.error msg => ⟨[], ["Error: " ++ msg ++ "\n"], 1⟩

/-- A one-chunk graph whose entry file `E` is not among the chunk's own
sources (its dependency graph is itself: one node, no edges). -/
def missingEntryExample : Graph := ⟨[("E", ⟨"E", ["a.js"], ["a.js"], []⟩)], []⟩

/-- Claim C3 counterexample: with the chunk's name missing from its sources,
`getClosureCompilerFlags` THROWS `Invalid chunk definitions` — the chunk and
source lists that were built are discarded, not returned — and the CLI
handler prints nothing to stdout, writing the error to stderr with exit code
1.  This refutes the "still produces the chunk/source output lists" part of
the claim. -/
theorem C3_emitter_discards_output_counterexample :
    ChunkGraphJs.getClosureCompilerFlags missingEntryExample "E"
      (fun _ => []) (fun _ => "") (fun dgr _ => dgr.nodeNames) (fun s => s) =
      Except.error
        "Invalid chunk definitions:\nChunk entrypoint E not found in chunk sources. Ensure that all imports of E are dynamic." ∧
    cliEmit (fun _ => "")
      (ChunkGraphJs.getClosureCompilerFlags missingEntryExample "E"
        (fun _ => []) (fun _ => "") (fun dgr _ => dgr.nodeNames) (fun s => s)) =
      ⟨[],
       ["Error: Invalid chunk definitions:\nChunk entrypoint E not found in chunk sources. Ensure that all imports of E are dynamic.\n"],
       1⟩ :=
  ⟨rfl, rfl⟩

/-- Claim C3 (amended): when an eligible chunk's name is not among its own
sources, the emission loop records the missing-entrypoint diagnostic and
CONTINUES with the remaining chunks (first conjunct: one loop step with the
error appended); but any run that returns the output lists had recorded no
diagnostics at all — with a non-empty error list the loop always throws
`Invalid chunk definitions` instead of returning the lists (second
conjunct); the CLI catches the thrown error, writes it to stderr and
terminates with exit code 1, writing nothing to stdout (third conjunct). -/
theorem C3_missing_entrypoint_error_amended :
    (∀ (dgraph : Graph) (relative : String → String) (fuel : Nat)
        (s visited chunks sources errors before after : List String)
        (c : String) (chunk : GraphNode),
      ChunkGraphJs.findEligible dgraph visited s = some (before, c, after) →
      dgraph.node? c = some chunk →
      c ∉ chunk.sources →
      ChunkGraphJs.emitLoop dgraph relative (fuel + 1) s visited chunks sources errors =
        ChunkGraphJs.emitLoop dgraph relative fuel (before ++ after) (jsSetAdd visited c)
          (chunks ++ [relative c ++ ":" ++ toString chunk.sources.length ++
            (if ((dgraph.parentsOf c).map relative).isEmpty then ""
             else ":" ++ String.intercalate "," ((dgraph.parentsOf c).map relative))])
          (sources ++ chunk.sources)
          (errors ++ ["Chunk entrypoint " ++ relative c ++
            " not found in chunk sources. Ensure that all imports of " ++
            relative c ++ " are dynamic."])) ∧
    (∀ (dgraph : Graph) (relative : String → String) (fuel : Nat)
        (s visited chunks sources errors : List String) (r : List String × List String),
      ChunkGraphJs.emitLoop dgraph relative fuel s visited chunks sources errors =
        Except.ok r → errors = []) ∧
    (∀ (stringify : List String × List String → String) (msg : String),
      cliEmit stringify (Except.error msg) = ⟨[], ["Error: " ++ msg ++ "\n"], 1⟩) := by
  refine ⟨?_, ?_, ?_⟩
  · intro dgraph relative fuel s visited chunks sources errors before after c chunk
      helig hnode hnotin
    cases s with
    | nil =>
      rw [ChunkGraphJs.findEligible] at helig
      exact absurd helig (by simp)
    | cons c0 rest0 =>
      rw [ChunkGraphJs.emitLoop]
      simp only [helig, hnode]
      rw [if_neg hnotin]
  · intro dgraph relative fuel
    induction fuel with
    | zero =>
      intro s visited chunks sources errors r h
      cases s with
      | nil =>
        simp only [ChunkGraphJs.emitLoop] at h
        by_cases he : errors = []
        · exact he
        · rw [if_neg he] at h
          exact absurd h (by simp)
      | cons c0 rest0 =>
        simp only [ChunkGraphJs.emitLoop] at h
        cases helig : ChunkGraphJs.findEligible dgraph visited (c0 :: rest0) with
        | none =>
          rw [helig] at h
          exact absurd h (by simp)
        | some trip =>
          obtain ⟨before, c, after⟩ := trip
          rw [helig] at h
          cases hn : dgraph.node? c with
          | none =>
            simp only [hn] at h
            exact absurd h (by simp)
          | some chunk =>
            simp only [hn] at h
            exact absurd h (by simp)
    | succ n ih =>
      intro s visited chunks sources errors r h
      cases s with
      | nil =>
        simp only [ChunkGraphJs.emitLoop] at h
        by_cases he : errors = []
        · exact he
        · rw [if_neg he] at h
          exact absurd h (by simp)
      | cons c0 rest0 =>
        simp only [ChunkGraphJs.emitLoop] at h
        cases helig : ChunkGraphJs.findEligible dgraph visited (c0 :: rest0) with
        | none =>
          rw [helig] at h
          exact absurd h (by simp)
        | some trip =>
          obtain ⟨before, c, after⟩ := trip
          rw [helig] at h
          cases hn : dgraph.node? c with
          | none =>
            simp only [hn] at h
            exact absurd h (by simp)
          | some chunk =>
            simp only [hn] at h
            by_cases hin : c ∈ chunk.sources
            · rw [if_pos hin] at h
              exact ih _ _ _ _ _ _ h
            · rw [if_neg hin] at h
              have h2 := ih _ _ _ _ _ _ h
              exact absurd h2 (by simp)
  · intro stringify msg
    rfl

/-- Claim C3 witness: the amended theorem applied to (i) the one-chunk graph
with a missing entrypoint — one loop step appends the diagnostic and
continues; (ii) a successful one-chunk run — the returned lists imply an
empty error list; (iii) a concrete thrown message in the CLI handler. -/
theorem C3_missing_entrypoint_witness :
    (ChunkGraphJs.findEligible missingEntryExample [] ["E"] = some ([], "E", []) ∧
      missingEntryExample.node? "E" = some ⟨"E", ["a.js"], ["a.js"], []⟩ ∧
      "E" ∉ (["a.js"] : List String) ∧
      ChunkGraphJs.emitLoop missingEntryExample (fun s => s) 1 ["E"] [] [] [] [] =
        ChunkGraphJs.emitLoop missingEntryExample (fun s => s) 0 [] ["E"] ["E:1"] ["a.js"]
          ["Chunk entrypoint E not found in chunk sources. Ensure that all imports of E are dynamic."]) ∧
    (ChunkGraphJs.emitLoop (⟨[("E", ⟨"E", ["E"], ["E"], []⟩)], []⟩ : Graph) (fun s => s)
        1 ["E"] [] [] [] [] = Except.ok (["E:1"], ["E"]) ∧
      ([] : List String) = []) ∧
    cliEmit (fun _ => "") (Except.error "boom") = ⟨[], ["Error: boom\n"], 1⟩ :=
  ⟨⟨by decide, by decide, by decide,
    C3_missing_entrypoint_error_amended.1 missingEntryExample (fun s => s) 0
      ["E"] [] [] [] [] [] [] "E" ⟨"E", ["a.js"], ["a.js"], []⟩
      (by decide) (by decide) (by decide)⟩,
   ⟨rfl,
    C3_missing_entrypoint_error_amended.2.1 (⟨[("E", ⟨"E", ["E"], ["E"], []⟩)], []⟩ : Graph)
      (fun s => s) 1 ["E"] [] [] [] [] (["E:1"], ["E"]) rfl⟩,
   C3_missing_entrypoint_error_amended.2.2 (fun _ => "") "boom"⟩

/-! ## `lib/common-ancestors.js` and `lib/lowest-common-ancestor.js` -/

namespace CommonAncestorsJs

/-- The `for` loop of `pathsToEntrypoint` (lines 24–30): for each in-edge
parent that is not already on the current path, recurse (the recursive call
is the function argument `rec`) and append the parent's paths, each prefixed
with the starting node. -/
def pathsLoop (rec : String → List (String × List (List String)) →
      Option (List (List String) × List (String × List (List String))))
    (startingNode : String) (thisPath : List String) :
    List String → List (List String) → List (String × List (List String)) →
      Option (List (List String) × List (String × List (List String)))
  | [], acc, cache => some (acc, cache)
  | p :: rest, acc, cache =>
    if p ∈ thisPath then
      pathsLoop rec startingNode thisPath rest acc cache
    else
      match rec p cache with
      | none => none
      | some (parentPaths, cache2) =>
        pathsLoop rec startingNode thisPath rest
          (acc ++ parentPaths.map (fun parentPath => startingNode :: parentPath)) cache2

/-- `pathsToEntrypoint(startingNode, graph, cache, currentPath)`
(lines 13–31): enumerate every in-edge-climbing path from the starting node,
memoized in `cache`.  The JavaScript inserts the (still empty, aliased)
result array into the cache before the loop; since any re-entrant call to a
node whose computation is in progress is blocked by the
`thisPath.includes(parentNode)` guard (the in-progress nodes are exactly the
nodes of `thisPath`), an incomplete entry is never read, so the cache write
is modelled after the computation completes.  The recursion is bounded by
`fuel`. -/
def pathsToEntrypoint (g : Graph) :
    Nat → String → List (String × List (List String)) → List String →
      Option (List (List String) × List (String × List (List String)))
  | 0, _, _, _ => none
  | fuel + 1, startingNode, cache, currentPath =>
    match jsMapGet cache startingNode with
    | some entrypointPaths => some (entrypointPaths, cache)
    | none =>
      let parentNodes := g.parentsOf startingNode
      let thisPath := currentPath ++ [startingNode]
      let init : List (List String) := if parentNodes.isEmpty then [[startingNode]] else []
      match pathsLoop (fun p c => pathsToEntrypoint g fuel p c thisPath)
          startingNode thisPath parentNodes init cache with
      | none => none
      | some (entrypointPaths, cache2) =>
        some (entrypointPaths, jsMapSet cache2 startingNode entrypointPaths)

/-- The `for (let i = 0; i < sourceNodes.length; i++)` loop of
`commonAncestors` (lines 57–76): accumulate every enumerated path, and
intersect `commonNodes` (initialised from the first path of the first source,
`undefined` — `none` — before that) with each further path. -/
def commonAncestorsLoop (g : Graph) (fuel : Nat) :
    List String → Option (List String) → List (List String) →
      List (String × List (List String)) →
      Option (Option (List String) × List (List String))
  | [], commonNodes, entrypointPaths, _ => some (commonNodes, entrypointPaths)
  | s :: rest, commonNodes, entrypointPaths, cache =>
    match pathsToEntrypoint g fuel s cache [] with
    | none => none
    | some (entrypointPathsForNode, cache2) =>
      let startState : List String × List (List String) :=
        match commonNodes with
        | none =>
          (jsSetOfList ((entrypointPathsForNode.head?).getD []), entrypointPathsForNode.drop 1)
        | some cn => (cn, entrypointPathsForNode)
      let commonNodes2 := startState.2.foldl
        (fun cn path => cn.filter (fun validNode => decide (validNode ∈ path))) startState.1
      commonAncestorsLoop g fuel rest (some commonNodes2)
        (entrypointPaths ++ entrypointPathsForNode) cache2

/-- `commonAncestors(entrypoint, sourceNodes, graph)` (lines 46–82).  The
`entrypoint` argument is unused by the computation: the enumerated paths
terminate at ANY parentless node. -/
def commonAncestors (g : Graph) (fuel : Nat) (sourceNodes : List String) :
    Option (Option (List String) × List (List String)) :=
  commonAncestorsLoop g fuel sourceNodes none [] []

/-- The sort comparator of `lowestCommonAncestor` (lines 18–24): descending
by the supplied distance, ties broken by `localeCompare`; `a` sorts no later
than `b` exactly when the comparator is ≤ 0. -/
def lcaComparatorLe (dist : String → Int) (a b : String) : Bool :=
  if dist a = dist b then decide (a ≤ b) else decide (dist b ≤ dist a)

/-- `lowestCommonAncestor(entrypoint, sourceNodes, graph,
nodeDistanceFromEntrypoint)` (lines 13–26): sort the common nodes with the
distance comparator and return the first element (`undefined` — inner `none`
— when there are no common nodes; the outer `none` models fuel exhaustion
and the `Array.from(undefined)` TypeError of an empty source list). -/
def lowestCommonAncestor (g : Graph) (fuel : Nat) (sourceNodes : List String)
    (dist : String → Int) : Option (Option String) :=
  match commonAncestors g fuel sourceNodes with
  | none => none
  | some (none, _) => none
  | some (some commonNodes, _) =>
    some ((NormalizeGraphJs.sortWithComparator (lcaComparatorLe dist) commonNodes).head?)

/-- A maximal in-edge-climbing path: starts anywhere, each step moves to an
in-edge parent, and ends at a parentless node.  This is what
`pathsToEntrypoint` actually enumerates. -/
def isClimbingPath (g : Graph) : List String → Bool
  | [] => false
  | [v] => (g.parentsOf v).isEmpty
  | v :: w :: rest => decide (w ∈ g.parentsOf v) && isClimbingPath g (w :: rest)

/-- The specification of one node's enumerated path list: exactly the maximal
climbing paths starting at the node. -/
def PathsChar (g : Graph) (u : String) (ps : List (List String)) : Prop :=
  (∀ path ∈ ps, isClimbingPath g path = true ∧ path.head? = some u) ∧
  (∀ path, isClimbingPath g path = true → path.head? = some u → path ∈ ps)

/-- Every complete cache entry lists exactly the maximal climbing paths of
its node. -/
def CacheGood (g : Graph) (cache : List (String × List (List String))) : Prop :=
  ∀ u ps, jsMapGet cache u = some ps → PathsChar g u ps

end CommonAncestorsJs

theorem pairwise_insertSortedBy {le : String → String → Bool}
    (htot : ∀ a b, le a b = true ∨ le b a = true)
    (htrans : ∀ a b c, le a b = true → le b c = true → le a c = true) (x : String) :
    ∀ {l : List String}, List.Pairwise (fun a b => le a b = true) l →
      List.Pairwise (fun a b => le a b = true) (NormalizeGraphJs.insertSortedBy le x l)
  | [], _ => by simp [NormalizeGraphJs.insertSortedBy]
  | y :: rest, h => by
    rw [List.pairwise_cons] at h
    obtain ⟨hy, hrest⟩ := h
    unfold NormalizeGraphJs.insertSortedBy
    by_cases hxy : le x y = true
    · rw [if_pos hxy]
      rw [List.pairwise_cons]
      refine ⟨?_, List.pairwise_cons.mpr ⟨hy, hrest⟩⟩
      intro b hb
      rcases List.mem_cons.mp hb with rfl | hb'
      · exact hxy
      · exact htrans x y b hxy (hy b hb')
    · rw [if_neg hxy]
      rw [List.pairwise_cons]
      constructor
      · intro b hb
        rcases NormalizeGraphJs.mem_insertSortedBy.mp hb with h3 | hb'
        · rw [h3]
          rcases htot x y with h2 | h2
          · exact absurd h2 hxy
          · exact h2
        · exact hy b hb'
      · exact pairwise_insertSortedBy htot htrans x hrest

theorem pairwise_sortWithComparator {le : String → String → Bool}
    (htot : ∀ a b, le a b = true ∨ le b a = true)
    (htrans : ∀ a b c, le a b = true → le b c = true → le a c = true) :
    ∀ (l : List String),
      List.Pairwise (fun a b => le a b = true) (NormalizeGraphJs.sortWithComparator le l)
  | [] => by simp [NormalizeGraphJs.sortWithComparator]
  | z :: rest => by
    show List.Pairwise _
      (NormalizeGraphJs.insertSortedBy le z (NormalizeGraphJs.sortWithComparator le rest))
    exact pairwise_insertSortedBy htot htrans z (pairwise_sortWithComparator htot htrans rest)

theorem head_sortWithComparator_min {le : String → String → Bool}
    (htot : ∀ a b, le a b = true ∨ le b a = true)
    (htrans : ∀ a b c, le a b = true → le b c = true → le a c = true)
    {l : List String} {x : String}
    (h : (NormalizeGraphJs.sortWithComparator le l).head? = some x) :
    x ∈ l ∧ ∀ y ∈ l, le x y = true := by
  cases hs : NormalizeGraphJs.sortWithComparator le l with
  | nil =>
    rw [hs] at h
    exact absurd h (by simp)
  | cons a rest =>
    rw [hs] at h
    rw [List.head?_cons, Option.some_inj] at h
    subst h
    have hsorted := pairwise_sortWithComparator htot htrans l
    rw [hs, List.pairwise_cons] at hsorted
    constructor
    · exact NormalizeGraphJs.mem_sortWithComparator.mp (hs ▸ List.mem_cons_self a rest)
    · intro y hy
      have hy2 : y ∈ a :: rest := hs ▸ NormalizeGraphJs.mem_sortWithComparator.mpr hy
      rcases List.mem_cons.mp hy2 with h3 | hy3
      · subst h3
        rcases htot y y with h2 | h2 <;> exact h2
      · exact hsorted.1 y hy3

namespace CommonAncestorsJs

theorem lcaComparatorLe_total (dist : String → Int) :
    ∀ a b, lcaComparatorLe dist a b = true ∨ lcaComparatorLe dist b a = true := by
  intro a b
  unfold lcaComparatorLe
  by_cases h : dist a = dist b
  · rw [if_pos h, if_pos h.symm]
    rcases le_total a b with h2 | h2
    · exact Or.inl (decide_eq_true h2)
    · exact Or.inr (decide_eq_true h2)
  · rw [if_neg h, if_neg (fun hh => h hh.symm)]
    rcases le_total (dist a) (dist b) with h2 | h2
    · exact Or.inr (decide_eq_true h2)
    · exact Or.inl (decide_eq_true h2)

theorem lcaComparatorLe_trans (dist : String → Int) :
    ∀ a b c, lcaComparatorLe dist a b = true → lcaComparatorLe dist b c = true →
      lcaComparatorLe dist a c = true := by
  intro a b c h1 h2
  unfold lcaComparatorLe at h1 h2 ⊢
  by_cases hab : dist a = dist b <;> by_cases hbc : dist b = dist c
  · have hac : dist a = dist c := hab.trans hbc
    rw [if_pos hab] at h1
    rw [if_pos hbc] at h2
    rw [if_pos hac]
    exact decide_eq_true (le_trans (of_decide_eq_true h1) (of_decide_eq_true h2))
  · have hac : ¬dist a = dist c := fun h => hbc (hab.symm.trans h)
    rw [if_neg hbc] at h2
    rw [if_neg hac]
    refine decide_eq_true ?_
    rw [hab]
    exact of_decide_eq_true h2
  · have hac : ¬dist a = dist c := fun h => hab (h.trans hbc.symm)
    rw [if_neg hab] at h1
    rw [if_neg hac]
    refine decide_eq_true ?_
    rw [← hbc]
    exact of_decide_eq_true h1
  · rw [if_neg hab] at h1
    rw [if_neg hbc] at h2
    by_cases hac : dist a = dist c
    · exfalso
      have hba : dist b ≤ dist a := of_decide_eq_true h1
      have hcb : dist c ≤ dist b := of_decide_eq_true h2
      refine hbc (le_antisymm ?_ hcb)
      rw [hac] at hba
      exact hba
    · rw [if_neg hac]
      exact decide_eq_true (le_trans (of_decide_eq_true h2) (of_decide_eq_true h1))

theorem mem_foldl_filter (l : List (List String)) :
    ∀ (init : List String) (x : String),
      x ∈ l.foldl (fun cn path => cn.filter (fun validNode => decide (validNode ∈ path))) init ↔
        x ∈ init ∧ ∀ path ∈ l, x ∈ path := by
  induction l with
  | nil =>
    intro init x
    simp
  | cons a tl ih =>
    intro init x
    rw [List.foldl_cons, ih, List.mem_filter]
    constructor
    · rintro ⟨⟨h1, h2⟩, h3⟩
      rw [decide_eq_true_eq] at h2
      refine ⟨h1, ?_⟩
      intro path hp
      rcases List.mem_cons.mp hp with rfl | hp'
      · exact h2
      · exact h3 path hp'
    · rintro ⟨h1, h2⟩
      refine ⟨⟨h1, ?_⟩, ?_⟩
      · exact decide_eq_true (h2 a (List.mem_cons_self _ _))
      · intro path hp
        exact h2 path (List.mem_cons_of_mem _ hp)

theorem exists_climbing_path (g : Graph) (rank : String → Nat)
    (hrank : ∀ v p, p ∈ g.parentsOf v → rank p < rank v) :
    ∀ (n : Nat) (u : String), rank u < n →
      ∃ path, isClimbingPath g path = true ∧ path.head? = some u := by
  intro n
  induction n with
  | zero =>
    intro u hu
    omega
  | succ m ih =>
    intro u hu
    cases hp : g.parentsOf u with
    | nil =>
      refine ⟨[u], ?_, rfl⟩
      show (g.parentsOf u).isEmpty = true
      rw [hp]
      rfl
    | cons p rest =>
      have hpp : p ∈ g.parentsOf u := by
        rw [hp]
        exact List.mem_cons_self _ _
      obtain ⟨path, hc, hh⟩ := ih p (by have := hrank u p hpp; omega)
      cases path with
      | nil => exact absurd hh (by simp)
      | cons p0 tail =>
        rw [List.head?_cons, Option.some_inj] at hh
        subst hh
        refine ⟨u :: p0 :: tail, ?_, rfl⟩
        show (decide (p0 ∈ g.parentsOf u) && isClimbingPath g (p0 :: tail)) = true
        rw [Bool.and_eq_true]
        exact ⟨decide_eq_true hpp, hc⟩

end CommonAncestorsJs

namespace CommonAncestorsJs

/-- The loop invariant of `pathsToEntrypoint`'s parent loop: given a correct
recursive enumerator and no parent on the current path, the loop succeeds and
appends exactly the climbing paths through the listed parents, prefixed with
the starting node. -/
theorem pathsLoop_correct (g : Graph) (u : String) (thisPath : List String)
    (rec : String → List (String × List (List String)) →
      Option (List (List String) × List (String × List (List String))))
    (hrec : ∀ p cache, p ∈ g.parentsOf u → CacheGood g cache →
      ∃ ps c2, rec p cache = some (ps, c2) ∧ PathsChar g p ps ∧ CacheGood g c2) :
    ∀ (l : List String) (acc : List (List String)) (cache : List (String × List (List String))),
      (∀ p ∈ l, p ∈ g.parentsOf u) →
      (∀ p ∈ l, p ∉ thisPath) →
      CacheGood g cache →
      ∃ res cache2, pathsLoop rec u thisPath l acc cache = some (res, cache2) ∧
        CacheGood g cache2 ∧
        (∀ path, path ∈ res ↔ path ∈ acc ∨
          ∃ p ∈ l, ∃ pp, isClimbingPath g pp = true ∧ pp.head? = some p ∧ path = u :: pp) := by
  intro l
  induction l with
  | nil =>
    intro acc cache _ _ hcg
    refine ⟨acc, cache, ?_, hcg, ?_⟩
    · rw [pathsLoop]
    · intro path
      simp
  | cons p rest ih =>
    intro acc cache hpar hnp hcg
    have hp_not : p ∉ thisPath := hnp p (List.mem_cons_self _ _)
    have hp_par : p ∈ g.parentsOf u := hpar p (List.mem_cons_self _ _)
    obtain ⟨ps, c2, hrec_eq, hchar, hcg2⟩ := hrec p cache hp_par hcg
    obtain ⟨res, cache3, hloop, hcg3, hmem⟩ := ih
      (acc ++ ps.map (fun parentPath => u :: parentPath)) c2
      (fun q hq => hpar q (List.mem_cons_of_mem _ hq))
      (fun q hq => hnp q (List.mem_cons_of_mem _ hq)) hcg2
    refine ⟨res, cache3, ?_, hcg3, ?_⟩
    · rw [pathsLoop, if_neg hp_not]
      simp only [hrec_eq]
      exact hloop
    · intro path
      rw [hmem path, List.mem_append]
      constructor
      · rintro ((h1 | h1) | ⟨q, hq, pp, h2, h3, h4⟩)
        · exact Or.inl h1
        · rw [List.mem_map] at h1
          obtain ⟨pp, hpp, hpath⟩ := h1
          obtain ⟨hc, hh⟩ := hchar.1 pp hpp
          exact Or.inr ⟨p, List.mem_cons_self _ _, pp, hc, hh, hpath.symm⟩
        · exact Or.inr ⟨q, List.mem_cons_of_mem _ hq, pp, h2, h3, h4⟩
      · rintro (h1 | ⟨q, hq, pp, h2, h3, h4⟩)
        · exact Or.inl (Or.inl h1)
        · rcases List.mem_cons.mp hq with h5 | h5
          · subst h5
            refine Or.inl (Or.inr ?_)
            rw [List.mem_map]
            exact ⟨pp, hchar.2 pp h2 h3, h4.symm⟩
          · exact Or.inr ⟨q, h5, pp, h2, h3, h4⟩

/-- Correctness of the memoized path enumeration on an acyclic graph (the
rank strictly decreases along in-edges): with enough fuel and a correct
cache, `pathsToEntrypoint` succeeds, returns exactly the maximal climbing
paths from the node, and keeps the cache correct. -/
theorem pathsToEntrypoint_correct (g : Graph) (rank : String → Nat)
    (hrank : ∀ v p, p ∈ g.parentsOf v → rank p < rank v) :
    ∀ (fuel : Nat) (u : String) (cache : List (String × List (List String)))
        (currentPath : List String),
      rank u < fuel → CacheGood g cache →
      (∀ x ∈ currentPath, rank u < rank x) →
      ∃ ps cache2,
        pathsToEntrypoint g fuel u cache currentPath = some (ps, cache2) ∧
        PathsChar g u ps ∧ CacheGood g cache2 := by
  intro fuel
  induction fuel with
  | zero =>
    intro u cache cp hu
    exact absurd hu (Nat.not_lt_zero _)
  | succ n ih =>
    intro u cache cp hu hcg hcp
    cases hget : jsMapGet cache u with
    | some ps =>
      refine ⟨ps, cache, ?_, hcg u ps hget, hcg⟩
      rw [pathsToEntrypoint]
      simp only [hget]
    | none =>
      have hrec : ∀ p c, p ∈ g.parentsOf u → CacheGood g c →
          ∃ ps c2, pathsToEntrypoint g n p c (cp ++ [u]) = some (ps, c2) ∧
            PathsChar g p ps ∧ CacheGood g c2 := by
        intro p c hp hcgc
        refine ih p c (cp ++ [u]) ?_ hcgc ?_
        · have := hrank u p hp
          omega
        · intro x hx
          rcases List.mem_append.mp hx with h1 | h1
          · have h2 := hcp x h1
            have h3 := hrank u p hp
            omega
          · rw [List.mem_singleton.mp h1]
            exact hrank u p hp
      have hguard : ∀ p ∈ g.parentsOf u, p ∉ cp ++ [u] := by
        intro p hp hmem
        have h3 := hrank u p hp
        rcases List.mem_append.mp hmem with h1 | h1
        · have h2 := hcp p h1
          omega
        · rw [List.mem_singleton.mp h1] at h3
          omega
      obtain ⟨res, cache3, hloop, hcg3, hmem⟩ := pathsLoop_correct g u (cp ++ [u])
        (fun p c => pathsToEntrypoint g n p c (cp ++ [u])) hrec
        (g.parentsOf u)
        (if (g.parentsOf u).isEmpty then [[u]] else []) cache
        (fun q hq => hq) hguard hcg
      have hchar : PathsChar g u res := by
        constructor
        · intro path hpath
          rcases (hmem path).mp hpath with h1 | ⟨p, hp, pp, h2, h3, h4⟩
          · by_cases hemp : (g.parentsOf u).isEmpty
            · rw [if_pos hemp, List.mem_singleton] at h1
              subst h1
              constructor
              · show (g.parentsOf u).isEmpty = true
                exact hemp
              · rfl
            · rw [if_neg hemp] at h1
              exact absurd h1 (List.not_mem_nil path)
          · subst h4
            cases pp with
            | nil => exact absurd h3 (by simp)
            | cons p0 tail =>
              rw [List.head?_cons, Option.some_inj] at h3
              subst h3
              constructor
              · show (decide (p0 ∈ g.parentsOf u) && isClimbingPath g (p0 :: tail)) = true
                rw [Bool.and_eq_true]
                exact ⟨decide_eq_true hp, h2⟩
              · rfl
        · intro path hc hh
          cases path with
          | nil => exact absurd hh (by simp)
          | cons v tail =>
            rw [List.head?_cons, Option.some_inj] at hh
            subst hh
            cases tail with
            | nil =>
              have hemp : (g.parentsOf v).isEmpty = true := hc
              refine (hmem [v]).mpr (Or.inl ?_)
              rw [if_pos hemp]
              exact List.mem_singleton_self _
            | cons w rest2 =>
              have hc2 : (decide (w ∈ g.parentsOf v) && isClimbingPath g (w :: rest2))
                  = true := hc
              rw [Bool.and_eq_true] at hc2
              obtain ⟨hw, hcl⟩ := hc2
              refine (hmem (v :: w :: rest2)).mpr (Or.inr ?_)
              exact ⟨w, of_decide_eq_true hw, w :: rest2, hcl, rfl, rfl⟩
      refine ⟨res, jsMapSet cache3 u res, ?_, hchar, ?_⟩
      · rw [pathsToEntrypoint]
        simp only [hget, hloop]
      · intro v ps2 hv
        by_cases hvu : v = u
        · subst hvu
          rw [jsMapGet_jsMapSet_self] at hv
          injection hv with hv
          subst hv
          exact hchar
        · rw [jsMapGet_jsMapSet_ne _ _ _ _ hvu] at hv
          exact hcg3 v ps2 hv

end CommonAncestorsJs

namespace CommonAncestorsJs

/-- The loop invariant of `commonAncestors`: the accumulated path list
collects exactly the maximal climbing paths of the processed sources, and
`commonNodes` (once initialised) contains exactly the nodes lying on every
accumulated path. -/
theorem commonAncestorsLoop_correct (g : Graph) (rank : String → Nat)
    (hrank : ∀ v p, p ∈ g.parentsOf v → rank p < rank v) (fuel : Nat) :
    ∀ (srcs : List String) (cn₀ : Option (List String)) (paths₀ : List (List String))
        (cache : List (String × List (List String))),
      (∀ s ∈ srcs, rank s < fuel) → CacheGood g cache →
      (match cn₀ with
       | none => paths₀ = []
       | some cn => paths₀ ≠ [] ∧ ∀ x, x ∈ cn ↔ ∀ path ∈ paths₀, x ∈ path) →
      ∃ res, commonAncestorsLoop g fuel srcs cn₀ paths₀ cache = some res ∧
        (∀ path, path ∈ res.2 ↔ path ∈ paths₀ ∨
          ∃ s ∈ srcs, isClimbingPath g path = true ∧ path.head? = some s) ∧
        (match res.1 with
         | none => res.2 = []
         | some cn => res.2 ≠ [] ∧ ∀ x, x ∈ cn ↔ ∀ path ∈ res.2, x ∈ path) := by
  intro srcs
  induction srcs with
  | nil =>
    intro cn₀ paths₀ cache _ _ hinv
    refine ⟨(cn₀, paths₀), ?_, ?_, hinv⟩
    · rw [commonAncestorsLoop]
    · intro path
      simp
  | cons s rest ih =>
    intro cn₀ paths₀ cache hf hcg hinv
    obtain ⟨psS, cache2, hps, hcharS, hcg2⟩ := pathsToEntrypoint_correct g rank hrank fuel s
      cache [] (hf s (List.mem_cons_self _ _)) hcg (fun x hx => absurd hx (List.not_mem_nil x))
    obtain ⟨path0, hpath0c, hpath0h⟩ := exists_climbing_path g rank hrank fuel s
      (hf s (List.mem_cons_self _ _))
    have hpsne : psS ≠ [] := by
      intro hnil
      have h1 := hcharS.2 path0 hpath0c hpath0h
      rw [hnil] at h1
      exact absurd h1 (List.not_mem_nil _)
    have hstep : ∃ cn₂, (commonAncestorsLoop g fuel (s :: rest) cn₀ paths₀ cache =
        commonAncestorsLoop g fuel rest (some cn₂) (paths₀ ++ psS) cache2) ∧
        (∀ x, x ∈ cn₂ ↔ ∀ path ∈ paths₀ ++ psS, x ∈ path) := by
      cases cn₀ with
      | none =>
        have hp0 : paths₀ = [] := hinv
        subst hp0
        cases psS with
        | nil => exact absurd rfl hpsne
        | cons h0 t0 =>
          refine ⟨((h0 :: t0).drop 1).foldl
            (fun cn path => cn.filter (fun validNode => decide (validNode ∈ path)))
            (jsSetOfList (((h0 :: t0).head?).getD [])), ?_, ?_⟩
          · rw [commonAncestorsLoop]
            simp only [hps]
          · intro x
            rw [mem_foldl_filter]
            simp only [List.head?_cons, Option.getD_some, List.drop_succ_cons, List.drop_zero,
              mem_jsSetOfList, List.nil_append, List.forall_mem_cons]
      | some cn =>
        have hinv' : paths₀ ≠ [] ∧ ∀ x, x ∈ cn ↔ ∀ path ∈ paths₀, x ∈ path := hinv
        refine ⟨psS.foldl
          (fun cn path => cn.filter (fun validNode => decide (validNode ∈ path))) cn, ?_, ?_⟩
        · rw [commonAncestorsLoop]
          simp only [hps]
        · intro x
          rw [mem_foldl_filter, hinv'.2 x]
          constructor
          · rintro ⟨h1, h2⟩
            intro path hp
            rcases List.mem_append.mp hp with h3 | h3
            · exact h1 path h3
            · exact h2 path h3
          · intro h1
            exact ⟨fun path hp => h1 path (List.mem_append.mpr (Or.inl hp)),
              fun path hp => h1 path (List.mem_append.mpr (Or.inr hp))⟩
    obtain ⟨cn₂, hstepEq, hcn₂⟩ := hstep
    have hinv2 : paths₀ ++ psS ≠ [] ∧ ∀ x, x ∈ cn₂ ↔ ∀ path ∈ paths₀ ++ psS, x ∈ path := by
      refine ⟨?_, hcn₂⟩
      intro h1
      exact hpsne (List.append_eq_nil.mp h1).2
    obtain ⟨res, hres, hmemres, hinvres⟩ := ih (some cn₂) (paths₀ ++ psS) cache2
      (fun q hq => hf q (List.mem_cons_of_mem _ hq)) hcg2 hinv2
    refine ⟨res, by rw [hstepEq]; exact hres, ?_, hinvres⟩
    intro path
    rw [hmemres path, List.mem_append]
    constructor
    · rintro ((h1 | h1) | ⟨q, hq, h2, h3⟩)
      · exact Or.inl h1
      · obtain ⟨hc, hh⟩ := hcharS.1 path h1
        exact Or.inr ⟨s, List.mem_cons_self _ _, hc, hh⟩
      · exact Or.inr ⟨q, List.mem_cons_of_mem _ hq, h2, h3⟩
    · rintro (h1 | ⟨q, hq, h2, h3⟩)
      · exact Or.inl (Or.inl h1)
      · rcases List.mem_cons.mp hq with h5 | h5
        · subst h5
          exact Or.inl (Or.inr (hcharS.2 path h2 h3))
        · exact Or.inr ⟨q, h5, h2, h3⟩

end CommonAncestorsJs

/-- A two-root load-order graph: `E → A`, `E → B`, `R → B` — `B` can be
climbed both to `E` and to the second parentless node `R`. -/
def lcaExampleGraph : Graph :=
  ⟨[("E", ⟨"E", [], [], []⟩), ("R", ⟨"R", [], [], []⟩),
    ("A", ⟨"A", [], [], []⟩), ("B", ⟨"B", [], [], []⟩)],
   [("E", "A"), ("E", "B"), ("R", "B")]⟩

/-- Claim C5 counterexample: in the two-root graph, both input nodes `A` and
`B` have a path to the primary entry `E` (the enumeration contains `[A, E]`
and `[B, E]`), and `E` lies on every path to the entrypoint; yet because the
enumeration climbs to EVERY parentless node — the path `[B, R]` ends at the
unrelated root `R` — the common-node set ends up empty and
`lowestCommonAncestor` returns `undefined` instead of a common ancestor. -/
theorem C5_lca_counterexample :
    CommonAncestorsJs.lowestCommonAncestor lcaExampleGraph 10 ["A", "B"] (fun _ => 0) =
      some none ∧
    CommonAncestorsJs.commonAncestors lcaExampleGraph 10 ["A", "B"] =
      some (some [], [["A", "E"], ["B", "E"], ["B", "R"]]) ∧
    ("E" ∈ (["A", "E"] : List String) ∧ "E" ∈ (["B", "E"] : List String)) ∧
    (["B", "R"] : List String).getLast? = some "R" ∧
    ¬("R" = "E") ∧
    (lcaExampleGraph.parentsOf "E").isEmpty = true ∧
    (lcaExampleGraph.parentsOf "R").isEmpty = true := by
  refine ⟨rfl, rfl, by decide, by decide, by decide, by decide, by decide⟩

/-- Claim C5 (amended): on an acyclic load-order graph (rank strictly
decreasing along in-edges) and a non-empty source list, with enough fuel,
`commonAncestors` succeeds and returns exactly the maximal in-edge-climbing
paths from the sources — paths that end at ANY parentless node, not
necessarily at the primary entry, whose argument is unused — together with
the set of nodes lying on every such path; `lowestCommonAncestor` returns
the head of those common nodes sorted by descending supplied distance with
lexicographic tie-break: a common node of maximal distance, lexicographically
least among equals, or `undefined` when no node is common to all maximal
paths. -/
theorem C5_lowestCommonAncestor_amended (g : Graph) (rank : String → Nat) (dist : String → Int)
    (fuel : Nat) (sourceNodes : List String)
    (hrank : ∀ v p, p ∈ g.parentsOf v → rank p < rank v)
    (hfuel : ∀ s ∈ sourceNodes, rank s < fuel)
    (hne : sourceNodes ≠ []) :
    ∃ cn pathsAll,
      CommonAncestorsJs.commonAncestors g fuel sourceNodes = some (some cn, pathsAll) ∧
      (∀ path, path ∈ pathsAll ↔ ∃ s ∈ sourceNodes,
        CommonAncestorsJs.isClimbingPath g path = true ∧ path.head? = some s) ∧
      (∀ x, x ∈ cn ↔ ∀ path ∈ pathsAll, x ∈ path) ∧
      CommonAncestorsJs.lowestCommonAncestor g fuel sourceNodes dist =
        some ((NormalizeGraphJs.sortWithComparator (CommonAncestorsJs.lcaComparatorLe dist)
          cn).head?) ∧
      (∀ c, (NormalizeGraphJs.sortWithComparator (CommonAncestorsJs.lcaComparatorLe dist)
          cn).head? = some c →
        c ∈ cn ∧ ∀ y ∈ cn, dist y ≤ dist c ∧ (dist y = dist c → c ≤ y)) := by
  obtain ⟨res, hres, hmem, hinv⟩ := CommonAncestorsJs.commonAncestorsLoop_correct g rank hrank
    fuel sourceNodes none [] [] hfuel
    (fun u ps h => absurd h (by simp [jsMapGet])) rfl
  obtain ⟨cn₁, pathsAll⟩ := res
  cases cn₁ with
  | none =>
    exfalso
    have hempty : pathsAll = [] := hinv
    cases sourceNodes with
    | nil => exact hne rfl
    | cons s0 rest0 =>
      obtain ⟨path0, hc0, hh0⟩ := CommonAncestorsJs.exists_climbing_path g rank hrank fuel s0
        (hfuel s0 (List.mem_cons_self _ _))
      have h1 : path0 ∈ pathsAll := by
        refine (hmem path0).mpr (Or.inr ⟨s0, List.mem_cons_self _ _, hc0, hh0⟩)
      rw [hempty] at h1
      exact absurd h1 (List.not_mem_nil _)
  | some cn =>
    obtain ⟨hne2, hcn⟩ := hinv
    have hca : CommonAncestorsJs.commonAncestors g fuel sourceNodes = some (some cn, pathsAll) :=
      hres
    refine ⟨cn, pathsAll, hca, ?_, hcn, ?_, ?_⟩
    · intro path
      rw [hmem path]
      constructor
      · rintro (h1 | h1)
        · exact absurd h1 (List.not_mem_nil _)
        · exact h1
      · exact fun h1 => Or.inr h1
    · rw [CommonAncestorsJs.lowestCommonAncestor]
      simp only [hca]
    · intro c hc
      obtain ⟨hcmem, hmin⟩ := head_sortWithComparator_min
        (CommonAncestorsJs.lcaComparatorLe_total dist)
        (CommonAncestorsJs.lcaComparatorLe_trans dist) hc
      refine ⟨hcmem, ?_⟩
      intro y hy
      have h2 := hmin y hy
      unfold CommonAncestorsJs.lcaComparatorLe at h2
      by_cases hd : dist c = dist y
      · rw [if_pos hd] at h2
        exact ⟨le_of_eq hd.symm, fun _ => of_decide_eq_true h2⟩
      · rw [if_neg hd] at h2
        exact ⟨of_decide_eq_true h2, fun h => absurd h.symm hd⟩

/-- A single-root graph `E → A`, `E → B` for exercising the amended LCA
theorem. -/
def lcaWitnessGraph : Graph :=
  ⟨[("E", ⟨"E", [], [], []⟩), ("A", ⟨"A", [], [], []⟩), ("B", ⟨"B", [], [], []⟩)],
   [("E", "A"), ("E", "B")]⟩

/-- A topological rank for `lcaWitnessGraph`: parents rank strictly below
their children. -/
def lcaWitnessRank : String → Nat := fun v => if v = "E" then 0 else 1

/-- A distance map for `lcaWitnessGraph`. -/
def lcaWitnessDist : String → Int := fun v => if v = "E" then 0 else 1

theorem lcaWitnessRank_spec :
    ∀ v p, p ∈ lcaWitnessGraph.parentsOf v → lcaWitnessRank p < lcaWitnessRank v := by
  intro v p hp
  unfold Graph.parentsOf Graph.inEdges at hp
  rw [List.mem_map] at hp
  obtain ⟨e, he, hep⟩ := hp
  rw [List.mem_filter] at he
  obtain ⟨hee, hev⟩ := he
  fin_cases hee <;>
    (simp only [beq_iff_eq] at hev
     subst hev
     rw [← hep]
     decide)

/-- Claim C5 witness: the amended theorem applied to the single-root graph
with sources `A` and `B`; the computed lowest common ancestor is `E`. -/
theorem C5_lca_witness :
    (∀ s ∈ (["A", "B"] : List String), lcaWitnessRank s < 10) ∧
    (["A", "B"] : List String) ≠ [] ∧
    CommonAncestorsJs.lowestCommonAncestor lcaWitnessGraph 10 ["A", "B"] lcaWitnessDist =
      some (some "E") ∧
    (∃ cn pathsAll,
      CommonAncestorsJs.commonAncestors lcaWitnessGraph 10 ["A", "B"] =
        some (some cn, pathsAll) ∧
      (∀ path, path ∈ pathsAll ↔ ∃ s ∈ (["A", "B"] : List String),
        CommonAncestorsJs.isClimbingPath lcaWitnessGraph path = true ∧ path.head? = some s) ∧
      (∀ x, x ∈ cn ↔ ∀ path ∈ pathsAll, x ∈ path) ∧
      CommonAncestorsJs.lowestCommonAncestor lcaWitnessGraph 10 ["A", "B"] lcaWitnessDist =
        some ((NormalizeGraphJs.sortWithComparator
          (CommonAncestorsJs.lcaComparatorLe lcaWitnessDist) cn).head?) ∧
      (∀ c, (NormalizeGraphJs.sortWithComparator
          (CommonAncestorsJs.lcaComparatorLe lcaWitnessDist) cn).head? = some c →
        c ∈ cn ∧ ∀ y ∈ cn, lcaWitnessDist y ≤ lcaWitnessDist c ∧
          (lcaWitnessDist y = lcaWitnessDist c → c ≤ y))) :=
  ⟨by decide, by decide, rfl,
    C5_lowestCommonAncestor_amended lcaWitnessGraph lcaWitnessRank lcaWitnessDist 10
      ["A", "B"] lcaWitnessRank_spec (by decide) (by decide)⟩
